import Mathlib

/-!
# DynamO: the Morton-ordered cell neighbour list (`CGCellsMorton`)

A shallow embedding of `src/dynamo/dynamo/dynamics/globals/gcellsmorton.cpp` and proofs about
the cell arithmetic, the neighbourhood walks, the configuration loader and the grid builder.

Conventions.
* `S` is the number of binary digits of one dilated coordinate, `W` the width of `size_t`.
* A C++ `int` is an `Int` reduced with `toInt32`, a `size_t` a `Nat` reduced with `% 2 ^ W`.
* A `double` is a rational number; rounding is not modelled.
-/

namespace DynamO

/-! ## Machine integers -/

/-- Conversion of an integer to a C++ `int` (two's complement, 32 bits). -/
def toInt32 (v : Int) : Int := (v + 2 ^ 31) % 2 ^ 32 - 2 ^ 31

/-- Conversion of an integer to a `size_t` of `W` bits. -/
def toSizeT (W : Nat) (v : Int) : Nat := (v % 2 ^ W).toNat

/-! ## Dilated integers -/

/-- Modelled from the spec: the class `magnet::math::DilatedInteger<3>` lives in a header that is
not part of the sources. The spec asks that its arithmetic be "equivalent to modular arithmetic
on the corresponding plain integer", so a dilated integer with `S` digits is represented by the
plain integer it stands for, a natural number below `2 ^ S`. `dOfNat` is the construction
from (and assignment of) a `size_t`, which keeps the low `S` digits. -/
def dOfNat (S v : Nat) : Nat := v % 2 ^ S

/-- Modelled from the spec: `DilatedInteger::operator+`, addition of the plain values with
overflow wrap at `2 ^ S`. -/
def dAdd (S a b : Nat) : Nat := (a + b) % 2 ^ S

/-- Modelled from the spec: `DilatedInteger::operator-`, subtraction of the plain values with
borrow wrap at `2 ^ S`. -/
def dSub (S a b : Nat) : Nat := (a + (2 ^ S - b % 2 ^ S)) % 2 ^ S

/-- Modelled from the spec: `DilatedInteger::operator++`. -/
def dInc (S a : Nat) : Nat := dAdd S a 1

/-- Modelled from the spec: `DilatedInteger::operator--`. -/
def dDec (S a : Nat) : Nat := dSub S a 1

/-- Modelled from the spec: `std::numeric_limits<DilatedInteger<3> >::max()`, the dilated
integer with every digit set. -/
def dLimitMax (S : Nat) : Nat := 2 ^ S - 1

/-- Modelled from the spec: the dilated bit pattern of a plain value, digit `b` of the value
placed at bit `3 * b` ("bits spread apart so that three axis values can be interleaved"). -/
def dilate : Nat → Nat → Nat
  | 0, _ => 0
  | S + 1, v => v % 2 + 8 * dilate S (v / 2)

/-- Modelled from the spec: the plain value of a dilated bit pattern, reading every third bit. -/
def undilate : Nat → Nat → Nat
  | 0, _ => 0
  | S + 1, m => m % 2 + 2 * undilate S (m / 8)

/-! ## Three-component vectors and Morton numbers -/

/-- A three-component vector (`CVector<T>`, and the three axes of a `MortonNumber<3>`). -/
structure CVector (α : Type) where
  x : α
  y : α
  z : α
deriving DecidableEq, Repr

/-- Component access `v[i]`; the source only uses the axes 0, 1 and 2 (`NDIM == 3`). -/
def CVector.get {α : Type} (v : CVector α) (i : Nat) : α :=
  match i with
  | 0 => v.x
  | 1 => v.y
  | _ => v.z

/-- Component assignment `v[i] = a`. -/
def CVector.set {α : Type} (v : CVector α) (i : Nat) (a : α) : CVector α :=
  match i with
  | 0 => { v with x := a }
  | 1 => { v with y := a }
  | _ => { v with z := a }

/-- A `magnet::math::MortonNumber<3>`: three dilated integers, each held as its plain value. -/
abbrev MortonNumber := CVector Nat

/-- Modelled from the spec: `MortonNumber<3>::getMortonNum`, "composing three dilated axis
values yields one flat cell index": the three dilated patterns interleaved. -/
def getMortonNum (S : Nat) (m : MortonNumber) : Nat :=
  dilate S m.x + 2 * dilate S m.y + 4 * dilate S m.z

/-- Modelled from the spec: the constructor `MortonNumber<3>(size_t)` that decodes a flat
cell index into its three axis values. -/
def ofMortonNum (S : Nat) (n : Nat) : MortonNumber :=
  ⟨undilate S n, undilate S (n / 2), undilate S (n / 4)⟩

/-- Modelled from the spec: the constructor `MortonNumber<3>(x, y, z)` from three `size_t`. -/
def mortonOfCoords (S : Nat) (i j k : Nat) : MortonNumber :=
  ⟨dOfNat S i, dOfNat S j, dOfNat S k⟩

/-! ## Grid geometry -/

/-- The integer part of the grid geometry held by `CGCellsMorton`. -/
structure Grid where
  cellCount : CVector Nat
  dilatedCellMax : MortonNumber
  dilatedOverlink : Nat
  overlink : Nat
deriving DecidableEq, Repr

/-- The grid geometry `addCells` stores for given per-axis cell counts and look-ahead radius:
`dilatedCellMax[iDim] = cellCount[iDim] - 1` and `dilatedOverlink = overlink`. -/
def mkGrid (S : Nat) (n : CVector Nat) (overlink : Nat) : Grid :=
  { cellCount := n
    dilatedCellMax := ⟨dOfNat S (n.x - 1), dOfNat S (n.y - 1), dOfNat S (n.z - 1)⟩
    dilatedOverlink := dOfNat S overlink
    overlink := overlink }

/-! ## `runEvent`: the cell transition -/

/-- The axis of the crossing, `cellDirection = abs(cellDirectionInt) - 1`. -/
def cellDirectionOf (cellDirectionInt : Int) : Nat := cellDirectionInt.natAbs - 1

/-- The first axis of the slab walk, `dim1 = cellDirection + 1 - 3 * (cellDirection > 1)`. -/
def dim1Of (cellDirection : Nat) : Nat :=
  cellDirection + 1 - 3 * (if cellDirection > 1 then 1 else 0)

/-- The second axis of the slab walk, `dim2 = cellDirection + 2 - 3 * (cellDirection > 0)`. -/
def dim2Of (cellDirection : Nat) : Nat :=
  cellDirection + 2 - 3 * (if cellDirection > 0 then 1 else 0)

/-- Lines 131-164 of `runEvent`: from the old cell and the signed crossing axis, the
destination cell `dendCell` and the walking coordinate `inCell` whose crossing axis has been
moved to the leading edge. -/
def runEventCells (S : Nat) (g : Grid) (inCell0 : MortonNumber) (cellDirectionInt : Int) :
    MortonNumber × MortonNumber :=
  let cd := cellDirectionOf cellDirectionInt
  let cmax := g.dilatedCellMax.get cd
  if cellDirectionInt > 0 then
    let dend := dInc S (inCell0.get cd)
    let inc := dAdd S dend g.dilatedOverlink
    let dend2 := if dend > cmax then dSub S (dDec S dend) cmax else dend
    let inc2 := if inc > cmax then dSub S (dDec S inc) cmax else inc
    (inCell0.set cd dend2, inCell0.set cd inc2)
  else
    let dend := dDec S (inCell0.get cd)
    let inc := dSub S dend g.dilatedOverlink
    let dend2 := if dend > cmax then dSub S dend (dSub S (dLimitMax S) cmax) else dend
    let inc2 := if inc > cmax then dSub S inc (dSub S (dLimitMax S) cmax) else inc
    (inCell0.set cd dend2, inCell0.set cd inc2)

/-- The destination cell index `endCell` that `runEvent` computes for a particle stored in the
cell with flat index `oldCell`. -/
def runEventEndCell (S : Nat) (g : Grid) (oldCell : Nat) (cellDirectionInt : Int) : Nat :=
  getMortonNum S (runEventCells S g (ofMortonNum S oldCell) cellDirectionInt).1

/-- Lines 182-190 of `runEvent`: the walking coordinate moved back by the look-ahead radius on
one walking axis, with the single "looped around" correction. -/
def walkStart (S : Nat) (g : Grid) (c : MortonNumber) (dim : Nat) : MortonNumber :=
  let v := dSub S (c.get dim) g.dilatedOverlink
  let v2 := if v > g.dilatedCellMax.get dim then
      dSub S v (dSub S (dLimitMax S) (g.dilatedCellMax.get dim)) else v
  c.set dim v2

/-- The inner loop (over `jDim`) of the slab walk: returns the cells whose occupancy list is
read, in order. -/
def walkInner (S : Nat) (g : Grid) (dim1 : Nat) : Nat → MortonNumber → List MortonNumber
  | 0, _ => []
  | k + 1, c =>
    let c1 := if c.get dim1 > g.dilatedCellMax.get dim1 then c.set dim1 (dOfNat S 0) else c
    c1 :: walkInner S g dim1 k (c1.set dim1 (dInc S (c1.get dim1)))

/-- The outer loop (over `iDim`) of the slab walk; `saved` is `saved_coord`. -/
def walkOuter (S : Nat) (g : Grid) (dim1 dim2 : Nat) (walkLength : Nat) (saved : Nat) :
    Nat → MortonNumber → List MortonNumber
  | 0, _ => []
  | k + 1, c =>
    let c1 := if c.get dim2 > g.dilatedCellMax.get dim2 then c.set dim2 (dOfNat S 0) else c
    let c2 := (c1.set dim1 saved).set dim2 (dInc S (c1.get dim2))
    walkInner S g dim1 walkLength c1 ++ walkOuter S g dim1 dim2 walkLength saved k c2

/-- The number of steps of each loop of the slab walk, `int walkLength = 2 * overlink + 1`
used as the bound of an `int` counter starting at 0. -/
def walkLengthOf (g : Grid) : Nat := (toInt32 (2 * (g.overlink : Int) + 1)).toNat

/-- Lines 178-224 of `runEvent`: the cells whose occupancy lists are scanned, in scan order,
given the walking coordinate left by `runEventCells`. -/
def runEventWalk (S : Nat) (g : Grid) (inCell : MortonNumber) (cellDirection : Nat) :
    List MortonNumber :=
  let dim1 := dim1Of cellDirection
  let dim2 := dim2Of cellDirection
  let c := walkStart S g (walkStart S g inCell dim1) dim2
  walkOuter S g dim1 dim2 (walkLengthOf g) (c.get dim1) (walkLengthOf g) c

/-- The cells scanned by `runEvent` for a particle in the cell of coordinates `c` crossing in
direction `cellDirectionInt`. -/
def runEventScanned (S : Nat) (g : Grid) (c : MortonNumber) (cellDirectionInt : Int) :
    List MortonNumber :=
  runEventWalk S g (runEventCells S g c cellDirectionInt).2 (cellDirectionOf cellDirectionInt)

/-! ## The occupancy ledger -/

/-- The intrusive occupancy lists: `list[cell]` is the head of a cell's list (negative when the
cell is empty) and `partCellData[id]` holds the links and the stored cell of a particle. -/
structure Ledger where
  list : Nat → Int
  next : Nat → Int
  prev : Nat → Int
  cell : Nat → Nat

/-- Modelled from the spec: `addToCell` is defined in the class header, which is not part of the
sources: "O(1) push to the head of the cell's occupancy list", with prev/next tracking. -/
def addToCell (L : Ledger) (ID cellNum : Nat) : Ledger :=
  let head := L.list cellNum
  { list := Function.update L.list cellNum (ID : Int)
    next := Function.update L.next ID head
    prev := Function.update
      (if 0 ≤ head then Function.update L.prev head.toNat (ID : Int) else L.prev) ID (-1)
    cell := Function.update L.cell ID cellNum }

/-- Modelled from the spec: `removeFromCell` is defined in the class header, which is not part
of the sources: "O(1) unlink given the particle's current cell", with prev/next tracking. -/
def removeFromCell (L : Ledger) (ID : Nat) : Ledger :=
  let p := L.prev ID
  let nx := L.next ID
  let L1 : Ledger :=
    if 0 ≤ p then { L with next := Function.update L.next p.toNat nx }
    else { L with list := Function.update L.list (L.cell ID) nx }
  if 0 ≤ nx then { L1 with prev := Function.update L1.prev nx.toNat p } else L1

/-- The loop `for (int next = head; next >= 0; next = partCellData[next].next)`: the ids it
visits, or `none` when it has not ended after `fuel` steps. -/
def chain (next : Nat → Int) : Nat → Int → Option (List Nat)
  | 0, h => if h < 0 then some [] else none
  | fuel + 1, h =>
    if h < 0 then some []
    else (chain next fuel (next h.toNat)).map (fun l => h.toNat :: l)

/-- The ids visited by the occupancy loop of the cell with flat index `idx`. -/
def occupancy (L : Ledger) (fuel : Nat) (idx : Nat) : Option (List Nat) :=
  chain L.next fuel (L.list idx)

/-- The ids visited when the occupancy loops of a sequence of cells run one after the other. -/
def scanCells (S : Nat) (L : Ledger) (fuel : Nat) : List MortonNumber → Option (List Nat)
  | [] => some []
  | m :: ms =>
    match occupancy L fuel (getMortonNum S m), scanCells S L fuel ms with
    | some l, some r => some (l ++ r)
    | _, _ => none

/-! ## `runEvent` as a whole -/

/-- What one execution of `runEvent` leaves behind: the ledger, the destination cell, the
arguments of the new-neighbour notifications in the order they are issued, the arguments of the
new-local notifications, and the old cell passed to the cell-change notification. -/
structure RunEventResult where
  ledger : Ledger
  endCell : Nat
  newNeighbours : List (Nat × Nat)
  newLocals : List (Nat × Nat)
  cellChange : Nat × Nat

/-- The function `CGCellsMorton::runEvent` for the particle `pid`; `cellDirectionInt` is the
signed axis returned by `getSquareCellCollision3` and `cells` the geometry binding table. The
scheduler calls are not modelled; every loop iteration of lines 207-215 issues the
notification `(part, next)`. -/
def runEvent (S : Nat) (g : Grid) (cells : Nat → List Nat) (L : Ledger) (fuel : Nat)
    (pid : Nat) (cellDirectionInt : Int) : Option RunEventResult :=
  let oldCell := L.cell pid
  let endCell := runEventEndCell S g oldCell cellDirectionInt
  let L2 := addToCell (removeFromCell L pid) pid endCell
  (scanCells S L2 fuel (runEventScanned S g (ofMortonNum S oldCell) cellDirectionInt)).map
    (fun nb =>
      { ledger := L2
        endCell := endCell
        newNeighbours := nb.map (fun q => (pid, q))
        newLocals := (cells endCell).map (fun l => (pid, l))
        cellChange := (pid, oldCell) })

/-! ## Neighbourhood queries -/

/-- Lines 459-464 of `getParticleNeighbourhood`: one axis of `max_coords`. -/
def nbhdMaxAxis (S : Nat) (g : Grid) (c : MortonNumber) (dim : Nat) : MortonNumber :=
  let v := dAdd S (c.get dim) (dAdd S g.dilatedOverlink (dOfNat S 1))
  let v2 := if v > g.dilatedCellMax.get dim then
      dSub S v (dAdd S (g.dilatedCellMax.get dim) (dOfNat S 1)) else v
  c.set dim v2

/-- The value `zero_coords` of `getParticleNeighbourhood` (lines 449-456; the loop body is the
same correction as in `runEvent`). -/
def nbhdZero (S : Nat) (g : Grid) (center : MortonNumber) : MortonNumber :=
  walkStart S g (walkStart S g (walkStart S g center 0) 1) 2

/-- The value `max_coords` of `getParticleNeighbourhood` (lines 458-466). -/
def nbhdMax (S : Nat) (g : Grid) (center : MortonNumber) : MortonNumber :=
  nbhdMaxAxis S g (nbhdMaxAxis S g (nbhdMaxAxis S g center 0) 1) 2

/-- One pass through the body of the `while` loop of `getParticleNeighbourhood` after the
occupancy scan (lines 476-487): the next value of `coords`. -/
def nbhdAdvance (S : Nat) (g : Grid) (zero max : MortonNumber) (coords : MortonNumber) :
    MortonNumber :=
  let c0 := coords.set 0 (dInc S (coords.get 0))
  let c0 := if c0.get 0 > g.dilatedCellMax.get 0 then c0.set 0 (dOfNat S 0) else c0
  if c0.get 0 ≠ max.get 0 then c0
  else
    let c1 := (c0.set 1 (dInc S (c0.get 1))).set 0 (zero.get 0)
    let c1 := if c1.get 1 > g.dilatedCellMax.get 1 then c1.set 1 (dOfNat S 0) else c1
    if c1.get 1 ≠ max.get 1 then c1
    else
      let c2 := (c1.set 2 (dInc S (c1.get 2))).set 1 (zero.get 1)
      if c2.get 2 > g.dilatedCellMax.get 2 then c2.set 2 (dOfNat S 0) else c2

/-- The `while (coords[2] != max_coords[2])` loop of `getParticleNeighbourhood`: the ids passed
to the callback, or `none` when the loop (or an occupancy loop inside it) has not ended after
`fuel` iterations. -/
def nbhdLoop (S : Nat) (g : Grid) (L : Ledger) (pid : Nat) (zero max : MortonNumber) :
    Nat → MortonNumber → Option (List Nat)
  | 0, coords => if coords.get 2 = max.get 2 then some [] else none
  | fuel + 1, coords =>
    if coords.get 2 = max.get 2 then some []
    else
      match occupancy L (fuel + 1) (getMortonNum S coords),
        nbhdLoop S g L pid zero max fuel (nbhdAdvance S g zero max coords) with
      | some l, some r => some (l.filter (fun (q : Nat) => decide ((q : Int) ≠ (pid : Int))) ++ r)
      | _, _ => none

/-- The function `CGCellsMorton::getParticleNeighbourhood`: the pairs passed to `func`. -/
def getParticleNeighbourhood (S : Nat) (g : Grid) (L : Ledger) (fuel : Nat) (pid : Nat) :
    Option (List (Nat × Nat)) :=
  let center := ofMortonNum S (L.cell pid)
  let zero := nbhdZero S g center
  let max := nbhdMax S g center
  (nbhdLoop S g L pid zero max fuel zero).map (fun l => l.map (fun q => (pid, q)))

/-- The function `CGCellsMorton::getParticleLocalNeighbourhood`: the pairs passed to `func`,
one per iteration of the `BOOST_FOREACH` over `cells[partCellData[part.getID()].cell]`. -/
def getParticleLocalNeighbourhood (cells : Nat → List Nat) (L : Ledger) (pid : Nat) :
    List (Nat × Nat) :=
  (cells (L.cell pid)).foldl (fun calls id => calls ++ [(pid, id)]) []

/-! ## `getCellID` -/

/-- The integer part of one axis of `getCellID` (lines 431-433) for a floored quotient `q` held
in an `int` and a cell count `n` held in a `size_t` of `W` bits: `coord %= n` converts `coord`
to `size_t` before taking the remainder, the result is stored back in the `int`, corrected when
negative, and assigned to the dilated coordinate. -/
def getCellIDAxis (W S : Nat) (q : Int) (n : Nat) : Nat :=
  let coord : Int := toInt32 q
  let coord : Int := toInt32 ((toSizeT W coord % n : Nat) : Int)
  let coord : Int := if coord < 0 then toInt32 ((toSizeT W coord + n) % 2 ^ W : Nat) else coord
  dOfNat S (toSizeT W coord)

/-- The floating-point part of the simulation data read by the cell list; a `double` is a
rational number. -/
structure SimData where
  N : Nat
  primaryCellSize : CVector ℚ
  position : Nat → CVector ℚ
  applyBC : CVector ℚ → CVector ℚ

/-- The real-valued part of the grid geometry. -/
structure Geometry where
  cellLatticeWidth : CVector ℚ
  cellDimension : CVector ℚ
  cellOffset : CVector ℚ

/-- The function `CGCellsMorton::getCellID`. -/
def getCellID (W S : Nat) (sim : SimData) (g : Grid) (geo : Geometry) (pos0 : CVector ℚ) :
    MortonNumber :=
  let pos := sim.applyBC pos0
  let axis (i : Nat) : Nat :=
    getCellIDAxis W S
      ⌊(pos.get i + (1 / 2) * sim.primaryCellSize.get i - geo.cellOffset.get i)
        / geo.cellLatticeWidth.get i⌋
      (g.cellCount.get i)
  ⟨axis 0, axis 1, axis 2⟩

/-! ## Loading the configuration -/

/-- The attributes of the XML node read by the loader: an attribute is absent (`none`),
present with a text that does not convert to the requested type (`some none`, the conversion
throws), or present with a value. -/
structure XMLNode where
  OverLink : Option (Option Nat)
  Oversize : Option (Option ℚ)
  Name : Option String

/-- The members of `CGCellsMorton` written by the loader. -/
structure Config where
  overlink : Nat
  oversizeCells : ℚ
  globName : String

/-- The members as the constructors set them: `_oversizeCells(1.0)`, `overlink(1)`. -/
def defaultConfig (name : String) : Config :=
  { overlink := 1, oversizeCells := 1, globName := name }

/-- The message of the exception that leaves the loader, whatever was thrown inside its `try`
block. -/
def loadError : String := "Error loading CGCellsMorton"

/-- The function `CGCellsMorton::operator<<` (lines 69-88). Every exception raised inside the
`try` block is caught and replaced by `loadError`; the members assigned before the exception are
dropped with the failed load. -/
def loadXML (cfg : Config) (XML : XMLNode) : Except String Config :=
  match XML.OverLink with
  | some none => .error loadError
  | ol =>
    let overlink := match ol with
      | some (some v) => v
      | _ => cfg.overlink
    match XML.Oversize with
    | some none => .error loadError
    | os =>
      let oversize := match os with
        | some (some v) => v
        | _ => cfg.oversizeCells
      if oversize < 1 then .error loadError
      else
        match XML.Name with
        | none => .error loadError
        | some nm => .ok { overlink := overlink, oversizeCells := oversize, globName := nm }

/-! ## Building the grid: `addCells` -/

/-- The members of `CGCellsMorton` written by `addCells`; `listSize` is the common size of the
arrays `list` and `cells`. -/
structure CellState where
  grid : Grid
  geo : Geometry
  NCells : Nat
  listSize : Nat
  ledger : Ledger
  cells : Nat → List Nat

/-- The two exceptions `addCells` can throw: "Not enough cells in ... dimension, need 3+" for
an axis, and "list is ... big and accessing ..." for a cell index. -/
inductive AddCellsError where
  | needThree (iDim : Nat)
  | listTooSmall (size id : Nat)
deriving DecidableEq, Repr

/-- Conversion of a `double` to `int`: the fractional part is discarded. -/
def truncToInt (q : ℚ) : Int := if 0 ≤ q then ⌊q⌋ else ⌈q⌉

/-- The cell count of one axis, line 321:
`int(primaryCellSize / (maxdiam * (1.0 + 10 * epsilon)))` stored in a `size_t`. -/
def cellCountOf (W : Nat) (eps size maxdiam : ℚ) : Nat :=
  toSizeT W (toInt32 (truncToInt (size / (maxdiam * (1 + 10 * eps)))))

/-- The per-axis loop of `addCells` (lines 319-333) for the axes `iDim, iDim + 1, ...` below 3,
threading the members it writes. -/
def addCellsAxes (W S : Nat) (eps lambda : ℚ) (size : CVector ℚ) (maxdiam : ℚ) :
    Nat → Nat → (CVector Nat × MortonNumber × Geometry × Nat) →
    Except AddCellsError (CVector Nat × MortonNumber × Geometry × Nat)
  | 0, _, st => .ok st
  | k + 1, iDim, (cellCount, cellMax, geo, NCells) =>
    let n := cellCountOf W eps (size.get iDim) maxdiam
    if n < 3 then .error (.needThree iDim)
    else
      let lw : ℚ := size.get iDim / (n : ℚ)
      addCellsAxes W S eps lambda size maxdiam k (iDim + 1)
        (cellCount.set iDim n,
         cellMax.set iDim (dOfNat S (n - 1)),
         { cellLatticeWidth := geo.cellLatticeWidth.set iDim lw
           cellDimension := geo.cellDimension.set iDim (lw + (lw - maxdiam) * lambda)
           cellOffset := geo.cellOffset.set iDim (-(lw - maxdiam) * lambda * (1 / 2)) },
         (NCells * n) % 2 ^ W)

/-- The coordinates visited by the three nested loops of lines 369-382, in order. -/
def cellCoords (n : CVector Nat) : List (Nat × Nat × Nat) :=
  (List.range n.x).flatMap (fun i => (List.range n.y).flatMap (fun j =>
    (List.range n.z).map (fun k => (i, j, k))))

/-- The body of the loops of lines 369-382: the bound check and the write `list[id] = -1`. -/
def clearCell (S : Nat) (sizeReq : Nat) (list : Nat → Int) (c : Nat × Nat × Nat) :
    Except AddCellsError (Nat → Int) :=
  let id := getMortonNum S (mortonOfCoords S c.1 c.2.1 c.2.2)
  if id > sizeReq then .error (.listTooSmall sizeReq id)
  else .ok (Function.update list id (-1))

/-- The loops of lines 369-382 over a list of coordinates. -/
def clearCells (S : Nat) (sizeReq : Nat) :
    List (Nat × Nat × Nat) → (Nat → Int) → Except AddCellsError (Nat → Int)
  | [], list => .ok list
  | c :: cs, list =>
    match clearCell S sizeReq list c with
    | .error e => .error e
    | .ok list2 => clearCells S sizeReq cs list2

/-- The loop of lines 389-390: every particle is pushed on the list of the cell of its
position. -/
def addParticles (W S : Nat) (sim : SimData) (g : Grid) (geo : Geometry) :
    List Nat → Ledger → Ledger
  | [], L => L
  | p :: ps, L =>
    addParticles W S sim g geo ps
      (addToCell L p (getMortonNum S (getCellID W S sim g geo (sim.position p))))

/-- The function `CGCellsMorton::addCells`. `old` holds the members before the call (`list`
keeps its old entries below its old size when it is resized, new entries are 0), `overlink`
and `lambda` are the configured look-ahead radius and skin, `eps` stands for
`std::numeric_limits<double>::epsilon()`. -/
def addCells (W S : Nat) (eps lambda : ℚ) (overlink : Nat) (sim : SimData) (old : CellState)
    (maxdiam : ℚ) : Except AddCellsError CellState :=
  match addCellsAxes W S eps lambda sim.primaryCellSize maxdiam 3 0
      (⟨0, 0, 0⟩, old.grid.dilatedCellMax, old.geo, 1) with
  | .error e => .error e
  | .ok (cellCount, cellMax, geo, NCells) =>
    let g : Grid :=
      { cellCount := cellCount, dilatedCellMax := cellMax,
        dilatedOverlink := dOfNat S overlink, overlink := overlink }
    let sizeReq := getMortonNum S (mortonOfCoords S cellCount.x cellCount.y cellCount.z)
    let list0 : Nat → Int := fun i => if i < old.listSize then old.ledger.list i else 0
    match clearCells S sizeReq (cellCoords cellCount) list0 with
    | .error e => .error e
    | .ok list1 =>
      .ok { grid := g
            geo := geo
            NCells := NCells
            listSize := sizeReq
            ledger := addParticles W S sim g geo (List.range sim.N)
              { old.ledger with list := list1 }
            cells := fun _ => [] }

/-- The members before the first call of `addCells`, as the constructors leave them. -/
def emptyState : CellState :=
  { grid := { cellCount := ⟨0, 0, 0⟩, dilatedCellMax := ⟨0, 0, 0⟩, dilatedOverlink := 0,
              overlink := 1 }
    geo := { cellLatticeWidth := ⟨0, 0, 0⟩, cellDimension := ⟨1, 1, 1⟩, cellOffset := ⟨0, 0, 0⟩ }
    NCells := 0
    listSize := 0
    ledger := ⟨fun _ => 0, fun _ => -1, fun _ => -1, fun _ => 0⟩
    cells := fun _ => [] }

/-! ## Well-formed inputs -/

/-- Every axis has at least three cells and a cell count that fits a dilated integer. -/
def CountsOK (S : Nat) (n : CVector Nat) : Prop :=
  (3 ≤ n.x ∧ n.x < 2 ^ S) ∧ (3 ≤ n.y ∧ n.y < 2 ^ S) ∧ (3 ≤ n.z ∧ n.z < 2 ^ S)

instance (S : Nat) (n : CVector Nat) : Decidable (CountsOK S n) := by
  unfold CountsOK; infer_instance

/-- On every axis the cell count plus the look-ahead radius fits a dilated integer, so that
no sum of a coordinate and the radius overflows the `S` digits. -/
def Headroom (S : Nat) (n : CVector Nat) (ov : Nat) : Prop :=
  n.x + ov < 2 ^ S ∧ n.y + ov < 2 ^ S ∧ n.z + ov < 2 ^ S

instance (S : Nat) (n : CVector Nat) (ov : Nat) : Decidable (Headroom S n ov) := by
  unfold Headroom; infer_instance

/-- The coordinate `c` names a cell of the grid with cell counts `n`. -/
def InGrid (n : CVector Nat) (c : MortonNumber) : Prop :=
  c.x < n.x ∧ c.y < n.y ∧ c.z < n.z

instance (n : CVector Nat) (c : MortonNumber) : Decidable (InGrid n c) := by
  unfold InGrid; infer_instance

/-- The values `getSquareCellCollision3` returns: an axis number 1, 2 or 3 with a sign. -/
def IsDirection (d : Int) : Prop := d ≠ 0 ∧ d.natAbs ≤ 3

instance (d : Int) : Decidable (IsDirection d) := by
  unfold IsDirection; infer_instance

/-- The sign of a crossing direction as a step of one cell. -/
def signOf (d : Int) : Int := if 0 < d then 1 else -1

/-- The destination coordinates in plain modular arithmetic: the crossing axis moves by one
cell in the direction of `d`, with periodic wrap at the cell count. -/
def stepCoord (n : CVector Nat) (c : MortonNumber) (d : Int) : MortonNumber :=
  c.set (cellDirectionOf d)
    ((c.get (cellDirectionOf d) + (if 0 < d then 1 else n.get (cellDirectionOf d) - 1))
      % n.get (cellDirectionOf d))

/-! ## The slab of newly exposed cells, in plain modular arithmetic -/

/-- The cell `m` lies in the slab that a particle leaving the cell `c` in direction `d` newly
sees: on the crossing axis its coordinate is the old one moved by `1 + overlink` cells in the
crossing direction, on each other axis it is within `overlink` cells of the old one, all taken
modulo the cell count. -/
def InSlab (n : CVector Nat) (ov : Nat) (c : MortonNumber) (d : Int) (m : MortonNumber) :
    Prop :=
  (m.get (cellDirectionOf d) : Int)
      = ((c.get (cellDirectionOf d) : Int) + signOf d * (1 + (ov : Int)))
          % (n.get (cellDirectionOf d) : Int)
  ∧ ∀ b, b < 3 → b ≠ cellDirectionOf d →
      ∃ e : Int, -(ov : Int) ≤ e ∧ e ≤ (ov : Int) ∧
        (m.get b : Int) = ((c.get b : Int) + e) % (n.get b : Int)

/-- The coordinates one loop of a walk visits on its axis: `k` steps from `v`, each step
first resetting a coordinate beyond `cmax` to zero, then incrementing. -/
def axisSeq (S cmax : Nat) : Nat → Nat → List Nat
  | 0, _ => []
  | k + 1, v =>
    let v1 := if v > cmax then dOfNat S 0 else v
    v1 :: axisSeq S cmax k (dInc S v1)

/-- The coordinate `walkStart` stores: the coordinate `v` moved back by the look-ahead radius,
with the single correction. -/
def startCoord (S ov cmax v : Nat) : Nat :=
  if dSub S v ov > cmax then dSub S (dSub S v ov) (dSub S (dLimitMax S) cmax)
  else dSub S v ov

/-! ## Agreement between the occupancy lists and the stored cells -/

/-- The occupancy lists of the ledger agree with the stored cell ids of the particles
`0, ..., N - 1`: the occupancy loop of every grid cell ends within `fuel` steps, visits no id
twice, and visits exactly the particles whose stored cell is that cell. -/
def ListsAgree (S : Nat) (n : CVector Nat) (N fuel : Nat) (L : Ledger) : Prop :=
  ∀ m, InGrid n m →
    ∃ l, occupancy L fuel (getMortonNum S m) = some l ∧ l.Nodup ∧
      ∀ q, q ∈ l ↔ (q < N ∧ L.cell q = getMortonNum S m)

/-! ## Sample ledgers -/

/-- A ledger without particles: every head and every link is -1. -/
def emptyLedger : Ledger := ⟨fun _ => -1, fun _ => -1, fun _ => -1, fun _ => 0⟩

/-- Two particles: particle 0 in the cell `c0` and particle 1 in the cell `c1`. -/
def twoParticles (S : Nat) (c0 c1 : MortonNumber) : Ledger :=
  addToCell (addToCell emptyLedger 0 (getMortonNum S c0)) 1 (getMortonNum S c1)

/-! ## The geometry `addCells` stores, in closed form -/

/-- The real-valued geometry the per-axis loop of `addCells` stores for the cell counts `n`:
on each axis the lattice width `size / n`, the interaction width
`lw + (lw - maxdiam) * lambda` and the offset `-(lw - maxdiam) * lambda * 0.5`. -/
def geometryOf (lambda : ℚ) (size : CVector ℚ) (maxdiam : ℚ) (n : CVector Nat) : Geometry :=
  { cellLatticeWidth := ⟨size.x / n.x, size.y / n.y, size.z / n.z⟩
    cellDimension :=
      ⟨size.x / n.x + (size.x / n.x - maxdiam) * lambda,
       size.y / n.y + (size.y / n.y - maxdiam) * lambda,
       size.z / n.z + (size.z / n.z - maxdiam) * lambda⟩
    cellOffset :=
      ⟨-(size.x / n.x - maxdiam) * lambda * (1 / 2),
       -(size.y / n.y - maxdiam) * lambda * (1 / 2),
       -(size.z / n.z - maxdiam) * lambda * (1 / 2)⟩ }

/-- The per-axis cell counts `addCells` computes. -/
def cellCountsOf (W : Nat) (eps : ℚ) (size : CVector ℚ) (maxdiam : ℚ) : CVector Nat :=
  ⟨cellCountOf W eps size.x maxdiam, cellCountOf W eps size.y maxdiam,
    cellCountOf W eps size.z maxdiam⟩

/-- The computed cell count of one axis as the spec words it: the floor of the domain size
divided by the (slightly enlarged) cell width. -/
def computedCount (eps size maxdiam : ℚ) : Int := ⌊size / (maxdiam * (1 + 10 * eps))⌋


/-! ## The linked structure of the occupancy lists -/

/-- The pointer to the first entry of a list of ids, or `t` when the list is empty. -/
def headPtr (t : Int) : List Nat → Int
  | [] => t
  | a :: _ => (a : Int)

/-- The pointer to the last entry of a list of ids, or `p` when the list is empty. -/
def lastPtr (p : Int) : List Nat → Int
  | [] => p
  | a :: l => lastPtr (a : Int) l

/-- The ids `l` form a doubly linked segment of the ledger: `h` points to its first entry,
every entry's `next` link points to the entry after it and the last one's to `t`, every
entry's `prev` link points to the entry before it and the first one's holds `p`. -/
def Seg (L : Ledger) : Int → Int → List Nat → Int → Prop
  | _, h, [], t => h = t
  | p, h, a :: l, t => h = (a : Int) ∧ L.prev a = p ∧ Seg L (a : Int) (L.next a) l t

/-- The ledger is well formed for the particles `0, ..., N - 1` on the grid with cell counts
`n`, with `occ` giving the occupancy list of every flat cell index: the list of every grid cell
is a doubly linked segment from the cell's head slot, ending with -1 on both sides; it holds no
id twice; it holds exactly the particles whose stored cell is that cell; and every particle is
stored in a grid cell. -/
structure LedgerWF (S : Nat) (n : CVector Nat) (N : Nat) (L : Ledger) (occ : Nat → List Nat) :
    Prop where
  linked : ∀ m, InGrid n m →
    Seg L (-1) (L.list (getMortonNum S m)) (occ (getMortonNum S m)) (-1)
  nodup : ∀ m, InGrid n m → (occ (getMortonNum S m)).Nodup
  mem_iff : ∀ m, InGrid n m → ∀ q,
    q ∈ occ (getMortonNum S m) ↔ (q < N ∧ L.cell q = getMortonNum S m)
  cell_inGrid : ∀ q, q < N → ∃ m, InGrid n m ∧ L.cell q = getMortonNum S m

/-- The occupancy lists after the particle `pid` has been moved from its stored cell to the
cell `endCell`: erased from the old list, pushed on the head of the new one. -/
def migrateOcc (occ : Nat → List Nat) (oldCell pid endCell : Nat) : Nat → List Nat :=
  Function.update (Function.update occ oldCell ((occ oldCell).erase pid)) endCell
    (pid :: Function.update occ oldCell ((occ oldCell).erase pid) endCell)

/-! ## Geometry bindings: `addLocalEvents`, and `reinitialise` -/

/-- A local object as the cell list uses it: its id (`getID`) and its overlap predicate
`isInCell(Origin, CellDim)`. -/
structure Local where
  ID : Nat
  isInCell : CVector ℚ → CVector ℚ → Bool

/-- The function `CLCylinder::isInCell` (`lcylinder.cpp`, lines 77-83): `return true`, the
overlap test is commented out. -/
def CLCylinder.isInCell (_Origin _CellDim : CVector ℚ) : Bool := true

/-- A cylinder wall registered under the id `ID`. -/
def CLCylinder.toLocal (ID : Nat) : Local := { ID := ID, isInCell := CLCylinder.isInCell }

/-- The function `calcPosition(coords)` (lines 543-554): the corner of a cell in the primary
image. -/
def calcPosition (sim : SimData) (geo : Geometry) (coords : MortonNumber) : CVector ℚ :=
  let axis (i : Nat) : ℚ :=
    (coords.get i : ℚ) * geo.cellLatticeWidth.get i - (1 / 2) * sim.primaryCellSize.get i
      + geo.cellOffset.get i
  ⟨axis 0, axis 1, axis 2⟩

/-- The first argument of `isInCell` in line 407, `pos - 0.0001 * cellDimension`. -/
def boxOrigin (pos cellDimension : CVector ℚ) : CVector ℚ :=
  ⟨pos.x - (1 / 10000) * cellDimension.x, pos.y - (1 / 10000) * cellDimension.y,
    pos.z - (1 / 10000) * cellDimension.z⟩

/-- The second argument of `isInCell` in line 407, `1.0002 * cellDimension`. -/
def boxSize (cellDimension : CVector ℚ) : CVector ℚ :=
  ⟨(10002 / 10000) * cellDimension.x, (10002 / 10000) * cellDimension.y,
    (10002 / 10000) * cellDimension.z⟩

/-- The loop of lines 406-408 over the registered local objects, starting from the content
`acc` of `cells[id]`: the id of every local whose predicate holds is pushed at the back. -/
def pushLocals (origin size : CVector ℚ) : List Local → List Nat → List Nat
  | [], acc => acc
  | l :: ls, acc =>
    pushLocals origin size ls (if l.isInCell origin size then acc ++ [l.ID] else acc)

/-- The body of the loops of `addLocalEvents` (lines 400-408) for the cell coordinates `c`:
`cells[id]` is cleared and refilled. -/
def bindCell (S : Nat) (sim : SimData) (geo : Geometry) (locals : List Local)
    (cells : Nat → List Nat) (c : Nat × Nat × Nat) : Nat → List Nat :=
  let coords := mortonOfCoords S c.1 c.2.1 c.2.2
  let id := getMortonNum S coords
  let pos := calcPosition sim geo coords
  Function.update cells id
    (pushLocals (boxOrigin pos geo.cellDimension) (boxSize geo.cellDimension) locals [])

/-- The function `CGCellsMorton::addLocalEvents`: the three nested loops over the cell
coordinates. -/
def addLocalEvents (S : Nat) (sim : SimData) (locals : List Local) (st : CellState) :
    CellState :=
  { st with
    cells := (cellCoords st.grid.cellCount).foldl (bindCell S sim st.geo locals) st.cells }

/-- The function `CGCellsMorton::reinitialise` (lines 273-288): `addCells` with the cell width
`_oversizeCells * (maxdiam * (1.0 + 10 * epsilon)) / overlink`, then `addLocalEvents`. The
re-initialisation signal and the scheduler are not modelled. The quotient by a zero `overlink`
is not a number in the source; here it takes the value 0 of rational division. -/
def reinitialise (W S : Nat) (eps lambda : ℚ) (cfg : Config) (sim : SimData)
    (locals : List Local) (old : CellState) (maxdiam : ℚ) : Except AddCellsError CellState :=
  match addCells W S eps lambda cfg.overlink sim old
      (cfg.oversizeCells * (maxdiam * (1 + 10 * eps)) / (cfg.overlink : ℚ)) with
  | .error e => .error e
  | .ok st => .ok (addLocalEvents S sim locals st)

/-- The box tested for the cell with coordinates `m`: the arguments of `isInCell` in
line 407. -/
def cellBox (sim : SimData) (geo : Geometry) (m : MortonNumber) : CVector ℚ × CVector ℚ :=
  (boxOrigin (calcPosition sim geo m) geo.cellDimension, boxSize geo.cellDimension)

/-- A sample state: the 3x3x3 grid with look-ahead radius 1 and unit cells, nothing bound. -/
def sampleState : CellState :=
  { emptyState with
    grid := mkGrid 21 ⟨3, 3, 3⟩ 1
    geo := { cellLatticeWidth := ⟨1, 1, 1⟩, cellDimension := ⟨1, 1, 1⟩, cellOffset := ⟨0, 0, 0⟩ } }

/-- A sample simulation: no particles in a periodic box of size 3x3x3. -/
def sampleSim : SimData :=
  { N := 0, primaryCellSize := ⟨3, 3, 3⟩, position := fun _ => ⟨0, 0, 0⟩, applyBC := id }

/-- A sample local object: a wall in the plane `x = x0`, which overlaps a box exactly when the
plane meets the extent of the box on the x axis. -/
def sampleWall (ID : Nat) (x0 : ℚ) : Local :=
  { ID := ID
    isInCell := fun origin size => decide (origin.x ≤ x0 ∧ x0 ≤ origin.x + size.x) }

/-- Sample locals, in registration order: a cylinder wall with id 0, a wall with id 1 just
left of the plane `x = -1/2`, a cylinder wall with id 2, and a wall with id 3 just right of
the plane `x = 1/2`. -/
def sampleLocals : List Local :=
  [CLCylinder.toLocal 0, sampleWall 1 (-50005 / 100000), CLCylinder.toLocal 2,
    sampleWall 3 (50005 / 100000)]

/-- A sample configuration: look-ahead radius 2 and oversize factor 1.1. -/
def sampleConfig : Config := { overlink := 2, oversizeCells := 11 / 10, globName := "Cells" }

/-- A sample simulation: two particles, at the centre of the box and at (1, 1, 1), in a
periodic box of size 10x10x10. -/
def sampleBox : SimData :=
  { N := 2
    primaryCellSize := ⟨10, 10, 10⟩
    position := fun p => if p = 0 then ⟨0, 0, 0⟩ else ⟨1, 1, 1⟩
    applyBC := id }

/-- Lines 121-167 of `runEvent`: the ledger after the particle `pid` has been removed from its
old cell and added to the destination cell. The walk that follows only reads the ledger. -/
def runEventLedger (S : Nat) (g : Grid) (L : Ledger) (pid : Nat) (cellDirectionInt : Int) :
    Ledger :=
  addToCell (removeFromCell L pid) pid (runEventEndCell S g (L.cell pid) cellDirectionInt)

/-! ## The walk of `getParticleNeighbourhood`, in plain arithmetic -/

/-- One wrapped increment of a walking coordinate on an axis with `n` cells:
`++coords[i]; if (coords[i] > dilatedCellMax[i]) coords[i] = 0`. -/
def wrapInc (n v : Nat) : Nat := if v + 1 > n - 1 then 0 else v + 1

/-- The number of wrapped increments, after the next one, that the coordinate `v` still needs
to meet the bound `mx` on an axis with `n` cells. -/
def stepsAfter (n mx v : Nat) : Nat := if v < mx then mx - v - 1 else mx + n - v - 1

/-- A bound on the number of passes the `while` loop of `getParticleNeighbourhood` still makes
from the coordinates `coords`: zero when the loop condition fails, and otherwise the remaining
increments of the three axes, the z axis counting for a whole plane and the y axis for a whole
row. -/
def nbhdMeasure (n : CVector Nat) (max coords : MortonNumber) : Nat :=
  if coords.z = max.z then 0
  else stepsAfter n.z max.z coords.z * (n.y * n.x) + stepsAfter n.y max.y coords.y * n.x
    + stepsAfter n.x max.x coords.x + 1

/-- The coordinate `nbhdMaxAxis` stores: the coordinate `v` moved forward by the look-ahead
radius plus one, with the single correction. -/
def endCoord (S ov cmax v : Nat) : Nat :=
  if dAdd S v (dAdd S ov (dOfNat S 1)) > cmax then
    dSub S (dAdd S v (dAdd S ov (dOfNat S 1))) (dAdd S cmax (dOfNat S 1))
  else dAdd S v (dAdd S ov (dOfNat S 1))

/-! ## `Iflt`: binary floating-point numbers -/

/-- Rounding of a rational number to the nearest integer, ties to the even one. -/
def roundHalfEven (t : ℚ) : ℤ :=
  if t - ⌊t⌋ < 1 / 2 then ⌊t⌋
  else if 1 / 2 < t - ⌊t⌋ then ⌊t⌋ + 1
  else if ⌊t⌋ % 2 = 0 then ⌊t⌋ else ⌊t⌋ + 1

/-- The binary exponent of a positive rational `q`: the integer `e` with
`2 ^ e ≤ q < 2 ^ (e + 1)`. -/
def binExp (q : ℚ) : ℤ := Int.log 2 q

/-- The spacing of the floating-point numbers with `p` significant binary digits around the
rational `q`: `2 ^ (e - (p - 1))` for the binary exponent `e` of `|q|`. -/
def ulpOf (p : Nat) (q : ℚ) : ℚ := (2 : ℚ) ^ (binExp |q| - ((p : ℤ) - 1))

/-- The value of a rational number as an `Iflt`. The declaration of `Iflt` is not part of the
sources; it is a binary floating-point type (`double` unless configured otherwise), taken here
with `p` significant binary digits (53 for `double`) and the default rounding of the hardware,
to nearest with ties to even. The exponent range is not modelled: the values converted here are
counters of a `size_t` and their quotients. -/
def flRound (p : Nat) (q : ℚ) : ℚ :=
  if q = 0 then 0 else (roundHalfEven (q / ulpOf p q) : ℚ) * ulpOf p q

/-! ## The binary unit cell `CUBinary` -/

/-- The members of `CUBinary` that `placeObjects` reads and writes: the mole fraction `molfrac`
(an `Iflt`) and the two `size_t` counters. -/
structure CUBinary where
  molfrac : ℚ
  count : Nat
  countA : Nat

/-- The constructor of `CUBinary`: `molfrac(x)`, `count(0)`, `countA(0)`. -/
def CUBinary.fresh (x : ℚ) : CUBinary := { molfrac := x, count := 0, countA := 0 }

/-- The function `CUBinary::placeObjects` (`binary.hpp`, lines 37-57): the members after the
call, and whether the placement was delegated to the first unit cell `uc` (`true`) or to the
second one `uc2` (`false`). The counters are `size_t` of `W` bits; the test of line 46,
`(Iflt(countA) / Iflt(count)) < molfrac`, converts both counters to `Iflt` and compares the
rounded quotient, with `p` the number of significant binary digits of `Iflt`. -/
def CUBinary.placeObjects (W p : Nat) (b : CUBinary) : Bool × CUBinary :=
  if b.count = 0 then
    (true, { b with countA := (b.countA + 1) % 2 ^ W, count := (b.count + 1) % 2 ^ W })
  else if flRound p (flRound p (b.countA : ℚ) / flRound p (b.count : ℚ)) < b.molfrac then
    (true, { b with countA := (b.countA + 1) % 2 ^ W, count := (b.count + 1) % 2 ^ W })
  else
    (false, { b with count := (b.count + 1) % 2 ^ W })

/-- A sequence of `k` calls of `placeObjects` on the same object: the delegations in call order
and the members after the last call. -/
def CUBinary.placeMany (W p : Nat) : Nat → CUBinary → List Bool × CUBinary
  | 0, b => ([], b)
  | k + 1, b =>
    let rs := CUBinary.placeMany W p k b
    let r := CUBinary.placeObjects W p rs.2
    (rs.1 ++ [r.1], r.2)

/-! # Theorems -/

/-! ## Dilated arithmetic -/

theorem dOfNat_of_lt {S v : Nat} (h : v < 2 ^ S) : dOfNat S v = v :=
  Nat.mod_eq_of_lt h

theorem dAdd_of_lt {S a b : Nat} (h : a + b < 2 ^ S) : dAdd S a b = a + b :=
  Nat.mod_eq_of_lt h

theorem dInc_of_lt {S a : Nat} (h : a + 1 < 2 ^ S) : dInc S a = a + 1 :=
  Nat.mod_eq_of_lt h

theorem dSub_of_le {S a b : Nat} (hb : b ≤ a) (ha : a < 2 ^ S) : dSub S a b = a - b := by
  unfold dSub
  rw [Nat.mod_eq_of_lt (lt_of_le_of_lt hb ha)]
  have h : a + (2 ^ S - b) = (a - b) + 2 ^ S := by omega
  rw [h, Nat.add_mod_right, Nat.mod_eq_of_lt (by omega)]

theorem dSub_of_lt {S a b : Nat} (hab : a < b) (hb : b < 2 ^ S) :
    dSub S a b = a + 2 ^ S - b := by
  unfold dSub
  rw [Nat.mod_eq_of_lt hb, Nat.mod_eq_of_lt (by omega)]
  omega

theorem dDec_of_pos {S a : Nat} (h0 : 0 < a) (ha : a < 2 ^ S) : dDec S a = a - 1 :=
  dSub_of_le h0 ha

theorem dDec_zero {S : Nat} (h : 1 < 2 ^ S) : dDec S 0 = 2 ^ S - 1 := by
  unfold dDec
  rw [dSub_of_lt Nat.one_pos h]
  omega

/-- The wrapped increment of the destination coordinate is the successor modulo the count. -/
theorem dest_pos {S n v : Nat} (hn : n < 2 ^ S) (hv : v < n) :
    (if dInc S v > dOfNat S (n - 1) then dSub S (dDec S (dInc S v)) (dOfNat S (n - 1))
      else dInc S v) = (v + 1) % n := by
  rw [dOfNat_of_lt (by omega), dInc_of_lt (by omega)]
  by_cases h : v + 1 = n
  · have h1 : v + 1 > n - 1 := by omega
    rw [if_pos h1, dDec_of_pos (by omega) (by omega), dSub_of_le (by omega) (by omega), h,
      Nat.mod_self]
    omega
  · have h1 : ¬ (v + 1 > n - 1) := by omega
    rw [if_neg h1, Nat.mod_eq_of_lt (by omega)]

/-- The wrapped decrement of the destination coordinate is the predecessor modulo the count. -/
theorem dest_neg {S n v : Nat} (h3 : 3 ≤ n) (hn : n < 2 ^ S) (hv : v < n) :
    (if dDec S v > dOfNat S (n - 1) then
        dSub S (dDec S v) (dSub S (dLimitMax S) (dOfNat S (n - 1)))
      else dDec S v) = (v + n - 1) % n := by
  rw [dOfNat_of_lt (by omega)]
  unfold dLimitMax
  rcases Nat.eq_zero_or_pos v with h0 | h0
  · subst h0
    have hin : dSub S (2 ^ S - 1) (n - 1) = 2 ^ S - n := by
      rw [dSub_of_le (by omega) (by omega)]
      omega
    rw [dDec_zero (by omega), if_pos (by omega), hin, dSub_of_le (by omega) (by omega),
      Nat.mod_eq_of_lt (by omega)]
    omega
  · rw [dDec_of_pos h0 (by omega), if_neg (by omega)]
    have h : v + n - 1 = (v - 1) + n := by omega
    rw [h, Nat.add_mod_right, Nat.mod_eq_of_lt (by omega)]

/-! ## Morton numbers: decoding inverts encoding -/

theorem getMortonNum_succ (S x y z : Nat) :
    getMortonNum (S + 1) ⟨x, y, z⟩ =
      (x % 2 + 2 * (y % 2) + 4 * (z % 2)) + 8 * getMortonNum S ⟨x / 2, y / 2, z / 2⟩ := by
  simp only [getMortonNum, dilate]
  ring

theorem mod_two_pow_succ (x S : Nat) : x % 2 + 2 * (x / 2 % 2 ^ S) = x % 2 ^ (S + 1) := by
  rw [pow_succ', Nat.mod_mul]

theorem undilate_getMortonNum_x (S x y z : Nat) :
    undilate S (getMortonNum S ⟨x, y, z⟩) = x % 2 ^ S := by
  induction S generalizing x y z with
  | zero => simp [undilate, Nat.mod_one]
  | succ S ih =>
    rw [getMortonNum_succ, undilate]
    have h1 : (x % 2 + 2 * (y % 2) + 4 * (z % 2) + 8 * getMortonNum S ⟨x / 2, y / 2, z / 2⟩) % 2
        = x % 2 := by omega
    have h2 : (x % 2 + 2 * (y % 2) + 4 * (z % 2) + 8 * getMortonNum S ⟨x / 2, y / 2, z / 2⟩) / 8
        = getMortonNum S ⟨x / 2, y / 2, z / 2⟩ := by omega
    rw [h1, h2, ih, mod_two_pow_succ]

theorem undilate_getMortonNum_y (S x y z : Nat) :
    undilate S (getMortonNum S ⟨x, y, z⟩ / 2) = y % 2 ^ S := by
  induction S generalizing x y z with
  | zero => simp [undilate, Nat.mod_one]
  | succ S ih =>
    rw [getMortonNum_succ, undilate]
    have h1 : ((x % 2 + 2 * (y % 2) + 4 * (z % 2) + 8 * getMortonNum S ⟨x / 2, y / 2, z / 2⟩) / 2)
        % 2 = y % 2 := by omega
    have h2 : ((x % 2 + 2 * (y % 2) + 4 * (z % 2) + 8 * getMortonNum S ⟨x / 2, y / 2, z / 2⟩) / 2)
        / 8 = getMortonNum S ⟨x / 2, y / 2, z / 2⟩ / 2 := by omega
    rw [h1, h2, ih, mod_two_pow_succ]

theorem undilate_getMortonNum_z (S x y z : Nat) :
    undilate S (getMortonNum S ⟨x, y, z⟩ / 4) = z % 2 ^ S := by
  induction S generalizing x y z with
  | zero => simp [undilate, Nat.mod_one]
  | succ S ih =>
    rw [getMortonNum_succ, undilate]
    have h1 : ((x % 2 + 2 * (y % 2) + 4 * (z % 2) + 8 * getMortonNum S ⟨x / 2, y / 2, z / 2⟩) / 4)
        % 2 = z % 2 := by omega
    have h2 : ((x % 2 + 2 * (y % 2) + 4 * (z % 2) + 8 * getMortonNum S ⟨x / 2, y / 2, z / 2⟩) / 4)
        / 8 = getMortonNum S ⟨x / 2, y / 2, z / 2⟩ / 4 := by omega
    rw [h1, h2, ih, mod_two_pow_succ]

/-- Round trip: decoding the flat index of in-range coordinates gives the coordinates back. -/
theorem ofMortonNum_getMortonNum {S : Nat} {m : MortonNumber}
    (hx : m.x < 2 ^ S) (hy : m.y < 2 ^ S) (hz : m.z < 2 ^ S) :
    ofMortonNum S (getMortonNum S m) = m := by
  obtain ⟨x, y, z⟩ := m
  simp only [ofMortonNum, undilate_getMortonNum_x, undilate_getMortonNum_y,
    undilate_getMortonNum_z]
  simp only at hx hy hz
  rw [Nat.mod_eq_of_lt hx, Nat.mod_eq_of_lt hy, Nat.mod_eq_of_lt hz]

/-! ## Component access -/

theorem CVector.get_set_same {α : Type} (v : CVector α) (a : Nat) (x : α) :
    (v.set a x).get a = x := by
  rcases a with _ | _ | a <;> rfl

theorem CVector.get_set_ne {α : Type} (v : CVector α) {a b : Nat} (x : α)
    (ha : a < 3) (hb : b < 3) (hab : a ≠ b) : (v.set a x).get b = v.get b := by
  rcases a with _ | _ | _ | a <;> rcases b with _ | _ | _ | b <;>
    first | rfl | omega

theorem CVector.set_set {α : Type} (v : CVector α) (a : Nat) (x y : α) :
    (v.set a x).set a y = v.set a y := by
  rcases a with _ | _ | a <;> rfl

theorem CVector.set_get_self {α : Type} (v : CVector α) (a : Nat) :
    v.set a (v.get a) = v := by
  rcases a with _ | _ | a <;> rfl

theorem mkGrid_cellMax_get (S : Nat) (n : CVector Nat) (ov a : Nat) :
    (mkGrid S n ov).dilatedCellMax.get a = dOfNat S (n.get a - 1) := by
  rcases a with _ | _ | a <;> rfl

theorem countsOK_get {S : Nat} {n : CVector Nat} (h : CountsOK S n) (a : Nat) :
    3 ≤ n.get a ∧ n.get a < 2 ^ S := by
  obtain ⟨hx, hy, hz⟩ := h
  rcases a with _ | _ | a
  · exact hx
  · exact hy
  · exact hz

theorem headroom_get {S : Nat} {n : CVector Nat} {ov : Nat} (h : Headroom S n ov) (a : Nat) :
    n.get a + ov < 2 ^ S := by
  obtain ⟨hx, hy, hz⟩ := h
  rcases a with _ | _ | a
  · exact hx
  · exact hy
  · exact hz

theorem inGrid_get {n : CVector Nat} {c : MortonNumber} (h : InGrid n c) (a : Nat) :
    c.get a < n.get a := by
  obtain ⟨hx, hy, hz⟩ := h
  rcases a with _ | _ | a
  · exact hx
  · exact hy
  · exact hz

theorem inGrid_set {n : CVector Nat} {c : MortonNumber} (h : InGrid n c) (a v : Nat)
    (hv : v < n.get a) : InGrid n (c.set a v) := by
  obtain ⟨hx, hy, hz⟩ := h
  rcases a with _ | _ | a
  · exact ⟨hv, hy, hz⟩
  · exact ⟨hx, hv, hz⟩
  · exact ⟨hx, hy, hv⟩

theorem cellDirectionOf_lt {d : Int} (hd : IsDirection d) : cellDirectionOf d < 3 := by
  unfold IsDirection at hd
  unfold cellDirectionOf
  omega

/-! ## The destination cell of `runEvent` -/

theorem runEventCells_fst {S : Nat} {n : CVector Nat} {c : MortonNumber} (ov : Nat) (d : Int)
    (hn : CountsOK S n) (hc : InGrid n c) :
    (runEventCells S (mkGrid S n ov) c d).1 = stepCoord n c d := by
  have h3 := countsOK_get hn (cellDirectionOf d)
  have hv := inGrid_get hc (cellDirectionOf d)
  unfold runEventCells stepCoord
  simp only [mkGrid_cellMax_get]
  by_cases hpos : d > 0
  · rw [if_pos hpos, if_pos hpos]
    simp only
    rw [dest_pos h3.2 hv]
  · rw [if_neg hpos, if_neg hpos]
    simp only
    rw [dest_neg h3.1 h3.2 hv]
    congr 2
    omega

theorem stepCoord_inGrid {S : Nat} {n : CVector Nat} {c : MortonNumber} (d : Int)
    (hn : CountsOK S n) (hc : InGrid n c) : InGrid n (stepCoord n c d) := by
  have h3 := countsOK_get hn (cellDirectionOf d)
  exact inGrid_set hc _ _ (Nat.mod_lt _ (by omega))

theorem inGrid_lt_pow {S : Nat} {n : CVector Nat} {c : MortonNumber}
    (hn : CountsOK S n) (hc : InGrid n c) : c.x < 2 ^ S ∧ c.y < 2 ^ S ∧ c.z < 2 ^ S := by
  obtain ⟨⟨_, hx⟩, ⟨_, hy⟩, ⟨_, hz⟩⟩ := hn
  obtain ⟨cx, cy, cz⟩ := hc
  exact ⟨by omega, by omega, by omega⟩

theorem ofMortonNum_getMortonNum_inGrid {S : Nat} {n : CVector Nat} {c : MortonNumber}
    (hn : CountsOK S n) (hc : InGrid n c) : ofMortonNum S (getMortonNum S c) = c := by
  obtain ⟨hx, hy, hz⟩ := inGrid_lt_pow hn hc
  exact ofMortonNum_getMortonNum hx hy hz

theorem runEventEndCell_flat {S : Nat} {n : CVector Nat} {c : MortonNumber} (ov : Nat) (d : Int)
    (hn : CountsOK S n) (hc : InGrid n c) :
    runEventEndCell S (mkGrid S n ov) (getMortonNum S c) d
      = getMortonNum S (stepCoord n c d) := by
  unfold runEventEndCell
  rw [ofMortonNum_getMortonNum_inGrid hn hc, runEventCells_fst ov d hn hc]

/-- Stepping `k` times in the same direction moves the crossing axis by `k` steps, modulo the
cell count. -/
theorem runEventEndCell_iterate {S : Nat} {n : CVector Nat} (ov : Nat) (d : Int)
    (hn : CountsOK S n) (k : Nat) :
    ∀ c : MortonNumber, InGrid n c →
      (fun m => runEventEndCell S (mkGrid S n ov) m d)^[k] (getMortonNum S c)
        = getMortonNum S (c.set (cellDirectionOf d)
            ((c.get (cellDirectionOf d)
              + k * (if 0 < d then 1 else n.get (cellDirectionOf d) - 1))
              % n.get (cellDirectionOf d))) := by
  have h3 := countsOK_get hn (cellDirectionOf d)
  induction k with
  | zero =>
    intro c hc
    have hv := inGrid_get hc (cellDirectionOf d)
    simp only [Function.iterate_zero, id_eq, Nat.zero_mul, Nat.add_zero]
    rw [Nat.mod_eq_of_lt hv, CVector.set_get_self]
  | succ k ih =>
    intro c hc
    rw [Function.iterate_succ_apply, runEventEndCell_flat ov d hn hc,
      ih _ (stepCoord_inGrid d hn hc)]
    unfold stepCoord
    rw [CVector.get_set_same, CVector.set_set, Nat.mod_add_mod]
    congr 3
    ring

theorem natCast_succ_mod (v n : Nat) :
    (((v + 1) % n : Nat) : Int) = ((v : Int) + 1) % (n : Int) := by
  push_cast
  rfl

theorem natCast_pred_mod (v n : Nat) (hn : 0 < n) :
    (((v + (n - 1)) % n : Nat) : Int) = ((v : Int) + -1) % (n : Int) := by
  have h : ((v + (n - 1) : Nat) : Int) = ((v : Int) + -1) + (n : Int) := by
    push_cast [Nat.cast_sub (Nat.succ_le_of_lt hn)]
    ring
  rw [Int.natCast_mod, h, Int.add_emod_self]

/-! ## One axis of a walk -/

theorem CVector.set_comm {α : Type} (v : CVector α) {a b : Nat} (x y : α)
    (ha : a < 3) (hb : b < 3) (hab : a ≠ b) :
    (v.set a x).set b y = (v.set b y).set a x := by
  rcases a with _ | _ | _ | a <;> rcases b with _ | _ | _ | b <;>
    first | rfl | omega

theorem walkStart_eq (S : Nat) (g : Grid) (c : MortonNumber) (dim : Nat) :
    walkStart S g c dim
      = c.set dim (startCoord S g.dilatedOverlink (g.dilatedCellMax.get dim) (c.get dim)) :=
  rfl

theorem walkInner_eq (S : Nat) (g : Grid) (dim1 : Nat) (k : Nat) :
    ∀ c : MortonNumber, walkInner S g dim1 k c
      = (axisSeq S (g.dilatedCellMax.get dim1) k (c.get dim1)).map (fun v => c.set dim1 v) := by
  induction k with
  | zero => intro c; rfl
  | succ k ih =>
    intro c
    simp only [walkInner, axisSeq, List.map_cons]
    by_cases h : c.get dim1 > g.dilatedCellMax.get dim1
    · simp only [if_pos h, ih, CVector.get_set_same, CVector.set_set]
    · simp only [if_neg h, ih, CVector.get_set_same, CVector.set_set, CVector.set_get_self]

theorem walkOuter_eq (S : Nat) (g : Grid) {dim1 dim2 : Nat} (L saved : Nat)
    (h1 : dim1 < 3) (h2 : dim2 < 3) (h12 : dim1 ≠ dim2) (k : Nat) :
    ∀ c : MortonNumber, c.get dim1 = saved →
      walkOuter S g dim1 dim2 L saved k c
        = (axisSeq S (g.dilatedCellMax.get dim2) k (c.get dim2)).flatMap (fun w =>
            (axisSeq S (g.dilatedCellMax.get dim1) L saved).map (fun v =>
              (c.set dim2 w).set dim1 v)) := by
  induction k with
  | zero => intro c _; rfl
  | succ k ih =>
    intro c hc
    simp only [walkOuter, axisSeq, List.flatMap_cons, walkInner_eq]
    by_cases h : c.get dim2 > g.dilatedCellMax.get dim2
    · simp only [if_pos h]
      rw [ih _ (by rw [CVector.get_set_ne _ _ h2 h1 (Ne.symm h12), CVector.get_set_same])]
      simp only [CVector.get_set_same, CVector.get_set_ne _ _ h2 h1 (Ne.symm h12), hc,
        CVector.get_set_ne _ _ h1 h2 h12,
        CVector.set_set, CVector.set_comm _ _ _ h1 h2 h12]
    · simp only [if_neg h]
      rw [ih _ (by rw [CVector.get_set_ne _ _ h2 h1 (Ne.symm h12), CVector.get_set_same])]
      simp only [CVector.get_set_same, CVector.get_set_ne _ _ h2 h1 (Ne.symm h12), hc,
        CVector.get_set_ne _ _ h1 h2 h12,
        CVector.set_set, CVector.set_comm _ _ _ h1 h2 h12, CVector.set_get_self]

theorem axisSeq_clamp (S cmax k v : Nat) :
    axisSeq S cmax k v = axisSeq S cmax k (if v > cmax then dOfNat S 0 else v) := by
  cases k with
  | zero => rfl
  | succ k =>
    simp only [axisSeq]
    by_cases h : v > cmax
    · have h0 : ¬ (dOfNat S 0 > cmax) := by simp [dOfNat]
      simp only [if_pos h, if_neg h0]
    · simp only [if_neg h]

theorem axisSeq_eq_range {S n : Nat} (h1 : 1 ≤ n) (hn : n < 2 ^ S) (k : Nat) :
    ∀ v, v ≤ n → axisSeq S (n - 1) k v = (List.range k).map (fun j => (v + j) % n) := by
  induction k with
  | zero => intro v _; rfl
  | succ k ih =>
    intro v hv
    rw [List.range_succ_eq_map, List.map_cons, List.map_map]
    simp only [axisSeq]
    by_cases h : v > n - 1
    · have hvn : v = n := by omega
      subst hvn
      have h0 : dOfNat S 0 = 0 := by simp [dOfNat]
      rw [if_pos h, h0, dInc_of_lt (by omega), ih 1 h1]
      simp only [Nat.add_zero, Nat.mod_self, zero_add, List.cons.injEq, true_and]
      apply List.map_congr_left
      intro j _
      simp only [Function.comp_apply, Nat.succ_eq_add_one]
      rw [show v + (j + 1) = (1 + j) + v by ring, Nat.add_mod_right]
    · rw [if_neg h, dInc_of_lt (by omega), ih (v + 1) (by omega)]
      simp only [Nat.add_zero, List.cons.injEq]
      refine ⟨(Nat.mod_eq_of_lt (by omega)).symm, ?_⟩
      apply List.map_congr_left
      intro j _
      simp only [Function.comp_apply, Nat.succ_eq_add_one]
      rw [show v + 1 + j = v + (j + 1) by ring]

theorem startCoord_cases {S n ov v : Nat} (h1 : 1 ≤ n) (hn : n + ov < 2 ^ S) (hv : v < n) :
    (ov ≤ v + n →
        startCoord S ov (n - 1) v < n ∧ (startCoord S ov (n - 1) v + ov) % n = v)
    ∧ (v + n < ov → startCoord S ov (n - 1) v > n - 1) := by
  unfold startCoord dLimitMax
  have hin : dSub S (2 ^ S - 1) (n - 1) = 2 ^ S - n := by
    rw [dSub_of_le (by omega) (by omega)]
    omega
  rw [hin]
  by_cases hle : ov ≤ v
  · rw [dSub_of_le hle (by omega), if_neg (by omega)]
    refine ⟨fun _ => ⟨by omega, ?_⟩, fun h => by omega⟩
    rw [Nat.sub_add_cancel hle, Nat.mod_eq_of_lt hv]
  · rw [dSub_of_lt (by omega) (by omega), if_pos (by omega)]
    by_cases h2 : ov ≤ v + n
    · rw [dSub_of_le (by omega) (by omega)]
      refine ⟨fun _ => ⟨by omega, ?_⟩, fun h => by omega⟩
      have e : v + 2 ^ S - ov - (2 ^ S - n) + ov = v + n := by omega
      rw [e, Nat.add_mod_right, Nat.mod_eq_of_lt hv]
    · rw [dSub_of_lt (by omega) (by omega)]
      exact ⟨fun h => by omega, fun _ => by omega⟩

/-- One axis of a walk visits exactly the coordinates within the look-ahead radius of the
centre coordinate, modulo the cell count. -/
theorem axis_walk_mem {S n ov v : Nat} (h1 : 1 ≤ n) (hn : n + ov < 2 ^ S) (hv : v < n)
    (x : Nat) :
    x ∈ axisSeq S (n - 1) (2 * ov + 1) (startCoord S ov (n - 1) v)
      ↔ ∃ e : Int, -(ov : Int) ≤ e ∧ e ≤ (ov : Int) ∧ (x : Int) = ((v : Int) + e) % (n : Int) := by
  have hn0 : (0 : Int) < (n : Int) := by exact_mod_cast h1
  obtain ⟨hA, hB⟩ := startCoord_cases h1 hn hv
  rw [axisSeq_clamp]
  by_cases hcase : ov ≤ v + n
  · obtain ⟨hs, hmod⟩ := hA hcase
    rw [if_neg (by omega), axisSeq_eq_range h1 (by omega) _ _ (by omega)]
    generalize startCoord S ov (n - 1) v = s at hs hmod
    have hvs : (v : Int) = ((s : Int) + (ov : Int)) % (n : Int) := by
      rw [← hmod]; push_cast; rfl
    simp only [List.mem_map, List.mem_range]
    constructor
    · rintro ⟨j, hj, rfl⟩
      refine ⟨(j : Int) - ov, by omega, by omega, ?_⟩
      rw [hvs, Int.emod_add_emod]
      push_cast
      congr 1
      ring
    · rintro ⟨e, he1, he2, hx⟩
      refine ⟨(e + ov).toNat, by omega, ?_⟩
      have hj : (((e + ov).toNat : Nat) : Int) = e + ov := Int.toNat_of_nonneg (by omega)
      have : (((s + (e + ov).toNat) % n : Nat) : Int) = (x : Int) := by
        rw [hx, hvs, Int.emod_add_emod]
        push_cast
        rw [hj]
        congr 1
        ring
      exact_mod_cast this
  · have hlt : v + n < ov := by omega
    have hs := hB hlt
    have h0 : dOfNat S 0 = 0 := by simp [dOfNat]
    rw [if_pos hs, h0, axisSeq_eq_range h1 (by omega) _ _ (by omega)]
    simp only [List.mem_map, List.mem_range, zero_add]
    constructor
    · rintro ⟨j, _, rfl⟩
      have hlt2 : j % n < n := Nat.mod_lt _ (by omega)
      refine ⟨((j % n : Nat) : Int) - v, by omega, by omega, ?_⟩
      rw [show (v : Int) + (((j % n : Nat) : Int) - v) = ((j % n : Nat) : Int) by ring]
      rw [Int.emod_eq_of_lt (by omega) (by exact_mod_cast hlt2)]
    · rintro ⟨e, _, _, hx⟩
      have hx0 : (0 : Int) ≤ ((v : Int) + e) % (n : Int) := Int.emod_nonneg _ (by omega)
      have hx1 : ((v : Int) + e) % (n : Int) < (n : Int) := Int.emod_lt_of_pos _ hn0
      have hxn : x < n := by omega
      exact ⟨x, by omega, Nat.mod_eq_of_lt hxn⟩

/-! ## The leading edge and the slab scanned by `runEvent` -/

theorem toInt32_of_small {v : Int} (h0 : 0 ≤ v) (h1 : v < 2 ^ 31) : toInt32 v = v := by
  unfold toInt32
  omega

theorem two_pow_le_of_digits {S : Nat} (hS : 3 * S ≤ 64) : 2 ^ S ≤ 2 ^ 21 :=
  Nat.pow_le_pow_right (by decide) (by omega)

theorem mkGrid_overlink_eq {S : Nat} {n : CVector Nat} {ov : Nat} (hh : Headroom S n ov) :
    (mkGrid S n ov).dilatedOverlink = ov := by
  obtain ⟨hx, _, _⟩ := hh
  exact dOfNat_of_lt (by omega)

theorem mkGrid_cellMax_eq {S : Nat} {n : CVector Nat} (ov : Nat) (hn : CountsOK S n) (a : Nat) :
    (mkGrid S n ov).dilatedCellMax.get a = n.get a - 1 := by
  rw [mkGrid_cellMax_get]
  have h := countsOK_get hn a
  exact dOfNat_of_lt (by omega)

theorem walkLengthOf_mkGrid {S : Nat} {n : CVector Nat} {ov : Nat} (hS : 3 * S ≤ 64)
    (hh : Headroom S n ov) : walkLengthOf (mkGrid S n ov) = 2 * ov + 1 := by
  obtain ⟨hx, _, _⟩ := hh
  have hp := two_pow_le_of_digits hS
  unfold walkLengthOf mkGrid
  simp only
  rw [toInt32_of_small (by omega) (by omega)]
  omega

theorem lead_pos {S n ov v : Nat} (hn : n + ov < 2 ^ S) (hv : v < n) (hov : ov < n) :
    (if dAdd S (dInc S v) ov > n - 1 then dSub S (dDec S (dAdd S (dInc S v) ov)) (n - 1)
      else dAdd S (dInc S v) ov) = (v + 1 + ov) % n := by
  rw [dInc_of_lt (by omega), dAdd_of_lt (by omega)]
  by_cases h : v + 1 + ov > n - 1
  · rw [if_pos h, dDec_of_pos (by omega) (by omega), dSub_of_le (by omega) (by omega)]
    have e : v + 1 + ov = (v + 1 + ov - 1 - (n - 1)) + n := by omega
    rw [e, Nat.add_mod_right, Nat.mod_eq_of_lt (by omega)]
    omega
  · rw [if_neg h, Nat.mod_eq_of_lt (by omega)]

theorem lead_neg {S n ov v : Nat} (hn : n + ov < 2 ^ S) (hv : v < n) (hov : ov < n) :
    (if dSub S (dDec S v) ov > n - 1 then
        dSub S (dSub S (dDec S v) ov) (dSub S (dLimitMax S) (n - 1))
      else dSub S (dDec S v) ov) = (v + 2 * n - 1 - ov) % n := by
  unfold dLimitMax
  have hin : dSub S (2 ^ S - 1) (n - 1) = 2 ^ S - n := by
    rw [dSub_of_le (by omega) (by omega)]
    omega
  rw [hin]
  have key : ∀ r, r < n → v + 2 * n - 1 - ov = r + n ∨ v + 2 * n - 1 - ov = r + n + n →
      r = (v + 2 * n - 1 - ov) % n := by
    intro r hr h
    rcases h with h | h
    · rw [h, Nat.add_mod_right, Nat.mod_eq_of_lt hr]
    · rw [h, Nat.add_mod_right, Nat.add_mod_right, Nat.mod_eq_of_lt hr]
  rcases Nat.eq_zero_or_pos v with h0 | h0
  · subst h0
    rw [dDec_zero (by omega), dSub_of_le (by omega) (by omega), if_pos (by omega),
      dSub_of_le (by omega) (by omega)]
    exact key _ (by omega) (by omega)
  · rw [dDec_of_pos h0 (by omega)]
    by_cases hle : ov ≤ v - 1
    · rw [dSub_of_le hle (by omega), if_neg (by omega)]
      exact key _ (by omega) (by omega)
    · rw [dSub_of_lt (by omega) (by omega), if_pos (by omega),
        dSub_of_le (by omega) (by omega)]
      exact key _ (by omega) (by omega)

/-- The leading-edge coordinate in plain modular arithmetic, as an integer remainder. -/
theorem lead_int {n ov v : Nat} (d : Int) (hov : ov < n) :
    (((if 0 < d then (v + 1 + ov) % n else (v + 2 * n - 1 - ov) % n : Nat)) : Int)
      = ((v : Int) + signOf d * (1 + (ov : Int))) % (n : Int) := by
  unfold signOf
  by_cases h : 0 < d
  · rw [if_pos h, if_pos h]
    push_cast
    congr 1
    ring
  · rw [if_neg h, if_neg h]
    have e : ((v + 2 * n - 1 - ov : Nat) : Int)
        = ((v : Int) + -1 * (1 + (ov : Int))) + (n : Int) * 2 := by omega
    rw [Int.natCast_mod, e, Int.add_mul_emod_self_left]

theorem runEventCells_snd {S : Nat} {n : CVector Nat} {c : MortonNumber} {ov : Nat} (d : Int)
    (hn : CountsOK S n) (hh : Headroom S n ov) (hc : InGrid n c)
    (hov : ov < n.get (cellDirectionOf d)) :
    (runEventCells S (mkGrid S n ov) c d).2
      = c.set (cellDirectionOf d)
          (if 0 < d then (c.get (cellDirectionOf d) + 1 + ov) % n.get (cellDirectionOf d)
            else (c.get (cellDirectionOf d) + 2 * n.get (cellDirectionOf d) - 1 - ov)
              % n.get (cellDirectionOf d)) := by
  have hv := inGrid_get hc (cellDirectionOf d)
  have hr := headroom_get hh (cellDirectionOf d)
  unfold runEventCells
  simp only [mkGrid_cellMax_eq ov hn, mkGrid_overlink_eq hh]
  by_cases hpos : d > 0
  · rw [if_pos hpos, if_pos hpos]
    simp only
    rw [lead_pos hr hv hov]
  · rw [if_neg hpos, if_neg hpos]
    simp only
    rw [lead_neg hr hv hov]

theorem dims_of_axis {a : Nat} (ha : a < 3) :
    dim1Of a < 3 ∧ dim2Of a < 3 ∧ dim1Of a ≠ dim2Of a ∧ dim1Of a ≠ a ∧ dim2Of a ≠ a
      ∧ ∀ b, b < 3 → b ≠ a → (b = dim1Of a ∨ b = dim2Of a) := by
  unfold dim1Of dim2Of
  rcases a with _ | _ | _ | a
  · simp; omega
  · simp; omega
  · simp; omega
  · omega

theorem walk_cell_eq {a d1 d2 : Nat} (ha : a < 3) (h1 : d1 < 3) (h2 : d2 < 3) (h12 : d1 ≠ d2)
    (h1a : d1 ≠ a) (h2a : d2 ≠ a) (m c : MortonNumber) (l s1 s2 v w : Nat) :
    m = ((((c.set a l).set d1 s1).set d2 s2).set d2 w).set d1 v
      ↔ m.get a = l ∧ m.get d1 = v ∧ m.get d2 = w := by
  obtain ⟨mx, my, mz⟩ := m
  obtain ⟨cx, cy, cz⟩ := c
  rcases a with _ | _ | _ | a <;> rcases d1 with _ | _ | _ | d1 <;>
    rcases d2 with _ | _ | _ | d2 <;>
    first
      | omega
      | (simp only [CVector.get, CVector.set, CVector.mk.injEq] <;> tauto)

/-- The list of cells scanned by `runEvent`, as the product of the two axis walks. -/
theorem runEventScanned_eq {S : Nat} {n : CVector Nat} {c : MortonNumber} {ov : Nat} {d : Int}
    (hn : CountsOK S n) (hh : Headroom S n ov) (hS : 3 * S ≤ 64) (hc : InGrid n c)
    (hd : IsDirection d) (hov : ov < n.get (cellDirectionOf d)) :
    ∃ l : Nat,
      ((l : Int) = ((c.get (cellDirectionOf d) : Int) + signOf d * (1 + (ov : Int)))
          % (n.get (cellDirectionOf d) : Int)) ∧
      runEventScanned S (mkGrid S n ov) c d
        = (axisSeq S (n.get (dim2Of (cellDirectionOf d)) - 1) (2 * ov + 1)
            (startCoord S ov (n.get (dim2Of (cellDirectionOf d)) - 1)
              (c.get (dim2Of (cellDirectionOf d))))).flatMap (fun w =>
          (axisSeq S (n.get (dim1Of (cellDirectionOf d)) - 1) (2 * ov + 1)
            (startCoord S ov (n.get (dim1Of (cellDirectionOf d)) - 1)
              (c.get (dim1Of (cellDirectionOf d))))).map (fun v =>
            ((c.set (cellDirectionOf d) l).set (dim1Of (cellDirectionOf d)) v).set
              (dim2Of (cellDirectionOf d)) w)) := by
  have ha := cellDirectionOf_lt hd
  obtain ⟨h1, h2, h12, h1a, h2a, _⟩ := dims_of_axis ha
  refine ⟨_, lead_int d hov, ?_⟩
  unfold runEventScanned runEventWalk
  rw [runEventCells_snd d hn hh hc hov]
  simp only [walkStart_eq, walkLengthOf_mkGrid hS hh, mkGrid_cellMax_eq ov hn,
    mkGrid_overlink_eq hh]
  rw [walkOuter_eq S _ _ _ h1 h2 h12 _ _ (by
    rw [CVector.get_set_ne _ _ h2 h1 (Ne.symm h12), CVector.get_set_same])]
  simp only [mkGrid_cellMax_eq ov hn, CVector.get_set_same,
    CVector.get_set_ne _ _ h2 h1 (Ne.symm h12), CVector.get_set_ne _ _ h1 h2 h12,
    CVector.get_set_ne _ _ ha h1 (Ne.symm h1a), CVector.get_set_ne _ _ ha h2 (Ne.symm h2a),
    CVector.set_set]
  apply List.flatMap_congr
  intro w _
  apply List.map_congr_left
  intro v _
  rw [CVector.set_comm _ _ _ h2 h1 (Ne.symm h12), CVector.set_set]

theorem runEventScanned_mem {S : Nat} {n : CVector Nat} {c : MortonNumber} {ov : Nat} {d : Int}
    (hn : CountsOK S n) (hh : Headroom S n ov) (hS : 3 * S ≤ 64) (hc : InGrid n c)
    (hd : IsDirection d) (hov : ov < n.get (cellDirectionOf d)) (m : MortonNumber) :
    m ∈ runEventScanned S (mkGrid S n ov) c d ↔ InSlab n ov c d m := by
  have ha := cellDirectionOf_lt hd
  obtain ⟨h1, h2, h12, h1a, h2a, hall⟩ := dims_of_axis ha
  obtain ⟨l, hl, heq⟩ := runEventScanned_eq hn hh hS hc hd hov
  have hn1 := countsOK_get hn (dim1Of (cellDirectionOf d))
  have hn2 := countsOK_get hn (dim2Of (cellDirectionOf d))
  have hm1 := axis_walk_mem (by omega) (headroom_get hh (dim1Of (cellDirectionOf d)))
    (inGrid_get hc (dim1Of (cellDirectionOf d)))
  have hm2 := axis_walk_mem (by omega) (headroom_get hh (dim2Of (cellDirectionOf d)))
    (inGrid_get hc (dim2Of (cellDirectionOf d)))
  rw [heq]
  simp only [List.mem_flatMap, List.mem_map]
  unfold InSlab
  rw [← hl]
  constructor
  · rintro ⟨w, hw, v, hv, rfl⟩
    refine ⟨?_, ?_⟩
    · rw [CVector.get_set_ne _ _ h2 ha h2a, CVector.get_set_ne _ _ h1 ha h1a,
        CVector.get_set_same]
    · intro b hb hba
      rcases hall b hb hba with rfl | rfl
      · rw [CVector.get_set_ne _ _ h2 h1 (Ne.symm h12), CVector.get_set_same]
        exact (hm1 v).1 hv
      · rw [CVector.get_set_same]
        exact (hm2 w).1 hw
  · rintro ⟨hlead, hrest⟩
    refine ⟨m.get (dim2Of (cellDirectionOf d)), (hm2 _).2 (hrest _ h2 h2a),
      m.get (dim1Of (cellDirectionOf d)), (hm1 _).2 (hrest _ h1 h1a), ?_⟩
    have hl2 : m.get (cellDirectionOf d) = l := by exact_mod_cast hlead
    have key := (walk_cell_eq ha h1 h2 h12 h1a h2a m c l 0 0
      (m.get (dim1Of (cellDirectionOf d))) (m.get (dim2Of (cellDirectionOf d)))).2
      ⟨hl2, rfl, rfl⟩
    rw [CVector.set_set, CVector.set_comm _ _ _ h2 h1 (Ne.symm h12), CVector.set_set] at key
    exact key.symm

/-- C3 (amended): for a grid with at least three encodable cells per axis, a look-ahead radius
smaller than the cell count of the crossing axis, an old cell `c` and a signed crossing axis
`d`, the cells whose occupancy lists `runEvent` scans are exactly the cells whose coordinate on
the crossing axis is `(c_a + s * (1 + overlink)) mod n_a` and whose coordinate on each other
axis `b` is `(c_b + e) mod n_b` for some `-overlink <= e <= overlink`. -/
theorem runEvent_scans_leading_slab (S : Nat) (n : CVector Nat) (c : MortonNumber) (ov : Nat)
    (d : Int) (hn : CountsOK S n) (hh : Headroom S n ov) (hS : 3 * S ≤ 64) (hc : InGrid n c)
    (hd : IsDirection d) (hov : ov < n.get (cellDirectionOf d)) :
    ∀ m : MortonNumber, m ∈ runEventScanned S (mkGrid S n ov) c d ↔ InSlab n ov c d m :=
  fun m => runEventScanned_mem hn hh hS hc hd hov m

/-- The 4x4x4 scenario: leaving cell (0,0,0) through +x with look-ahead radius 1 scans exactly
the slab of `InSlab`, which has x = 1 + overlink = 2. -/
theorem runEvent_scans_leading_slab_witness :
    (∀ m : MortonNumber, m ∈ runEventScanned 21 (mkGrid 21 ⟨4, 4, 4⟩ 1) ⟨0, 0, 0⟩ 1
        ↔ InSlab ⟨4, 4, 4⟩ 1 ⟨0, 0, 0⟩ 1 m)
    ∧ (runEventScanned 21 (mkGrid 21 ⟨4, 4, 4⟩ 1) ⟨0, 0, 0⟩ 1).map (fun m => m.x)
        = [2, 2, 2, 2, 2, 2, 2, 2, 2] :=
  ⟨runEvent_scans_leading_slab 21 ⟨4, 4, 4⟩ ⟨0, 0, 0⟩ 1 1 (by decide) (by decide) (by decide)
    (by decide) (by decide) (by decide), by decide⟩

/-- C3 as stated fails: on the 3x3x3 grid with look-ahead radius 3, leaving cell (2,0,0)
through +x, `runEvent` scans the coordinate x = 3, which is not `(2 + 4) mod 3 = 0` (and is
not a coordinate of the grid). -/
theorem runEvent_scans_leading_slab_counterexample :
    ¬ (∀ m : MortonNumber, m ∈ runEventScanned 21 (mkGrid 21 ⟨3, 3, 3⟩ 3) ⟨2, 0, 0⟩ 1
        ↔ InSlab ⟨3, 3, 3⟩ 3 ⟨2, 0, 0⟩ 1 m) := by
  intro h
  have h1 : InSlab ⟨3, 3, 3⟩ 3 ⟨2, 0, 0⟩ 1 ⟨3, 0, 0⟩ := (h ⟨3, 0, 0⟩).1 (by decide)
  exact absurd h1.1 (by decide)

/-- C2: for a grid with at least three encodable cells per axis, a cell `c` of the grid and a
signed crossing axis `d`, the destination cell computed by `runEvent` has the coordinate
`(c_a + 1) mod n_a` (positive sign) or `(c_a - 1) mod n_a` (negative sign) on the crossing axis,
the other two coordinates are unchanged, and stepping `n_a` times in the same direction returns
to the starting cell. -/
theorem runEvent_destination_wraps (S : Nat) (n : CVector Nat) (c : MortonNumber) (ov : Nat)
    (d : Int) (hn : CountsOK S n) (hc : InGrid n c) (hd : IsDirection d) :
    ((ofMortonNum S (runEventEndCell S (mkGrid S n ov) (getMortonNum S c) d)).get
        (cellDirectionOf d) : Int)
      = ((c.get (cellDirectionOf d) : Int) + signOf d) % (n.get (cellDirectionOf d) : Int)
    ∧ (∀ b, b < 3 → b ≠ cellDirectionOf d →
        (ofMortonNum S (runEventEndCell S (mkGrid S n ov) (getMortonNum S c) d)).get b
          = c.get b)
    ∧ (fun m => runEventEndCell S (mkGrid S n ov) m d)^[n.get (cellDirectionOf d)]
        (getMortonNum S c) = getMortonNum S c := by
  have ha := cellDirectionOf_lt hd
  have h3 := countsOK_get hn (cellDirectionOf d)
  have hv := inGrid_get hc (cellDirectionOf d)
  rw [runEventEndCell_flat ov d hn hc,
    ofMortonNum_getMortonNum_inGrid hn (stepCoord_inGrid d hn hc)]
  refine ⟨?_, ?_, ?_⟩
  · unfold stepCoord signOf
    rw [CVector.get_set_same]
    by_cases hpos : 0 < d
    · rw [if_pos hpos, if_pos hpos, natCast_succ_mod]
    · rw [if_neg hpos, if_neg hpos, natCast_pred_mod _ _ (by omega)]
  · intro b hb hba
    unfold stepCoord
    rw [CVector.get_set_ne _ _ ha hb (Ne.symm hba)]
  · rw [runEventEndCell_iterate ov d hn _ c hc]
    have e : (c.get (cellDirectionOf d)
        + n.get (cellDirectionOf d) * (if 0 < d then 1 else n.get (cellDirectionOf d) - 1))
        % n.get (cellDirectionOf d) = c.get (cellDirectionOf d) := by
      rw [Nat.add_mul_mod_self_left, Nat.mod_eq_of_lt hv]
    rw [e, CVector.set_get_self]

/-- The wrap law on the 4x4x4 grid: from cell (3,2,1) a +x crossing lands on x = 0, and four
+x crossings in a row return to the starting cell. -/
theorem runEvent_destination_wraps_witness :
    ((ofMortonNum 21 (runEventEndCell 21 (mkGrid 21 ⟨4, 4, 4⟩ 1)
        (getMortonNum 21 ⟨3, 2, 1⟩) 1)).get (cellDirectionOf 1) : Int)
      = (((⟨3, 2, 1⟩ : MortonNumber).get (cellDirectionOf 1) : Int) + signOf 1)
          % ((⟨4, 4, 4⟩ : CVector Nat).get (cellDirectionOf 1) : Int)
    ∧ (∀ b, b < 3 → b ≠ cellDirectionOf 1 →
        (ofMortonNum 21 (runEventEndCell 21 (mkGrid 21 ⟨4, 4, 4⟩ 1)
          (getMortonNum 21 ⟨3, 2, 1⟩) 1)).get b = (⟨3, 2, 1⟩ : MortonNumber).get b)
    ∧ (fun m => runEventEndCell 21 (mkGrid 21 ⟨4, 4, 4⟩ 1) m 1)^[
        (⟨4, 4, 4⟩ : CVector Nat).get (cellDirectionOf 1)]
        (getMortonNum 21 ⟨3, 2, 1⟩) = getMortonNum 21 ⟨3, 2, 1⟩ :=
  runEvent_destination_wraps 21 ⟨4, 4, 4⟩ ⟨3, 2, 1⟩ 1 1 (by decide) (by decide) (by decide)

/-! ## New-neighbour notifications -/

theorem axis_walk_nodup {S n ov v : Nat} (h1 : 1 ≤ n) (hn : n + ov < 2 ^ S) (hv : v < n)
    (hL : 2 * ov + 1 ≤ n) :
    (axisSeq S (n - 1) (2 * ov + 1) (startCoord S ov (n - 1) v)).Nodup := by
  obtain ⟨hA, _⟩ := startCoord_cases h1 hn hv
  obtain ⟨hs, _⟩ := hA (by omega)
  rw [axisSeq_clamp, if_neg (by omega), axisSeq_eq_range h1 (by omega) _ _ (by omega)]
  refine List.Nodup.map_on ?_ (List.nodup_range _)
  intro j hj j' hj' h
  rw [List.mem_range] at hj hj'
  have h2 : j ≡ j' [MOD n] := Nat.ModEq.add_left_cancel' _ h
  unfold Nat.ModEq at h2
  rwa [Nat.mod_eq_of_lt (by omega), Nat.mod_eq_of_lt (by omega)] at h2

theorem runEventScanned_nodup {S : Nat} {n : CVector Nat} {c : MortonNumber} {ov : Nat}
    {d : Int} (hn : CountsOK S n) (hh : Headroom S n ov) (hS : 3 * S ≤ 64) (hc : InGrid n c)
    (hd : IsDirection d) (hov : ov < n.get (cellDirectionOf d))
    (hw1 : 2 * ov + 1 ≤ n.get (dim1Of (cellDirectionOf d)))
    (hw2 : 2 * ov + 1 ≤ n.get (dim2Of (cellDirectionOf d))) :
    (runEventScanned S (mkGrid S n ov) c d).Nodup := by
  have ha := cellDirectionOf_lt hd
  obtain ⟨h1, h2, h12, h1a, h2a, _⟩ := dims_of_axis ha
  obtain ⟨l, _, heq⟩ := runEventScanned_eq hn hh hS hc hd hov
  have hn1 := countsOK_get hn (dim1Of (cellDirectionOf d))
  have hn2 := countsOK_get hn (dim2Of (cellDirectionOf d))
  have nd1 := axis_walk_nodup (by omega) (headroom_get hh (dim1Of (cellDirectionOf d)))
    (inGrid_get hc (dim1Of (cellDirectionOf d))) hw1
  have nd2 := axis_walk_nodup (by omega) (headroom_get hh (dim2Of (cellDirectionOf d)))
    (inGrid_get hc (dim2Of (cellDirectionOf d))) hw2
  rw [heq, List.nodup_flatMap]
  refine ⟨fun w _ => ?_, ?_⟩
  · refine List.Nodup.map_on ?_ nd1
    intro v _ v' _ h
    have := congrArg (fun m => m.get (dim1Of (cellDirectionOf d))) h
    simpa only [CVector.get_set_ne _ _ h2 h1 (Ne.symm h12), CVector.get_set_same] using this
  · refine nd2.pairwise_of_forall_ne ?_
    intro w _ w' _ hne
    simp only [Function.onFun]
    rw [List.disjoint_left]
    intro m hm hm'
    rw [List.mem_map] at hm hm'
    obtain ⟨v, _, rfl⟩ := hm
    obtain ⟨v', _, h⟩ := hm'
    have := congrArg (fun m => m.get (dim2Of (cellDirectionOf d))) h
    simp only [CVector.get_set_same] at this
    exact hne this.symm

theorem inGrid_of_get {n : CVector Nat} {m : MortonNumber}
    (h : ∀ i, i < 3 → m.get i < n.get i) : InGrid n m :=
  ⟨h 0 (by omega), h 1 (by omega), h 2 (by omega)⟩

theorem InSlab.inGrid {S : Nat} {n : CVector Nat} {ov : Nat} {c : MortonNumber} {d : Int}
    {m : MortonNumber} (hn : CountsOK S n) (h : InSlab n ov c d m) : InGrid n m := by
  obtain ⟨hlead, hrest⟩ := h
  apply inGrid_of_get
  intro i hi
  have h3 := countsOK_get hn i
  have hpos : (0 : Int) < (n.get i : Int) := by omega
  by_cases hia : i = cellDirectionOf d
  · subst hia
    have := Int.emod_lt_of_pos ((c.get (cellDirectionOf d) : Int) + signOf d * (1 + (ov : Int))) hpos
    omega
  · obtain ⟨e, _, _, he⟩ := hrest i hi hia
    have := Int.emod_lt_of_pos ((c.get i : Int) + e) hpos
    omega

theorem scanCells_eq (S : Nat) (L : Ledger) (fuel : Nat) (ms : List MortonNumber)
    (h : ∀ m ∈ ms, ∃ l, occupancy L fuel (getMortonNum S m) = some l) :
    scanCells S L fuel ms
      = some (ms.flatMap (fun m => (occupancy L fuel (getMortonNum S m)).getD [])) := by
  induction ms with
  | nil => rfl
  | cons m ms ih =>
    obtain ⟨l, hl⟩ := h m (List.mem_cons_self _ _)
    have ih2 := ih (fun m' hm' => h m' (List.mem_cons_of_mem _ hm'))
    simp only [scanCells, hl, ih2, List.flatMap_cons, Option.getD_some]

theorem getMortonNum_injOn {S : Nat} {n : CVector Nat} {m m' : MortonNumber}
    (hn : CountsOK S n) (hm : InGrid n m) (hm' : InGrid n m')
    (h : getMortonNum S m = getMortonNum S m') : m = m' := by
  rw [← ofMortonNum_getMortonNum_inGrid hn hm, ← ofMortonNum_getMortonNum_inGrid hn hm', h]

theorem runEvent_eq {S : Nat} {n : CVector Nat} {c : MortonNumber} {ov : Nat} {d : Int}
    (cells : Nat → List Nat) (L : Ledger) (N fuel pid : Nat)
    (hn : CountsOK S n) (hh : Headroom S n ov) (hS : 3 * S ≤ 64) (hc : InGrid n c)
    (hd : IsDirection d) (hcell : L.cell pid = getMortonNum S c)
    (hov : ov < n.get (cellDirectionOf d))
    (hL : ListsAgree S n N fuel (addToCell (removeFromCell L pid) pid
      (runEventEndCell S (mkGrid S n ov) (L.cell pid) d))) :
    runEvent S (mkGrid S n ov) cells L fuel pid d
      = some
        { ledger := addToCell (removeFromCell L pid) pid
            (runEventEndCell S (mkGrid S n ov) (L.cell pid) d)
          endCell := runEventEndCell S (mkGrid S n ov) (L.cell pid) d
          newNeighbours := ((runEventScanned S (mkGrid S n ov) c d).flatMap (fun m =>
            (occupancy (addToCell (removeFromCell L pid) pid
              (runEventEndCell S (mkGrid S n ov) (L.cell pid) d)) fuel
              (getMortonNum S m)).getD [])).map (fun q => (pid, q))
          newLocals := (cells (runEventEndCell S (mkGrid S n ov) (L.cell pid) d)).map
            (fun l => (pid, l))
          cellChange := (pid, L.cell pid) } := by
  have hc2 : ofMortonNum S (L.cell pid) = c := by
    rw [hcell]; exact ofMortonNum_getMortonNum_inGrid hn hc
  have hscan : ∀ m ∈ runEventScanned S (mkGrid S n ov) c d,
      ∃ l, occupancy (addToCell (removeFromCell L pid) pid
        (runEventEndCell S (mkGrid S n ov) (L.cell pid) d)) fuel (getMortonNum S m) = some l := by
    intro m hm
    obtain ⟨l, hl, _⟩ := hL m (((runEventScanned_mem hn hh hS hc hd hov m).1 hm).inGrid hn)
    exact ⟨l, hl⟩
  have hs := scanCells_eq S _ fuel _ hscan
  unfold runEvent
  simp only [hc2]
  rw [hs, Option.map_some']

/-- The notifications issued while the slab is scanned, for a ledger whose lists agree with the
stored cells: no pair twice, and exactly the pairs of the migrating particle with a particle
stored in a cell of the slab. -/
theorem scanned_notifications {S : Nat} {n : CVector Nat} {c : MortonNumber} {ov : Nat}
    {d : Int} (L2 : Ledger) (N fuel pid : Nat)
    (hn : CountsOK S n) (hh : Headroom S n ov) (hS : 3 * S ≤ 64) (hc : InGrid n c)
    (hd : IsDirection d) (hov : ov < n.get (cellDirectionOf d))
    (hw1 : 2 * ov + 1 ≤ n.get (dim1Of (cellDirectionOf d)))
    (hw2 : 2 * ov + 1 ≤ n.get (dim2Of (cellDirectionOf d)))
    (hL : ListsAgree S n N fuel L2) :
    (((runEventScanned S (mkGrid S n ov) c d).flatMap (fun m =>
        (occupancy L2 fuel (getMortonNum S m)).getD [])).map (fun q => (pid, q))).Nodup
    ∧ ∀ p q, (p, q) ∈ ((runEventScanned S (mkGrid S n ov) c d).flatMap (fun m =>
        (occupancy L2 fuel (getMortonNum S m)).getD [])).map (fun q => (pid, q)) ↔
          (p = pid ∧ q < N ∧ ∃ m, InSlab n ov c d m ∧ L2.cell q = getMortonNum S m) := by
  have hinj : Function.Injective (fun q : Nat => (pid, q)) := fun a b h => by
    simpa using h
  have hmem : ∀ q, q ∈ (runEventScanned S (mkGrid S n ov) c d).flatMap (fun m =>
      (occupancy L2 fuel (getMortonNum S m)).getD [])
      ↔ (q < N ∧ ∃ m, InSlab n ov c d m ∧ L2.cell q = getMortonNum S m) := by
    intro q
    rw [List.mem_flatMap]
    constructor
    · rintro ⟨m, hm, hq⟩
      have hslab := (runEventScanned_mem hn hh hS hc hd hov m).1 hm
      obtain ⟨l, hl, _, hiff⟩ := hL m (hslab.inGrid hn)
      rw [hl, Option.getD_some] at hq
      exact ⟨((hiff q).1 hq).1, m, hslab, ((hiff q).1 hq).2⟩
    · rintro ⟨hq, m, hslab, hcellq⟩
      obtain ⟨l, hl, _, hiff⟩ := hL m (hslab.inGrid hn)
      refine ⟨m, (runEventScanned_mem hn hh hS hc hd hov m).2 hslab, ?_⟩
      rw [hl, Option.getD_some]
      exact (hiff q).2 ⟨hq, hcellq⟩
  have hnodup : ((runEventScanned S (mkGrid S n ov) c d).flatMap (fun m =>
      (occupancy L2 fuel (getMortonNum S m)).getD [])).Nodup := by
    rw [List.nodup_flatMap]
    refine ⟨fun m hm => ?_, ?_⟩
    · have hslab := (runEventScanned_mem hn hh hS hc hd hov m).1 hm
      obtain ⟨l, hl, hnd, _⟩ := hL m (hslab.inGrid hn)
      rw [hl, Option.getD_some]
      exact hnd
    · refine (runEventScanned_nodup hn hh hS hc hd hov hw1 hw2).pairwise_of_forall_ne ?_
      intro m hm m' hm' hne
      simp only [Function.onFun]
      have hg := ((runEventScanned_mem hn hh hS hc hd hov m).1 hm).inGrid hn
      have hg' := ((runEventScanned_mem hn hh hS hc hd hov m').1 hm').inGrid hn
      obtain ⟨l, hl, _, hiff⟩ := hL m hg
      obtain ⟨l', hl', _, hiff'⟩ := hL m' hg'
      rw [hl, hl', Option.getD_some, Option.getD_some, List.disjoint_left]
      intro q hq hq'
      exact hne (getMortonNum_injOn hn hg hg'
        (((hiff q).1 hq).2.symm.trans ((hiff' q).1 hq').2))
  refine ⟨hnodup.map hinj, ?_⟩
  intro p q
  rw [List.mem_map]
  constructor
  · rintro ⟨q', hq', h⟩
    obtain ⟨rfl, rfl⟩ := Prod.mk.inj h
    exact ⟨rfl, (hmem q').1 hq'⟩
  · rintro ⟨rfl, hq⟩
    exact ⟨q, (hmem q).2 hq, rfl⟩

/-! ## Doubly linked segments -/

theorem seg_append (L : Ledger) (l1 l2 : List Nat) (t : Int) :
    ∀ p h, Seg L p h (l1 ++ l2) t
      ↔ Seg L p h l1 (headPtr t l2) ∧ Seg L (lastPtr p l1) (headPtr t l2) l2 t := by
  induction l1 with
  | nil =>
    intro p h
    cases l2 with
    | nil => simp [Seg, headPtr, lastPtr]
    | cons b l =>
      simp only [List.nil_append, Seg, headPtr, lastPtr, true_and]
  | cons a l ih =>
    intro p h
    show (h = (a : Int) ∧ L.prev a = p ∧ Seg L (a : Int) (L.next a) (l ++ l2) t) ↔ _
    rw [ih]
    simp only [Seg, lastPtr, and_assoc]

theorem seg_frame {L L2 : Ledger} {l : List Nat}
    (hf : ∀ a ∈ l, L2.next a = L.next a ∧ L2.prev a = L.prev a) (t : Int) :
    ∀ p h, Seg L p h l t → Seg L2 p h l t := by
  induction l with
  | nil => intro p h hs; exact hs
  | cons a l ih =>
    intro p h hs
    obtain ⟨h1, h2, h3⟩ := hs
    have ha := hf a (List.mem_cons_self _ _)
    refine ⟨h1, by rw [ha.2]; exact h2, ?_⟩
    rw [ha.1]
    exact ih (fun b hb => hf b (List.mem_cons_of_mem _ hb)) _ _ h3

theorem lastPtr_mem (p : Int) (l : List Nat) (hl : l ≠ []) :
    ∃ a, a ∈ l ∧ lastPtr p l = (a : Int) := by
  induction l generalizing p with
  | nil => exact absurd rfl hl
  | cons a l ih =>
    cases l with
    | nil => exact ⟨a, List.mem_cons_self _ _, rfl⟩
    | cons b l2 =>
      obtain ⟨c, hc, he⟩ := ih (a : Int) (List.cons_ne_nil _ _)
      exact ⟨c, List.mem_cons_of_mem _ hc, he⟩

/-- Redirecting the `next` link of the last entry of a segment redirects the segment. -/
theorem seg_retarget {L L2 : Ledger} {l : List Nat} (hl : l ≠ []) (hnd : l.Nodup) (t2 : Int)
    (hprev : ∀ a ∈ l, L2.prev a = L.prev a) :
    ∀ p h t, L2.next = Function.update L.next (lastPtr p l).toNat t2 →
      Seg L p h l t → Seg L2 p h l t2 := by
  induction l with
  | nil => exact absurd rfl hl
  | cons a l ih =>
    intro p h t hnext hs
    obtain ⟨h1, h2, h3⟩ := hs
    have hpa := hprev a (List.mem_cons_self _ _)
    cases l with
    | nil =>
      refine ⟨h1, by rw [hpa]; exact h2, ?_⟩
      simp only [lastPtr, Int.toNat_ofNat] at hnext
      simp only [Seg, hnext, Function.update_same]
    | cons b l2 =>
      obtain ⟨c, hc, he⟩ := lastPtr_mem (a : Int) (b :: l2) (List.cons_ne_nil _ _)
      have hne : a ≠ c := by
        intro hac
        rw [hac] at hnd
        exact (List.nodup_cons.1 hnd).1 hc
      have hla : lastPtr p (a :: b :: l2) = lastPtr (a : Int) (b :: l2) := rfl
      refine ⟨h1, by rw [hpa]; exact h2, ?_⟩
      have hna : L2.next a = L.next a := by
        rw [hnext, hla, he, Int.toNat_ofNat, Function.update_noteq hne]
      rw [hna]
      exact ih (List.cons_ne_nil _ _) (List.nodup_cons.1 hnd).2
        (fun x hx => hprev x (List.mem_cons_of_mem _ hx)) _ _ _ (by rw [hnext, hla]) h3

theorem seg_head {L : Ledger} {p h t : Int} {l : List Nat} (hs : Seg L p h l t) :
    h = headPtr t l := by
  cases l with
  | nil => exact hs
  | cons a l => exact hs.1

/-- The occupancy loop over a well-linked segment visits exactly its entries. -/
theorem chain_of_seg {L : Ledger} {l : List Nat} :
    ∀ (p h : Int) (fuel : Nat), Seg L p h l (-1) → l.length ≤ fuel →
      chain L.next fuel h = some l := by
  induction l with
  | nil =>
    intro p h fuel hs _
    have : h = -1 := hs
    subst this
    cases fuel <;> simp [chain]
  | cons a l ih =>
    intro p h fuel hs hlen
    obtain ⟨h1, _, h3⟩ := hs
    subst h1
    cases fuel with
    | zero => simp at hlen
    | succ k =>
      have hk : l.length ≤ k := by simpa using hlen
      have hnn : ¬ ((a : Int) < 0) := by omega
      simp only [chain, if_neg hnn, Int.toNat_ofNat, ih _ _ k h3 hk, Option.map_some']

/-! ## Unlinking and pushing a particle -/

theorem removeFromCell_next (L : Ledger) (pid : Nat) :
    (removeFromCell L pid).next
      = if 0 ≤ L.prev pid then Function.update L.next (L.prev pid).toNat (L.next pid)
        else L.next := by
  unfold removeFromCell
  simp only
  split_ifs <;> rfl

theorem removeFromCell_list (L : Ledger) (pid : Nat) :
    (removeFromCell L pid).list
      = if 0 ≤ L.prev pid then L.list
        else Function.update L.list (L.cell pid) (L.next pid) := by
  unfold removeFromCell
  simp only
  split_ifs <;> rfl

theorem removeFromCell_prev (L : Ledger) (pid : Nat) :
    (removeFromCell L pid).prev
      = if 0 ≤ L.next pid then Function.update L.prev (L.next pid).toNat (L.prev pid)
        else L.prev := by
  unfold removeFromCell
  simp only
  split_ifs <;> rfl

theorem removeFromCell_cell (L : Ledger) (pid : Nat) :
    (removeFromCell L pid).cell = L.cell := by
  unfold removeFromCell
  simp only
  split_ifs <;> rfl

theorem lastPtr_cases (l : List Nat) :
    (l = [] ∧ lastPtr (-1) l = -1) ∨ (l ≠ [] ∧ ∃ c, c ∈ l ∧ lastPtr (-1) l = (c : Int)) := by
  cases l with
  | nil => exact Or.inl ⟨rfl, rfl⟩
  | cons a l => exact Or.inr ⟨List.cons_ne_nil _ _, lastPtr_mem _ _ (List.cons_ne_nil _ _)⟩

/-- The links of the particle `pid` inside its list `l1 ++ pid :: l2`. -/
theorem remove_ptrs {L : Ledger} {pid : Nat} {l1 l2 : List Nat} {h : Int}
    (hs : Seg L (-1) h (l1 ++ pid :: l2) (-1)) :
    Seg L (-1) h l1 (pid : Int) ∧ L.prev pid = lastPtr (-1) l1
      ∧ Seg L (pid : Int) (L.next pid) l2 (-1) ∧ L.next pid = headPtr (-1) l2 := by
  obtain ⟨h1, h2, h3, h4⟩ := (seg_append L l1 (pid :: l2) (-1) (-1) h).1 hs
  exact ⟨h1, h3, h4, seg_head h4⟩

theorem removeFromCell_next_eq {L : Ledger} {pid : Nat} {l1 : List Nat}
    (hp : L.prev pid = lastPtr (-1) l1) {a : Nat} (ha : a ∉ l1) :
    (removeFromCell L pid).next a = L.next a := by
  rw [removeFromCell_next]
  split_ifs with h0
  · rcases lastPtr_cases l1 with ⟨_, h1⟩ | ⟨_, c, hc, h1⟩
    · rw [hp, h1] at h0
      omega
    · rw [hp, h1, Int.toNat_ofNat, Function.update_noteq]
      intro hac
      exact ha (hac ▸ hc)
  · rfl

theorem removeFromCell_prev_eq {L : Ledger} {pid : Nat} {l2 : List Nat}
    (hx : L.next pid = headPtr (-1) l2) {a : Nat} (ha : headPtr (-1) l2 ≠ (a : Int)) :
    (removeFromCell L pid).prev a = L.prev a := by
  rw [removeFromCell_prev]
  split_ifs with h0
  · rw [Function.update_noteq]
    intro hac
    apply ha
    rw [← hx, hac, Int.toNat_of_nonneg h0]
  · rfl

/-- Unlinking `pid` from its own list leaves the rest of the list well linked. -/
theorem seg_remove {L : Ledger} {pid idx : Nat} {l1 l2 : List Nat}
    (hnd : (l1 ++ pid :: l2).Nodup) (hidx : L.cell pid = idx)
    (hs : Seg L (-1) (L.list idx) (l1 ++ pid :: l2) (-1)) :
    Seg (removeFromCell L pid) (-1) ((removeFromCell L pid).list idx) (l1 ++ l2) (-1) := by
  obtain ⟨s1, hp, s2, hx⟩ := remove_ptrs hs
  have hnd1 : l1.Nodup := (List.nodup_append.1 hnd).1
  have hnd2 : (pid :: l2).Nodup := (List.nodup_append.1 hnd).2.1
  have hdis : ∀ a, a ∈ l1 → a ∈ pid :: l2 → False := fun a h1 h2 =>
    (List.nodup_append.1 hnd).2.2 h1 h2
  rw [seg_append]
  constructor
  · -- the front part, redirected past `pid`
    rcases lastPtr_cases l1 with ⟨he, h1⟩ | ⟨hne, c, hc, h1⟩
    · subst he
      have hneg : ¬ (0 ≤ L.prev pid) := by rw [hp, h1]; omega
      rw [removeFromCell_list, if_neg hneg, hidx, Function.update_same, hx]
      exact rfl
    · have hpos : 0 ≤ L.prev pid := by rw [hp, h1]; omega
      rw [removeFromCell_list, if_pos hpos, ← hx]
      refine seg_retarget hne hnd1 (L.next pid) ?_ (-1) _ _ ?_ s1
      · intro a ha
        apply removeFromCell_prev_eq hx
        cases l2 with
        | nil => simp only [headPtr]; omega
        | cons b l3 =>
          simp only [headPtr]
          intro hba
          have : b = a := by exact_mod_cast hba
          exact hdis a ha (this ▸ List.mem_cons_of_mem _ (List.mem_cons_self _ _))
      · rw [removeFromCell_next, if_pos hpos, hp]
  · -- the back part, whose first entry gets the `prev` link of `pid`
    cases l2 with
    | nil => exact rfl
    | cons b l3 =>
      have hxb : L.next pid = (b : Int) := hx
      obtain ⟨_, _, s3⟩ := s2
      have hb1 : b ∉ l1 := fun hb => hdis b hb (List.mem_cons_of_mem _ (List.mem_cons_self _ _))
      have hnd3 : (b :: l3).Nodup := (List.nodup_cons.1 hnd2).2
      refine ⟨rfl, ?_, ?_⟩
      · rw [removeFromCell_prev, if_pos (by omega), hxb, Int.toNat_ofNat,
          Function.update_same, hp]
      · rw [removeFromCell_next_eq hp hb1]
        refine seg_frame (fun a ha => ⟨?_, ?_⟩) (-1) _ _ s3
        · exact removeFromCell_next_eq hp (fun h1 =>
            hdis a h1 (List.mem_cons_of_mem _ (List.mem_cons_of_mem _ ha)))
        · apply removeFromCell_prev_eq hx
          simp only [headPtr]
          intro hba
          have : b = a := by exact_mod_cast hba
          exact (List.nodup_cons.1 hnd3).1 (this ▸ ha)

/-- Unlinking `pid` leaves every list that shares no entry with the list of `pid` as it
was. -/
theorem seg_remove_other {L : Ledger} {pid idx idx2 : Nat} {l1 l2 l : List Nat}
    (hidx : L.cell pid = idx) (hne : idx2 ≠ idx)
    (hs : Seg L (-1) (L.list idx) (l1 ++ pid :: l2) (-1))
    (hdis : ∀ a ∈ l, a ∉ l1 ++ pid :: l2)
    (hl : Seg L (-1) (L.list idx2) l (-1)) :
    Seg (removeFromCell L pid) (-1) ((removeFromCell L pid).list idx2) l (-1) := by
  obtain ⟨_, hp, _, hx⟩ := remove_ptrs hs
  have hlist : (removeFromCell L pid).list idx2 = L.list idx2 := by
    rw [removeFromCell_list]
    split_ifs
    · rfl
    · rw [hidx, Function.update_noteq hne]
  rw [hlist]
  refine seg_frame (fun a ha => ⟨?_, ?_⟩) (-1) _ _ hl
  · exact removeFromCell_next_eq hp (fun h1 => hdis a ha (List.mem_append_left _ h1))
  · apply removeFromCell_prev_eq hx
    cases l2 with
    | nil => simp only [headPtr]; omega
    | cons b l3 =>
      simp only [headPtr]
      intro hba
      have : b = a := by exact_mod_cast hba
      exact hdis a ha (List.mem_append_right _
        (this ▸ List.mem_cons_of_mem _ (List.mem_cons_self _ _)))

theorem addToCell_next_eq (L : Ledger) (pid idx : Nat) {a : Nat} (ha : a ≠ pid) :
    (addToCell L pid idx).next a = L.next a := by
  unfold addToCell
  simp only
  rw [Function.update_noteq ha]

theorem addToCell_prev_eq {L : Ledger} {pid idx : Nat} {l0 : List Nat}
    (hh : L.list idx = headPtr (-1) l0) {a : Nat} (ha : a ≠ pid)
    (hb : headPtr (-1) l0 ≠ (a : Int)) :
    (addToCell L pid idx).prev a = L.prev a := by
  unfold addToCell
  simp only
  rw [Function.update_noteq ha]
  split_ifs with h0
  · rw [Function.update_noteq]
    intro hac
    apply hb
    rw [← hh, hac, Int.toNat_of_nonneg h0]
  · rfl

/-- Pushing `pid` on the head of a well-linked list gives a well-linked list. -/
theorem seg_add {L : Ledger} {pid idx : Nat} {l : List Nat}
    (hs : Seg L (-1) (L.list idx) l (-1)) (hpid : pid ∉ l) (hnd : l.Nodup) :
    Seg (addToCell L pid idx) (-1) ((addToCell L pid idx).list idx) (pid :: l) (-1) := by
  have hh := seg_head hs
  have e1 : (addToCell L pid idx).list idx = (pid : Int) := by
    unfold addToCell
    simp only
    rw [Function.update_same]
  have e2 : (addToCell L pid idx).prev pid = -1 := by
    unfold addToCell
    simp only
    rw [Function.update_same]
  have e3 : (addToCell L pid idx).next pid = L.list idx := by
    unfold addToCell
    simp only
    rw [Function.update_same]
  refine ⟨e1, e2, ?_⟩
  rw [e3]
  cases l with
  | nil => exact hs
  | cons b l2 =>
    obtain ⟨hb, _, s2⟩ := hs
    have hbp : b ≠ pid := fun h => hpid (h ▸ List.mem_cons_self _ _)
    refine ⟨hb, ?_, ?_⟩
    · unfold addToCell
      simp only
      rw [Function.update_noteq hbp, if_pos (by omega), hb, Int.toNat_ofNat,
        Function.update_same]
    · rw [addToCell_next_eq L pid idx hbp]
      refine seg_frame (fun a ha => ⟨?_, ?_⟩) (-1) _ _ s2
      · exact addToCell_next_eq L pid idx (fun h => hpid (h ▸ List.mem_cons_of_mem _ ha))
      · apply addToCell_prev_eq hh (fun (h : a = pid) => hpid (h ▸ List.mem_cons_of_mem _ ha))
        simp only [headPtr]
        intro hba
        have : b = a := by exact_mod_cast hba
        exact (List.nodup_cons.1 hnd).1 (this ▸ ha)

/-- Pushing `pid` on one list leaves every list that holds neither `pid` nor an entry of that
list as it was. -/
theorem seg_add_other {L : Ledger} {pid idx idx2 : Nat} {l0 l : List Nat}
    (hne : idx2 ≠ idx) (hs : Seg L (-1) (L.list idx) l0 (-1))
    (hpid : pid ∉ l) (hdis : ∀ a ∈ l, a ∉ l0)
    (hl : Seg L (-1) (L.list idx2) l (-1)) :
    Seg (addToCell L pid idx) (-1) ((addToCell L pid idx).list idx2) l (-1) := by
  have hh := seg_head hs
  have hlist : (addToCell L pid idx).list idx2 = L.list idx2 := by
    unfold addToCell
    simp only
    rw [Function.update_noteq hne]
  rw [hlist]
  refine seg_frame (fun a ha => ⟨?_, ?_⟩) (-1) _ _ hl
  · exact addToCell_next_eq L pid idx (fun h => hpid (h ▸ ha))
  · apply addToCell_prev_eq hh (fun (h : a = pid) => hpid (h ▸ ha))
    cases l0 with
    | nil => simp only [headPtr]; omega
    | cons b l3 =>
      simp only [headPtr]
      intro hba
      have : b = a := by exact_mod_cast hba
      exact hdis a ha (this ▸ List.mem_cons_self _ _)

/-! ## `runEvent` keeps the ledger well formed -/

theorem addToCell_cell (L : Ledger) (pid idx : Nat) :
    (addToCell L pid idx).cell = Function.update L.cell pid idx := rfl

/-- Moving a particle to a grid cell (lines 166-167 of `runEvent`) keeps the ledger well
formed, with the particle erased from its old list and pushed on the new one. -/
theorem ledgerWF_migrate {S : Nat} {n : CVector Nat} {N : Nat} {L : Ledger}
    {occ : Nat → List Nat} {pid : Nat} (hwf : LedgerWF S n N L occ) (hpid : pid < N)
    {mEnd : MortonNumber} (hEnd : InGrid n mEnd) :
    LedgerWF S n N (addToCell (removeFromCell L pid) pid (getMortonNum S mEnd))
      (migrateOcc occ (L.cell pid) pid (getMortonNum S mEnd)) := by
  obtain ⟨m0, hm0, hcell0⟩ := hwf.cell_inGrid pid hpid
  have hmem0 : pid ∈ occ (L.cell pid) := by
    rw [hcell0]; exact (hwf.mem_iff m0 hm0 pid).2 ⟨hpid, hcell0⟩
  have hnd0 : (occ (L.cell pid)).Nodup := by rw [hcell0]; exact hwf.nodup m0 hm0
  have hs0 : Seg L (-1) (L.list (L.cell pid)) (occ (L.cell pid)) (-1) := by
    rw [hcell0]; exact hwf.linked m0 hm0
  obtain ⟨l1, l2, hsplit⟩ := List.append_of_mem hmem0
  have hndo : (occ (L.cell pid)).Nodup := hnd0
  rw [hsplit] at hnd0 hs0
  have hp1 : pid ∉ l1 := fun h =>
    (List.nodup_append.1 hnd0).2.2 h (List.mem_cons_self _ _)
  have herase : (occ (L.cell pid)).erase pid = l1 ++ l2 := by
    rw [hsplit, List.erase_append_right _ hp1, List.erase_cons_head]
  have hnd12 : (l1 ++ l2).Nodup := by
    rw [← herase]; exact hndo.erase pid
  have hp12 : pid ∉ l1 ++ l2 := by
    rw [← herase]
    intro h
    exact (hndo.mem_erase_iff.1 h).1 rfl
  -- the lists after unlinking
  have hocc1 : ∀ idx, Function.update occ (L.cell pid) ((occ (L.cell pid)).erase pid) idx
      = if idx = L.cell pid then l1 ++ l2 else occ idx := by
    intro idx
    by_cases h : idx = L.cell pid
    · rw [if_pos h, h, Function.update_same, herase]
    · rw [if_neg h, Function.update_noteq h]
  have hmem1 : ∀ m, InGrid n m → ∀ q,
      q ∈ Function.update occ (L.cell pid) ((occ (L.cell pid)).erase pid) (getMortonNum S m)
        ↔ (q ≠ pid ∧ q < N ∧ L.cell q = getMortonNum S m) := by
    intro m hm q
    by_cases h : getMortonNum S m = L.cell pid
    · rw [h, Function.update_same, hndo.mem_erase_iff, ← h, hwf.mem_iff m hm q]
    · rw [Function.update_noteq h, hwf.mem_iff m hm q]
      constructor
      · rintro ⟨h1, h2⟩
        exact ⟨fun hq => h (by rw [← h2, hq]), h1, h2⟩
      · rintro ⟨_, h1, h2⟩
        exact ⟨h1, h2⟩
  have hnd1 : ∀ m, InGrid n m →
      (Function.update occ (L.cell pid) ((occ (L.cell pid)).erase pid)
        (getMortonNum S m)).Nodup := by
    intro m hm
    rw [hocc1]
    split_ifs
    · exact hnd12
    · exact hwf.nodup m hm
  have hseg1 : ∀ m, InGrid n m →
      Seg (removeFromCell L pid) (-1) ((removeFromCell L pid).list (getMortonNum S m))
        (Function.update occ (L.cell pid) ((occ (L.cell pid)).erase pid) (getMortonNum S m))
        (-1) := by
    intro m hm
    rw [hocc1]
    by_cases h : getMortonNum S m = L.cell pid
    · rw [if_pos h, h]
      exact seg_remove hnd0 rfl hs0
    · rw [if_neg h]
      refine seg_remove_other rfl h hs0 ?_ (hwf.linked m hm)
      intro a ha hin
      have ha2 := ((hwf.mem_iff m hm a).1 ha).2
      have hin2 : a ∈ occ (getMortonNum S m0) := by rw [← hcell0, hsplit]; exact hin
      have ha3 := ((hwf.mem_iff m0 hm0 a).1 hin2).2
      exact h (by rw [← ha2, ha3, hcell0])
  generalize hocc1def : Function.update occ (L.cell pid) ((occ (L.cell pid)).erase pid) = occ1
    at hmem1 hnd1 hseg1
  have hocc2 : migrateOcc occ (L.cell pid) pid (getMortonNum S mEnd)
      = Function.update occ1 (getMortonNum S mEnd) (pid :: occ1 (getMortonNum S mEnd)) := by
    unfold migrateOcc
    rw [hocc1def]
  rw [hocc2]
  have hpe : pid ∉ occ1 (getMortonNum S mEnd) := fun h =>
    ((hmem1 mEnd hEnd pid).1 h).1 rfl
  refine ⟨?_, ?_, ?_, ?_⟩
  · intro m hm
    by_cases h : getMortonNum S m = getMortonNum S mEnd
    · rw [h, Function.update_same]
      exact seg_add (hseg1 mEnd hEnd) hpe (hnd1 mEnd hEnd)
    · rw [Function.update_noteq h]
      refine seg_add_other h (hseg1 mEnd hEnd) (fun hq => ((hmem1 m hm pid).1 hq).1 rfl) ?_
        (hseg1 m hm)
      intro a ha hin
      exact h (by rw [← ((hmem1 m hm a).1 ha).2.2, ((hmem1 mEnd hEnd a).1 hin).2.2])
  · intro m hm
    by_cases h : getMortonNum S m = getMortonNum S mEnd
    · rw [h, Function.update_same]
      exact List.nodup_cons.2 ⟨hpe, hnd1 mEnd hEnd⟩
    · rw [Function.update_noteq h]
      exact hnd1 m hm
  · intro m hm q
    rw [addToCell_cell, removeFromCell_cell]
    by_cases h : getMortonNum S m = getMortonNum S mEnd
    · rw [h, Function.update_same, List.mem_cons, hmem1 mEnd hEnd q]
      by_cases hq : q = pid
      · subst hq
        simp only [Function.update_same, hpid, true_and, true_or]
      · simp only [Function.update_noteq hq, hq, false_or, ne_eq, not_false_eq_true, true_and]
    · rw [Function.update_noteq h, hmem1 m hm q]
      by_cases hq : q = pid
      · subst hq
        simp only [Function.update_same, ne_eq, not_true_eq_false, false_and, false_iff,
          not_and]
        intro _ h2
        exact h h2.symm
      · simp only [Function.update_noteq hq, hq, ne_eq, not_false_eq_true, true_and]
  · intro q hq
    rw [addToCell_cell, removeFromCell_cell]
    by_cases hqp : q = pid
    · subst hqp
      exact ⟨mEnd, hEnd, by rw [Function.update_same]⟩
    · rw [Function.update_noteq hqp]
      exact hwf.cell_inGrid q hq

/-- A well-formed ledger has lists that agree with the stored cells, as soon as the occupancy
loops have one unit of fuel per particle. -/
theorem LedgerWF.listsAgree {S : Nat} {n : CVector Nat} {N : Nat} {L : Ledger}
    {occ : Nat → List Nat} (hwf : LedgerWF S n N L occ) {fuel : Nat} (hfuel : N ≤ fuel) :
    ListsAgree S n N fuel L := by
  intro m hm
  refine ⟨occ (getMortonNum S m), ?_, hwf.nodup m hm, hwf.mem_iff m hm⟩
  unfold occupancy
  refine chain_of_seg _ _ _ (hwf.linked m hm) (le_trans ?_ hfuel)
  have hsub : occ (getMortonNum S m) ⊆ List.range N := fun q hq =>
    List.mem_range.2 ((hwf.mem_iff m hm q).1 hq).1
  have := ((hwf.nodup m hm).subperm hsub).length_le
  simpa using this

/-- The ledger without particles is well formed. -/
theorem ledgerWF_empty (S : Nat) (n : CVector Nat) :
    LedgerWF S n 0 emptyLedger (fun _ => []) := by
  refine ⟨fun _ _ => rfl, fun _ _ => List.nodup_nil, fun _ _ q => ?_, fun q hq => ?_⟩
  · simp
  · omega

/-- Pushing the next particle on the list of a grid cell (one step of the loop of lines
389-390 of `addCells`) keeps the ledger well formed. -/
theorem ledgerWF_add {S : Nat} {n : CVector Nat} {N : Nat} {L : Ledger}
    {occ : Nat → List Nat} (hwf : LedgerWF S n N L occ) {m1 : MortonNumber}
    (hm1 : InGrid n m1) :
    LedgerWF S n (N + 1) (addToCell L N (getMortonNum S m1))
      (Function.update occ (getMortonNum S m1) (N :: occ (getMortonNum S m1))) := by
  have hnew : ∀ m, InGrid n m → N ∉ occ (getMortonNum S m) := fun m hm h => by
    have := ((hwf.mem_iff m hm N).1 h).1
    omega
  refine ⟨?_, ?_, ?_, ?_⟩
  · intro m hm
    by_cases h : getMortonNum S m = getMortonNum S m1
    · rw [h, Function.update_same]
      exact seg_add (hwf.linked m1 hm1) (hnew m1 hm1) (hwf.nodup m1 hm1)
    · rw [Function.update_noteq h]
      refine seg_add_other h (hwf.linked m1 hm1) (hnew m hm) ?_ (hwf.linked m hm)
      intro a ha hin
      exact h (by rw [← ((hwf.mem_iff m hm a).1 ha).2, ((hwf.mem_iff m1 hm1 a).1 hin).2])
  · intro m hm
    by_cases h : getMortonNum S m = getMortonNum S m1
    · rw [h, Function.update_same]
      exact List.nodup_cons.2 ⟨hnew m1 hm1, hwf.nodup m1 hm1⟩
    · rw [Function.update_noteq h]
      exact hwf.nodup m hm
  · intro m hm q
    rw [addToCell_cell]
    by_cases h : getMortonNum S m = getMortonNum S m1
    · rw [h, Function.update_same, List.mem_cons, hwf.mem_iff m1 hm1 q]
      by_cases hq : q = N
      · subst hq
        simp only [Function.update_same, true_or, Nat.lt_succ_self, and_self]
      · simp only [Function.update_noteq hq, hq, false_or]
        constructor
        · rintro ⟨h1, h2⟩
          exact ⟨by omega, h2⟩
        · rintro ⟨h1, h2⟩
          exact ⟨by omega, h2⟩
    · rw [Function.update_noteq h, hwf.mem_iff m hm q]
      by_cases hq : q = N
      · subst hq
        simp only [Function.update_same, lt_self_iff_false, false_and, false_iff, not_and]
        intro _ h2
        exact h h2.symm
      · simp only [Function.update_noteq hq]
        constructor
        · rintro ⟨h1, h2⟩
          exact ⟨by omega, h2⟩
        · rintro ⟨h1, h2⟩
          exact ⟨by omega, h2⟩
  · intro q hq
    rw [addToCell_cell]
    by_cases hqp : q = N
    · subst hqp
      exact ⟨m1, hm1, by rw [Function.update_same]⟩
    · rw [Function.update_noteq hqp]
      exact hwf.cell_inGrid q (by omega)

/-- The sample ledger with two particles in grid cells is well formed. -/
theorem ledgerWF_twoParticles (S : Nat) (n : CVector Nat) {c0 c1 : MortonNumber}
    (h0 : InGrid n c0) (h1 : InGrid n c1) :
    ∃ occ, LedgerWF S n 2 (twoParticles S c0 c1) occ :=
  ⟨_, ledgerWF_add (ledgerWF_add (ledgerWF_empty S n) h0) h1⟩

/-- C4 (amended): for a grid with at least three encodable cells per axis whose two walked axes
have at least `2 * overlink + 1` cells and whose crossing axis has more than `overlink` cells,
and a well-formed ledger of `N` particles, one execution of `runEvent` for the particle `pid`
returns (given one unit of fuel per particle), issues no new-neighbour notification twice, and
issues the notification `(p, q)` exactly when `p` is the migrating particle and `q` is a
particle stored in a cell of the newly exposed slab; the stored cells of the other particles
are unchanged and the ledger stays well formed. -/
theorem runEvent_notifies_slab_once (S : Nat) (n : CVector Nat) (c : MortonNumber) (ov : Nat)
    (d : Int) (cells : Nat → List Nat) (L : Ledger) (N fuel pid : Nat)
    (hn : CountsOK S n) (hh : Headroom S n ov) (hS : 3 * S ≤ 64) (hc : InGrid n c)
    (hd : IsDirection d) (hwf : ∃ occ, LedgerWF S n N L occ) (hpid : pid < N)
    (hfuel : N ≤ fuel) (hcell : L.cell pid = getMortonNum S c)
    (hov : ov < n.get (cellDirectionOf d))
    (hw1 : 2 * ov + 1 ≤ n.get (dim1Of (cellDirectionOf d)))
    (hw2 : 2 * ov + 1 ≤ n.get (dim2Of (cellDirectionOf d))) :
    ∃ r, runEvent S (mkGrid S n ov) cells L fuel pid d = some r
      ∧ r.newNeighbours.Nodup
      ∧ (∀ p q, (p, q) ∈ r.newNeighbours ↔
          (p = pid ∧ q < N ∧ ∃ m, InSlab n ov c d m ∧ r.ledger.cell q = getMortonNum S m))
      ∧ (∀ q, q ≠ pid → r.ledger.cell q = L.cell q)
      ∧ ∃ occ2, LedgerWF S n N r.ledger occ2 := by
  obtain ⟨occ, hwf⟩ := hwf
  have hend : runEventEndCell S (mkGrid S n ov) (L.cell pid) d
      = getMortonNum S (stepCoord n c d) := by
    rw [hcell]
    exact runEventEndCell_flat ov d hn hc
  have hwf2 := ledgerWF_migrate (S := S) hwf hpid (stepCoord_inGrid d hn hc)
  rw [← hend] at hwf2
  have hL := hwf2.listsAgree hfuel
  obtain ⟨h1, h2⟩ := scanned_notifications _ N fuel pid hn hh hS hc hd hov hw1 hw2 hL
  refine ⟨_, runEvent_eq cells L N fuel pid hn hh hS hc hd hcell hov hL, ?_, ?_, ?_, ?_⟩
  · dsimp only
    exact h1
  · dsimp only
    exact h2
  · intro q hq
    simp only [addToCell_cell, removeFromCell_cell, Function.update_noteq hq]
  · exact ⟨_, hwf2⟩

/-- On the 3x3x3 grid with look-ahead radius 1, particle 0 leaves cell (0,0,0) through +x while
particle 1 sits in cell (2,0,0), a cell of the newly exposed slab: `runEvent` returns and
notifies particle 1 exactly once. -/
theorem runEvent_notifies_slab_once_witness :
    ∃ r, runEvent 21 (mkGrid 21 ⟨3, 3, 3⟩ 1) (fun _ => [])
        (twoParticles 21 ⟨0, 0, 0⟩ ⟨2, 0, 0⟩) 2 0 1 = some r
      ∧ r.newNeighbours.Nodup
      ∧ (∀ p q, (p, q) ∈ r.newNeighbours ↔
          (p = 0 ∧ q < 2 ∧ ∃ m, InSlab ⟨3, 3, 3⟩ 1 ⟨0, 0, 0⟩ 1 m
            ∧ r.ledger.cell q = getMortonNum 21 m))
      ∧ (∀ q, q ≠ 0 → r.ledger.cell q = (twoParticles 21 ⟨0, 0, 0⟩ ⟨2, 0, 0⟩).cell q)
      ∧ ∃ occ2, LedgerWF 21 ⟨3, 3, 3⟩ 2 r.ledger occ2 :=
  runEvent_notifies_slab_once 21 ⟨3, 3, 3⟩ ⟨0, 0, 0⟩ 1 1 (fun _ => [])
    (twoParticles 21 ⟨0, 0, 0⟩ ⟨2, 0, 0⟩) 2 2 0 (by decide) (by decide) (by decide) (by decide)
    (by decide) (ledgerWF_twoParticles 21 ⟨3, 3, 3⟩ (by decide) (by decide)) (by decide)
    (by decide) (by decide) (by decide) (by decide) (by decide)

/-- C4 as stated fails: on the 3x3x3 grid with look-ahead radius 2, particle 1 leaves cell
(1,0,0) through +y while particle 0 sits in cell (0,0,0), a cell of the newly exposed slab;
`runEvent` issues the notification for particle 0 twice. -/
theorem runEvent_notifies_slab_once_counterexample :
    (runEvent 21 (mkGrid 21 ⟨3, 3, 3⟩ 2) (fun _ => [])
        (twoParticles 21 ⟨0, 0, 0⟩ ⟨1, 0, 0⟩) 2 1 2).map (fun r => r.newNeighbours)
      = some [(1, 0), (1, 0)]
    ∧ InSlab ⟨3, 3, 3⟩ 2 ⟨1, 0, 0⟩ 2 ⟨0, 0, 0⟩ := by
  refine ⟨by decide, by decide, ?_⟩
  intro b hb hba
  have hb2 : b = 0 ∨ b = 2 := by
    have : cellDirectionOf 2 = 1 := by decide
    omega
  rcases hb2 with rfl | rfl
  · exact ⟨-1, by decide, by decide, by decide⟩
  · exact ⟨0, by decide, by decide, by decide⟩

/-! ## Neighbourhood queries -/

theorem nbhdZero_get_two (S : Nat) (g : Grid) (c : MortonNumber) :
    (nbhdZero S g c).get 2 = startCoord S g.dilatedOverlink (g.dilatedCellMax.get 2) (c.get 2) := by
  unfold nbhdZero
  rw [walkStart_eq, CVector.get_set_same, walkStart_eq,
    CVector.get_set_ne _ _ (by omega) (by omega) (by omega), walkStart_eq,
    CVector.get_set_ne _ _ (by omega) (by omega) (by omega)]

theorem nbhdMax_get_two (S : Nat) (g : Grid) (c : MortonNumber) :
    (nbhdMax S g c).get 2
      = (if dAdd S (c.get 2) (dAdd S g.dilatedOverlink (dOfNat S 1)) > g.dilatedCellMax.get 2
          then dSub S (dAdd S (c.get 2) (dAdd S g.dilatedOverlink (dOfNat S 1)))
            (dAdd S (g.dilatedCellMax.get 2) (dOfNat S 1))
          else dAdd S (c.get 2) (dAdd S g.dilatedOverlink (dOfNat S 1))) := by
  unfold nbhdMax
  simp only [nbhdMaxAxis, CVector.get_set_same,
    CVector.get_set_ne _ _ (show 0 < 3 by omega) (show 2 < 3 by omega) (show 0 ≠ 2 by omega),
    CVector.get_set_ne _ _ (show 1 < 3 by omega) (show 2 < 3 by omega) (show 1 ≠ 2 by omega)]

/-- With three cells on the z axis and look-ahead radius 1 the two bounds of the `while` loop
of `getParticleNeighbourhood` coincide on the z axis. -/
theorem nbhd_three_cells_bounds_meet (c : MortonNumber) (hc : InGrid ⟨3, 3, 3⟩ c) :
    (nbhdZero 21 (mkGrid 21 ⟨3, 3, 3⟩ 1) c).get 2
      = (nbhdMax 21 (mkGrid 21 ⟨3, 3, 3⟩ 1) c).get 2 := by
  rw [nbhdZero_get_two, nbhdMax_get_two]
  obtain ⟨x, y, z⟩ := c
  obtain ⟨_, _, hz⟩ := hc
  simp only at hz
  simp only [CVector.get]
  interval_cases z <;> decide

/-- C1 (code defect): on the 3x3x3 grid with look-ahead radius 1, which `addCells` accepts,
`getParticleNeighbourhood` passes nothing to the callback, whatever the ledger, the particle
and its cell: `zero_coords[2]` equals `max_coords[2]`, so the `while` loop is never entered.
In particular particle 1 in the adjacent cell (1,0,0) is not reported to particle 0 in cell
(0,0,0), although its cell is within one cell of (0,0,0) on every axis. The same walk on the
4x4x4 grid with look-ahead radius 2 stops after the single cell (2,2,2) and misses particle 1
as well. -/
theorem getParticleNeighbourhood_three_cells_empty :
    (∀ (L : Ledger) (fuel pid : Nat) (c : MortonNumber), InGrid ⟨3, 3, 3⟩ c →
        L.cell pid = getMortonNum 21 c →
        getParticleNeighbourhood 21 (mkGrid 21 ⟨3, 3, 3⟩ 1) L fuel pid = some [])
    ∧ occupancy (twoParticles 21 ⟨0, 0, 0⟩ ⟨1, 0, 0⟩) 1 (getMortonNum 21 ⟨1, 0, 0⟩) = some [1]
    ∧ (twoParticles 21 ⟨0, 0, 0⟩ ⟨1, 0, 0⟩).cell 0 = getMortonNum 21 ⟨0, 0, 0⟩
    ∧ getParticleNeighbourhood 21 (mkGrid 21 ⟨3, 3, 3⟩ 1)
        (twoParticles 21 ⟨0, 0, 0⟩ ⟨1, 0, 0⟩) 10 0 = some []
    ∧ getParticleNeighbourhood 21 (mkGrid 21 ⟨4, 4, 4⟩ 2)
        (twoParticles 21 ⟨0, 0, 0⟩ ⟨1, 0, 0⟩) 10 0 = some [] := by
  refine ⟨?_, by decide, by decide, by decide, by decide⟩
  intro L fuel pid c hc hcell
  have hc2 : ofMortonNum 21 (L.cell pid) = c := by
    rw [hcell]
    exact ofMortonNum_getMortonNum_inGrid (n := ⟨3, 3, 3⟩) (by decide) hc
  have hz := nbhd_three_cells_bounds_meet c hc
  unfold getParticleNeighbourhood
  simp only [hc2]
  cases fuel with
  | zero => simp only [nbhdLoop, if_pos hz, Option.map_some', List.map_nil]
  | succ k => simp only [nbhdLoop, if_pos hz, Option.map_some', List.map_nil]

/-- C10 (amended): for every particle, `getParticleLocalNeighbourhood` invokes the callback
exactly once, in order, for each entry of the geometry binding list `cells[cell]` of the
particle's stored cell (the ids of the local objects bound to that cell) and for nothing
else; the occupancy ledger is only read for the stored cell. -/
theorem getParticleLocalNeighbourhood_eq (cells : Nat → List Nat) (L : Ledger) (pid : Nat) :
    getParticleLocalNeighbourhood cells L pid = (cells (L.cell pid)).map (fun id => (pid, id))
    ∧ ∀ list2 next2 prev2, getParticleLocalNeighbourhood cells ⟨list2, next2, prev2, L.cell⟩ pid
        = getParticleLocalNeighbourhood cells L pid := by
  refine ⟨?_, fun _ _ _ => rfl⟩
  unfold getParticleLocalNeighbourhood
  generalize cells (L.cell pid) = l
  have key : ∀ (acc : List (Nat × Nat)),
      l.foldl (fun calls id => calls ++ [(pid, id)]) acc = acc ++ l.map (fun id => (pid, id)) := by
    induction l with
    | nil => intro acc; simp
    | cons a l ih => intro acc; simp [ih]
  simpa using key []

/-- C10 as stated fails: with particles 0 and 1 both in cell (0,0,0) and the local object 7
bound to that cell, the callback of `getParticleLocalNeighbourhood` for particle 0 receives
the local id 7, not the entries 1 and 0 of the cell's occupancy list. -/
theorem getParticleLocalNeighbourhood_counterexample :
    getParticleLocalNeighbourhood (fun _ => [7]) (twoParticles 21 ⟨0, 0, 0⟩ ⟨0, 0, 0⟩) 0
      = [(0, 7)]
    ∧ occupancy (twoParticles 21 ⟨0, 0, 0⟩ ⟨0, 0, 0⟩) 2
        ((twoParticles 21 ⟨0, 0, 0⟩ ⟨0, 0, 0⟩).cell 0) = some [1, 0] := by
  decide

/-! ## `getCellID` -/

theorem toSizeT_natCast_le (W r : Nat) : toSizeT W (r : Int) ≤ r := by
  unfold toSizeT
  have h : ((r : Int) % 2 ^ W) = ((r % 2 ^ W : Nat) : Int) := by
    push_cast
    rfl
  rw [h, Int.toNat_ofNat]
  exact Nat.mod_le _ _

theorem getCellIDAxis_lt (W S : Nat) (q : Int) {n : Nat} (h0 : 0 < n) (hn : n < 2 ^ 31) :
    getCellIDAxis W S q n < n := by
  unfold getCellIDAxis
  dsimp only
  have hr : toSizeT W (toInt32 q) % n < n := Nat.mod_lt _ h0
  generalize toSizeT W (toInt32 q) % n = r at hr
  have h1 : toInt32 (r : Int) = (r : Int) := toInt32_of_small (by omega) (by omega)
  rw [h1, if_neg (by omega)]
  unfold dOfNat
  calc toSizeT W (r : Int) % 2 ^ S ≤ toSizeT W (r : Int) := Nat.mod_le _ _
    _ ≤ r := toSizeT_natCast_le W r
    _ < n := hr

/-- C6: for every position and every grid with at least three cells per axis (a cell count is
converted from an `int`, so it is below `2 ^ 31`), each coordinate of the cell returned by
`getCellID` is below the cell count of its axis, whatever the floored quotient. -/
theorem getCellID_inGrid (W S : Nat) (sim : SimData) (g : Grid) (geo : Geometry)
    (pos : CVector ℚ)
    (hx : 3 ≤ g.cellCount.x ∧ g.cellCount.x < 2 ^ 31)
    (hy : 3 ≤ g.cellCount.y ∧ g.cellCount.y < 2 ^ 31)
    (hz : 3 ≤ g.cellCount.z ∧ g.cellCount.z < 2 ^ 31) :
    InGrid g.cellCount (getCellID W S sim g geo pos)
    ∧ ∀ i, (getCellID W S sim g geo pos).get i < g.cellCount.get i := by
  have key : InGrid g.cellCount (getCellID W S sim g geo pos) := by
    unfold getCellID InGrid
    exact ⟨@getCellIDAxis_lt W S _ g.cellCount.x (by omega) hx.2,
      @getCellIDAxis_lt W S _ g.cellCount.y (by omega) hy.2,
      @getCellIDAxis_lt W S _ g.cellCount.z (by omega) hz.2⟩
  exact ⟨key, fun i => inGrid_get key i⟩

/-- A 4x4x4 grid of unit cells in a box of side 4: the position (-5/2, 0, 0), left of the box,
has a negative floored quotient on the x axis and still maps into the grid. -/
theorem getCellID_inGrid_witness :
    InGrid (mkGrid 21 ⟨4, 4, 4⟩ 1).cellCount
        (getCellID 64 21 ⟨1, ⟨4, 4, 4⟩, fun _ => ⟨0, 0, 0⟩, id⟩ (mkGrid 21 ⟨4, 4, 4⟩ 1)
          ⟨⟨1, 1, 1⟩, ⟨1, 1, 1⟩, ⟨0, 0, 0⟩⟩ ⟨-5 / 2, 0, 0⟩)
    ∧ ∀ i, (getCellID 64 21 ⟨1, ⟨4, 4, 4⟩, fun _ => ⟨0, 0, 0⟩, id⟩ (mkGrid 21 ⟨4, 4, 4⟩ 1)
          ⟨⟨1, 1, 1⟩, ⟨1, 1, 1⟩, ⟨0, 0, 0⟩⟩ ⟨-5 / 2, 0, 0⟩).get i
        < (mkGrid 21 ⟨4, 4, 4⟩ 1).cellCount.get i :=
  getCellID_inGrid 64 21 ⟨1, ⟨4, 4, 4⟩, fun _ => ⟨0, 0, 0⟩, id⟩ (mkGrid 21 ⟨4, 4, 4⟩ 1)
    ⟨⟨1, 1, 1⟩, ⟨1, 1, 1⟩, ⟨0, 0, 0⟩⟩ ⟨-5 / 2, 0, 0⟩ (by decide) (by decide) (by decide)

/-- C5 (code defect): with three unit cells on each axis of a box of side 3 and a boundary
condition that leaves positions unchanged, the position x = -2 has the floored quotient -1 on
the x axis, and `getCellID` stores the coordinate 0 there (for a `size_t` of 64 bits as of 32
bits), while the mathematical remainder of -1 modulo 3 is 2. The `int` is converted to `size_t`
before `%`, so for a negative quotient `q` the remainder taken is that of `q + 2 ^ W`, and the
correction `if (coord < 0)` never applies. -/
theorem getCellID_negative_quotient :
    ⌊((-2 : ℚ) + (1 / 2) * 3 - 0) / 1⌋ = -1
    ∧ getCellID 64 21 ⟨1, ⟨3, 3, 3⟩, fun _ => ⟨-2, 0, 0⟩, id⟩ (mkGrid 21 ⟨3, 3, 3⟩ 1)
        (geometryOf 0 ⟨3, 3, 3⟩ 1 ⟨3, 3, 3⟩) ⟨-2, 0, 0⟩ = ⟨0, 1, 1⟩
    ∧ (-1 : Int) % 3 = 2
    ∧ getCellIDAxis 64 21 (-1) 3 = 0 ∧ getCellIDAxis 32 10 (-1) 3 = 0
    ∧ (∀ q : Int, -2 ^ 31 ≤ q → q < 0 → ∀ n : Nat, 0 < n → n < 2 ^ 31 →
        (getCellIDAxis 64 21 q n : Int) = ((q + 2 ^ 64) % (n : Int)) % 2 ^ 21) := by
  refine ⟨by norm_num, ?_, by decide, by decide, by decide, ?_⟩
  · simp only [getCellID, geometryOf, mkGrid, CVector.get, id]
    norm_num
    decide
  intro q hq1 hq2 n h0 hn
  unfold getCellIDAxis
  have hq : toInt32 q = q := by unfold toInt32; omega
  have hs : toSizeT 64 q = (q + 2 ^ 64).toNat := by
    unfold toSizeT
    congr 1
    omega
  have hr : (q + 2 ^ 64).toNat % n < n := Nat.mod_lt _ h0
  dsimp only
  rw [hq, hs]
  generalize hrdef : (q + 2 ^ 64).toNat % n = r at hr
  have h1 : toInt32 (r : Int) = (r : Int) := toInt32_of_small (by omega) (by omega)
  have h2 : toSizeT 64 (r : Int) = r := by
    unfold toSizeT
    have : ((r : Int) % 2 ^ 64) = (r : Int) := by omega
    rw [this, Int.toNat_ofNat]
  rw [h1, if_neg (by omega), h2]
  unfold dOfNat
  have hcast : (r : Int) = (q + 2 ^ 64) % (n : Int) := by
    rw [← hrdef, Int.natCast_mod, Int.toNat_of_nonneg (by omega)]
  push_cast
  rw [hcast]
  norm_num

/-! ## Loading the configuration -/

/-- C7 (amended): loading a configuration whose Oversize factor is less than 1.0 always fails
with the loader's error, whatever the other attributes and the previous members (so the
scenario value 0.5 is rejected); a load that succeeds leaves the stored oversize factor at
least 1.0, equal to the supplied value when the attribute was supplied. The value 1.0 itself
is accepted. -/
theorem loadXML_oversize (cfg : Config) (XML : XMLNode) :
    (∀ v : ℚ, XML.Oversize = some (some v) → v < 1 → loadXML cfg XML = .error loadError)
    ∧ (∀ cfg2 : Config, loadXML cfg XML = .ok cfg2 →
        1 ≤ cfg2.oversizeCells
        ∧ ∀ v : ℚ, XML.Oversize = some (some v) → cfg2.oversizeCells = v) := by
  obtain ⟨ol, os, nm⟩ := XML
  constructor
  · intro v hv hlt
    simp only at hv
    subst hv
    unfold loadXML
    rcases ol with _ | _ | o <;> simp [hlt]
  · intro cfg2 h
    unfold loadXML at h
    rcases ol with _ | _ | o <;> rcases os with _ | _ | v <;> rcases nm with _ | nm <;>
      simp only [reduceCtorEq] at h <;>
      split_ifs at h with hlt <;>
      simp only [reduceCtorEq, Except.ok.injEq] at h <;>
      subst h <;>
      refine ⟨not_lt.1 hlt, ?_⟩ <;>
      intro v hv <;>
      simp only [reduceCtorEq, Option.some.injEq] at hv <;>
      exact hv

/-- The scenario of the spec: the oversize factor 0.5 is rejected. -/
theorem loadXML_oversize_witness :
    loadXML (defaultConfig "Cells") ⟨none, some (some (1 / 2)), some "Cells"⟩
      = .error loadError :=
  (loadXML_oversize (defaultConfig "Cells") ⟨none, some (some (1 / 2)), some "Cells"⟩).1
    (1 / 2) rfl (by norm_num)

/-- C7 as stated fails: an Oversize attribute of exactly 1.0 is not rejected; the load succeeds
and the stored factor is 1.0, which is not greater than 1.0. -/
theorem loadXML_oversize_counterexample :
    loadXML (defaultConfig "Cells") ⟨none, some (some 1), some "Cells"⟩
      = .ok { overlink := 1, oversizeCells := 1, globName := "Cells" } := by
  simp [loadXML, defaultConfig]

/-! ## The size of the cell arrays -/

/-- The flat index is monotone in every coordinate, strictly as soon as one coordinate
grows. -/
theorem getMortonNum_mono (S : Nat) :
    ∀ x y z x2 y2 z2 : Nat, x ≤ x2 → y ≤ y2 → z ≤ z2 →
      x2 < 2 ^ S → y2 < 2 ^ S → z2 < 2 ^ S →
      getMortonNum S ⟨x, y, z⟩ ≤ getMortonNum S ⟨x2, y2, z2⟩
      ∧ ((x < x2 ∨ y < y2 ∨ z < z2) →
          getMortonNum S ⟨x, y, z⟩ < getMortonNum S ⟨x2, y2, z2⟩) := by
  induction S with
  | zero =>
    intro x y z x2 y2 z2 _ _ _ hx hy hz
    refine ⟨by simp [getMortonNum, dilate], ?_⟩
    intro h
    simp only [pow_zero, Nat.lt_one_iff] at hx hy hz
    omega
  | succ S ih =>
    intro x y z x2 y2 z2 hx hy hz bx by2 bz
    rw [getMortonNum_succ, getMortonNum_succ]
    have hp : 2 ^ (S + 1) = 2 * 2 ^ S := pow_succ' 2 S
    obtain ⟨hle, hlt⟩ := ih (x / 2) (y / 2) (z / 2) (x2 / 2) (y2 / 2) (z2 / 2)
      (Nat.div_le_div_right hx) (Nat.div_le_div_right hy) (Nat.div_le_div_right hz)
      (by omega) (by omega) (by omega)
    by_cases hhalf : x / 2 = x2 / 2 ∧ y / 2 = y2 / 2 ∧ z / 2 = z2 / 2
    · obtain ⟨e1, e2, e3⟩ := hhalf
      rw [e1, e2, e3]
      refine ⟨by omega, fun h => by omega⟩
    · have hstrict := hlt (by omega)
      refine ⟨by omega, fun _ => by omega⟩

theorem mortonOfCoords_of_lt {S i j k : Nat} (hi : i < 2 ^ S) (hj : j < 2 ^ S)
    (hk : k < 2 ^ S) : mortonOfCoords S i j k = ⟨i, j, k⟩ := by
  unfold mortonOfCoords
  rw [dOfNat_of_lt hi, dOfNat_of_lt hj, dOfNat_of_lt hk]

theorem index_lt_sizeReq {S : Nat} {n : CVector Nat} (hn : CountsOK S n) {i j k : Nat}
    (hi : i < n.x) (hj : j < n.y) (hk : k < n.z) :
    getMortonNum S (mortonOfCoords S i j k)
      < getMortonNum S (mortonOfCoords S n.x n.y n.z) := by
  obtain ⟨⟨_, hx⟩, ⟨_, hy⟩, ⟨_, hz⟩⟩ := hn
  rw [mortonOfCoords_of_lt (by omega) (by omega) (by omega), mortonOfCoords_of_lt hx hy hz]
  exact (getMortonNum_mono S i j k n.x n.y n.z (by omega) (by omega) (by omega) hx hy hz).2
    (Or.inl hi)

theorem mem_cellCoords {n : CVector Nat} {c : Nat × Nat × Nat} :
    c ∈ cellCoords n ↔ c.1 < n.x ∧ c.2.1 < n.y ∧ c.2.2 < n.z := by
  obtain ⟨i, j, k⟩ := c
  unfold cellCoords
  simp only [List.mem_flatMap, List.mem_map, List.mem_range, Prod.mk.injEq]
  constructor
  · rintro ⟨i2, hi, j2, hj, k2, hk, rfl, rfl, rfl⟩
    exact ⟨hi, hj, hk⟩
  · rintro ⟨hi, hj, hk⟩
    exact ⟨i, hi, j, hj, k, hk, rfl, rfl, rfl⟩

theorem clearCells_ok (S sizeReq : Nat) (cs : List (Nat × Nat × Nat))
    (h : ∀ c ∈ cs, getMortonNum S (mortonOfCoords S c.1 c.2.1 c.2.2) ≤ sizeReq) :
    ∀ list : Nat → Int, ∃ list2, clearCells S sizeReq cs list = .ok list2 := by
  induction cs with
  | nil => intro list; exact ⟨list, rfl⟩
  | cons c cs ih =>
    intro list
    have hc := h c (List.mem_cons_self _ _)
    have hstep : clearCell S sizeReq list c
        = .ok (Function.update list (getMortonNum S (mortonOfCoords S c.1 c.2.1 c.2.2)) (-1)) := by
      unfold clearCell
      simp only
      rw [if_neg (by omega)]
    obtain ⟨l2, hl2⟩ := ih (fun c2 hc2 => h c2 (List.mem_cons_of_mem _ hc2))
      (Function.update list (getMortonNum S (mortonOfCoords S c.1 c.2.1 c.2.2)) (-1))
    refine ⟨l2, ?_⟩
    unfold clearCells
    rw [hstep]
    exact hl2

/-! ## Building the grid -/

theorem cellCountOf_cast {W S : Nat} {eps size maxdiam : ℚ} (hS : 3 * S ≤ W) (hW : W ≤ 64)
    (hq : 0 ≤ size / (maxdiam * (1 + 10 * eps)))
    (henc : ⌊size / (maxdiam * (1 + 10 * eps))⌋ < 2 ^ S) :
    ((cellCountOf W eps size maxdiam : Nat) : Int) = ⌊size / (maxdiam * (1 + 10 * eps))⌋ := by
  unfold cellCountOf truncToInt
  rw [if_pos hq]
  have h0 : 0 ≤ ⌊size / (maxdiam * (1 + 10 * eps))⌋ := Int.floor_nonneg.2 hq
  generalize ⌊size / (maxdiam * (1 + 10 * eps))⌋ = f at henc h0
  have hp1 : (2 : Int) ^ S ≤ 2 ^ 21 := by
    exact_mod_cast two_pow_le_of_digits (show 3 * S ≤ 64 by omega)
  have hp2 : (2 : Int) ^ S ≤ 2 ^ W := by
    exact_mod_cast Nat.pow_le_pow_right (by decide : 0 < 2) (show S ≤ W by omega)
  rw [toInt32_of_small h0 (by omega)]
  unfold toSizeT
  rw [Int.emod_eq_of_lt h0 (by omega), Int.toNat_of_nonneg h0]

/-- The per-axis loop of `addCells`, unrolled over the three axes. -/
theorem addCellsAxes_three (W S : Nat) (eps lambda : ℚ) (size : CVector ℚ) (maxdiam : ℚ)
    (st : CVector Nat × MortonNumber × Geometry × Nat) :
    addCellsAxes W S eps lambda size maxdiam 3 0 st
      = if (cellCountsOf W eps size maxdiam).x < 3 then .error (.needThree 0)
        else if (cellCountsOf W eps size maxdiam).y < 3 then .error (.needThree 1)
        else if (cellCountsOf W eps size maxdiam).z < 3 then .error (.needThree 2)
        else .ok
          (cellCountsOf W eps size maxdiam,
           (mkGrid S (cellCountsOf W eps size maxdiam) 0).dilatedCellMax,
           geometryOf lambda size maxdiam (cellCountsOf W eps size maxdiam),
           st.2.2.2 * (cellCountsOf W eps size maxdiam).x % 2 ^ W
             * (cellCountsOf W eps size maxdiam).y % 2 ^ W
             * (cellCountsOf W eps size maxdiam).z % 2 ^ W) := by
  simp only [addCellsAxes]
  rfl

theorem cellCountsOf_cast {W S : Nat} {eps : ℚ} {size : CVector ℚ} {maxdiam : ℚ}
    (hS : 3 * S ≤ W) (hW : W ≤ 64) (heps : 0 ≤ eps) (hmax : 0 < maxdiam)
    (hsize : 0 ≤ size.x ∧ 0 ≤ size.y ∧ 0 ≤ size.z)
    (henc : computedCount eps size.x maxdiam < 2 ^ S ∧ computedCount eps size.y maxdiam < 2 ^ S
      ∧ computedCount eps size.z maxdiam < 2 ^ S) :
    ((cellCountsOf W eps size maxdiam).x : Int) = computedCount eps size.x maxdiam
    ∧ ((cellCountsOf W eps size maxdiam).y : Int) = computedCount eps size.y maxdiam
    ∧ ((cellCountsOf W eps size maxdiam).z : Int) = computedCount eps size.z maxdiam := by
  have hd : 0 < maxdiam * (1 + 10 * eps) := mul_pos hmax (by linarith)
  exact ⟨cellCountOf_cast hS hW (div_nonneg hsize.1 hd.le) henc.1,
    cellCountOf_cast hS hW (div_nonneg hsize.2.1 hd.le) henc.2.1,
    cellCountOf_cast hS hW (div_nonneg hsize.2.2 hd.le) henc.2.2⟩

/-- The outcome of `addCells` in terms of the computed cell counts `n`, once they are known to
fit the dilated width. -/
theorem addCells_outcome (W S : Nat) (eps lambda : ℚ) (ov : Nat) (sim : SimData)
    (old : CellState) (maxdiam : ℚ)
    (hfit : (cellCountsOf W eps sim.primaryCellSize maxdiam).x < 2 ^ S
      ∧ (cellCountsOf W eps sim.primaryCellSize maxdiam).y < 2 ^ S
      ∧ (cellCountsOf W eps sim.primaryCellSize maxdiam).z < 2 ^ S) :
    ((cellCountsOf W eps sim.primaryCellSize maxdiam).x < 3 →
      addCells W S eps lambda ov sim old maxdiam = .error (.needThree 0))
    ∧ (¬ (cellCountsOf W eps sim.primaryCellSize maxdiam).x < 3 →
        (cellCountsOf W eps sim.primaryCellSize maxdiam).y < 3 →
      addCells W S eps lambda ov sim old maxdiam = .error (.needThree 1))
    ∧ (¬ (cellCountsOf W eps sim.primaryCellSize maxdiam).x < 3 →
        ¬ (cellCountsOf W eps sim.primaryCellSize maxdiam).y < 3 →
        (cellCountsOf W eps sim.primaryCellSize maxdiam).z < 3 →
      addCells W S eps lambda ov sim old maxdiam = .error (.needThree 2))
    ∧ (¬ (cellCountsOf W eps sim.primaryCellSize maxdiam).x < 3 →
        ¬ (cellCountsOf W eps sim.primaryCellSize maxdiam).y < 3 →
        ¬ (cellCountsOf W eps sim.primaryCellSize maxdiam).z < 3 →
      ∃ st, addCells W S eps lambda ov sim old maxdiam = .ok st
        ∧ st.grid = mkGrid S (cellCountsOf W eps sim.primaryCellSize maxdiam) ov
        ∧ st.geo = geometryOf lambda sim.primaryCellSize maxdiam
            (cellCountsOf W eps sim.primaryCellSize maxdiam)
        ∧ st.listSize = getMortonNum S (mortonOfCoords S
            (cellCountsOf W eps sim.primaryCellSize maxdiam).x
            (cellCountsOf W eps sim.primaryCellSize maxdiam).y
            (cellCountsOf W eps sim.primaryCellSize maxdiam).z)) := by
  generalize hn : cellCountsOf W eps sim.primaryCellSize maxdiam = n at hfit
  refine ⟨fun h0 => ?_, fun h0 h1 => ?_, fun h0 h1 h2 => ?_, fun h0 h1 h2 => ?_⟩
  · unfold addCells
    rw [addCellsAxes_three, hn, if_pos h0]
  · unfold addCells
    rw [addCellsAxes_three, hn, if_neg h0, if_pos h1]
  · unfold addCells
    rw [addCellsAxes_three, hn, if_neg h0, if_neg h1, if_pos h2]
  · have hc : CountsOK S n := ⟨⟨by omega, hfit.1⟩, ⟨by omega, hfit.2.1⟩, ⟨by omega, hfit.2.2⟩⟩
    obtain ⟨list1, hl⟩ := (clearCells_ok S (getMortonNum S (mortonOfCoords S n.x n.y n.z))
      (cellCoords n) (fun c hc2 => by
        obtain ⟨hi, hj, hk⟩ := mem_cellCoords.1 hc2
        exact Nat.le_of_lt (index_lt_sizeReq hc hi hj hk)))
      (fun i => if i < old.listSize then old.ledger.list i else 0)
    unfold addCells
    rw [addCellsAxes_three, hn, if_neg h0, if_neg h1, if_neg h2]
    simp only [hl]
    exact ⟨_, rfl, rfl, rfl, rfl⟩

/-- C9: for cell counts that are at least 3 and encodable on every axis, the flat index of
every cell coordinate of the grid is strictly below the array size `sizeReq`, the flat index of
the cell counts; hence the loops of `addCells` that write `list[id] = -1` never take the
index-exceeds-bound error branch, whatever the array held before, and a call of `addCells`
that computes these cell counts succeeds. -/
theorem addCells_index_below_size (S : Nat) (n : CVector Nat) (hn : CountsOK S n) :
    (∀ i j k, i < n.x → j < n.y → k < n.z →
        getMortonNum S (mortonOfCoords S i j k)
          < getMortonNum S (mortonOfCoords S n.x n.y n.z))
    ∧ (∀ list : Nat → Int, ∃ list2,
        clearCells S (getMortonNum S (mortonOfCoords S n.x n.y n.z)) (cellCoords n) list
          = .ok list2)
    ∧ (∀ (W : Nat) (eps lambda : ℚ) (ov : Nat) (sim : SimData) (old : CellState) (maxdiam : ℚ),
        cellCountsOf W eps sim.primaryCellSize maxdiam = n →
        ∃ st, addCells W S eps lambda ov sim old maxdiam = .ok st
          ∧ st.listSize = getMortonNum S (mortonOfCoords S n.x n.y n.z)) := by
  refine ⟨fun i j k hi hj hk => index_lt_sizeReq hn hi hj hk, ?_, ?_⟩
  · apply clearCells_ok
    intro c hc
    obtain ⟨hi, hj, hk⟩ := mem_cellCoords.1 hc
    exact Nat.le_of_lt (index_lt_sizeReq hn hi hj hk)
  · intro W eps lambda ov sim old maxdiam hcount
    obtain ⟨⟨h3x, hx⟩, ⟨h3y, hy⟩, ⟨h3z, hz⟩⟩ := hn
    obtain ⟨_, _, _, o3⟩ := addCells_outcome W S eps lambda ov sim old maxdiam
      (by rw [hcount]; exact ⟨hx, hy, hz⟩)
    rw [hcount] at o3
    obtain ⟨st, hst, _, _, hsize⟩ := o3 (by omega) (by omega) (by omega)
    exact ⟨st, hst, hsize⟩

/-- The 4x4x4 grid: every cell index is below the array size 448, the clearing loops end
without error, and `addCells` succeeds whenever it computes these counts. -/
theorem addCells_index_below_size_witness :
    (∀ i j k, i < 4 → j < 4 → k < 4 →
        getMortonNum 21 (mortonOfCoords 21 i j k)
          < getMortonNum 21 (mortonOfCoords 21 4 4 4))
    ∧ (∀ list : Nat → Int, ∃ list2,
        clearCells 21 (getMortonNum 21 (mortonOfCoords 21 4 4 4))
          (cellCoords ⟨4, 4, 4⟩) list = .ok list2)
    ∧ (∀ (W : Nat) (eps lambda : ℚ) (ov : Nat) (sim : SimData) (old : CellState) (maxdiam : ℚ),
        cellCountsOf W eps sim.primaryCellSize maxdiam = ⟨4, 4, 4⟩ →
        ∃ st, addCells W 21 eps lambda ov sim old maxdiam = .ok st
          ∧ st.listSize = getMortonNum 21 (mortonOfCoords 21 4 4 4)) :=
  addCells_index_below_size 21 ⟨4, 4, 4⟩ (by decide)

/-- C8: for a positive cell width, non-negative domain sizes and computed cell counts that fit
the dilated width, `addCells` fails with the "need 3+" error if and only if the computed cell
count `floor(domainSize / cellWidth)` of some axis is less than 3; and whenever `addCells`
succeeds, every axis has a cell count of at least 3, equal to the computed count, and
`dilatedCellMax` equal to the cell count minus 1. -/
theorem addCells_need_three (W S : Nat) (eps lambda : ℚ) (ov : Nat) (sim : SimData)
    (old : CellState) (maxdiam : ℚ)
    (hS : 3 * S ≤ W) (hW : W ≤ 64) (heps : 0 ≤ eps) (hmax : 0 < maxdiam)
    (hsize : 0 ≤ sim.primaryCellSize.x ∧ 0 ≤ sim.primaryCellSize.y ∧ 0 ≤ sim.primaryCellSize.z)
    (henc : computedCount eps sim.primaryCellSize.x maxdiam < 2 ^ S
      ∧ computedCount eps sim.primaryCellSize.y maxdiam < 2 ^ S
      ∧ computedCount eps sim.primaryCellSize.z maxdiam < 2 ^ S) :
    ((∃ i, addCells W S eps lambda ov sim old maxdiam = .error (.needThree i))
      ↔ (computedCount eps sim.primaryCellSize.x maxdiam < 3
          ∨ computedCount eps sim.primaryCellSize.y maxdiam < 3
          ∨ computedCount eps sim.primaryCellSize.z maxdiam < 3))
    ∧ (∀ st, addCells W S eps lambda ov sim old maxdiam = .ok st →
        (3 ≤ st.grid.cellCount.x ∧ 3 ≤ st.grid.cellCount.y ∧ 3 ≤ st.grid.cellCount.z)
        ∧ st.grid.dilatedCellMax
            = ⟨st.grid.cellCount.x - 1, st.grid.cellCount.y - 1, st.grid.cellCount.z - 1⟩
        ∧ ((st.grid.cellCount.x : Int) = computedCount eps sim.primaryCellSize.x maxdiam
          ∧ (st.grid.cellCount.y : Int) = computedCount eps sim.primaryCellSize.y maxdiam
          ∧ (st.grid.cellCount.z : Int) = computedCount eps sim.primaryCellSize.z maxdiam)) := by
  obtain ⟨cx, cy, cz⟩ := cellCountsOf_cast (W := W) hS hW heps hmax hsize henc
  have hfit : (cellCountsOf W eps sim.primaryCellSize maxdiam).x < 2 ^ S
      ∧ (cellCountsOf W eps sim.primaryCellSize maxdiam).y < 2 ^ S
      ∧ (cellCountsOf W eps sim.primaryCellSize maxdiam).z < 2 ^ S := by
    refine ⟨?_, ?_, ?_⟩
    · have := henc.1; rw [← cx] at this; exact_mod_cast this
    · have := henc.2.1; rw [← cy] at this; exact_mod_cast this
    · have := henc.2.2; rw [← cz] at this; exact_mod_cast this
  obtain ⟨o0, o1, o2, o3⟩ := addCells_outcome W S eps lambda ov sim old maxdiam hfit
  rw [← cx, ← cy, ← cz]
  generalize cellCountsOf W eps sim.primaryCellSize maxdiam = n at *
  by_cases h0 : n.x < 3
  · refine ⟨⟨fun _ => Or.inl (by omega), fun _ => ⟨0, o0 h0⟩⟩, fun st hst => ?_⟩
    rw [o0 h0] at hst
    cases hst
  by_cases h1 : n.y < 3
  · refine ⟨⟨fun _ => Or.inr (Or.inl (by omega)), fun _ => ⟨1, o1 h0 h1⟩⟩, fun st hst => ?_⟩
    rw [o1 h0 h1] at hst
    cases hst
  by_cases h2 : n.z < 3
  · refine ⟨⟨fun _ => Or.inr (Or.inr (by omega)), fun _ => ⟨2, o2 h0 h1 h2⟩⟩,
      fun st hst => ?_⟩
    rw [o2 h0 h1 h2] at hst
    cases hst
  obtain ⟨st2, hst2, hg, _, _⟩ := o3 h0 h1 h2
  refine ⟨⟨fun ⟨i, hi⟩ => ?_, fun h => by omega⟩, fun st hst => ?_⟩
  · rw [hst2] at hi
    cases hi
  · rw [hst2] at hst
    cases hst
    rw [hg]
    unfold mkGrid
    simp only
    rw [dOfNat_of_lt (by omega), dOfNat_of_lt (by omega), dOfNat_of_lt (by omega)]
    refine ⟨⟨by omega, by omega, by omega⟩, ?_⟩
    exact ⟨rfl, trivial, trivial, trivial⟩

/-- The scenario of the spec: a box of size 5/2 x 4 x 4 with unit cell width yields 2 cells on
the x axis, and `addCells` fails with the "need 3+" error. -/
theorem addCells_need_three_witness :
    ∃ i, addCells 64 21 0 (9 / 10) 1 ⟨0, ⟨5 / 2, 4, 4⟩, fun _ => ⟨0, 0, 0⟩, id⟩ emptyState 1
      = .error (.needThree i) :=
  (addCells_need_three 64 21 0 (9 / 10) 1 ⟨0, ⟨5 / 2, 4, 4⟩, fun _ => ⟨0, 0, 0⟩, id⟩ emptyState 1
    (by decide) (by decide) (by norm_num) (by norm_num) (by norm_num)
    (by norm_num [computedCount])).1.2
    (Or.inl (by norm_num [computedCount]))

/-! ## Geometry bindings -/

/-- The loop over the local objects appends, in registration order, the ids of the locals
whose predicate holds. -/
theorem pushLocals_eq (origin size : CVector ℚ) (locals : List Local) :
    ∀ acc, pushLocals origin size locals acc
      = acc ++ (locals.filter (fun l => l.isInCell origin size)).map Local.ID := by
  induction locals with
  | nil => intro acc; simp [pushLocals]
  | cons l ls ih =>
    intro acc
    rw [pushLocals, ih]
    by_cases h : l.isInCell origin size = true
    · simp [h, List.filter_cons]
    · simp [h, List.filter_cons]

/-- An entry of the binding table after the loops over a list of cell coordinates: when every
coordinate of the list with the flat index `k` would store the value `v`, and either the loops
visit such a coordinate or the entry held `v` before, the entry holds `v`. -/
theorem bindCells_apply (S : Nat) (sim : SimData) (geo : Geometry) (locals : List Local)
    (k : Nat) (v : List Nat) (cs : List (Nat × Nat × Nat)) :
    ∀ cells : Nat → List Nat,
      (∀ c ∈ cs, getMortonNum S (mortonOfCoords S c.1 c.2.1 c.2.2) = k →
        pushLocals (boxOrigin (calcPosition sim geo (mortonOfCoords S c.1 c.2.1 c.2.2))
          geo.cellDimension) (boxSize geo.cellDimension) locals [] = v) →
      (cells k = v ∨ ∃ c ∈ cs, getMortonNum S (mortonOfCoords S c.1 c.2.1 c.2.2) = k) →
      cs.foldl (bindCell S sim geo locals) cells k = v := by
  induction cs with
  | nil =>
    intro cells _ h
    rcases h with h | ⟨c, hc, _⟩
    · exact h
    · simp at hc
  | cons c cs ih =>
    intro cells hv h
    rw [List.foldl_cons]
    refine ih _ (fun c2 hc2 => hv c2 (List.mem_cons_of_mem _ hc2)) ?_
    by_cases hk : getMortonNum S (mortonOfCoords S c.1 c.2.1 c.2.2) = k
    · left
      unfold bindCell
      rw [hk, Function.update_same]
      exact hv c (List.mem_cons_self _ _) hk
    · rcases h with h | ⟨c2, hc2, hk2⟩
      · left
        unfold bindCell
        rw [Function.update_noteq (Ne.symm hk)]
        exact h
      · rcases List.mem_cons.1 hc2 with rfl | hc2
        · exact absurd hk2 hk
        · exact Or.inr ⟨c2, hc2, hk2⟩

/-- The entry of a grid cell after `addLocalEvents`, for cell counts that fit a dilated
integer: the ids of the locals whose predicate holds on the cell's box, in registration
order. -/
theorem addLocalEvents_cell (S : Nat) (sim : SimData) (locals : List Local) (st : CellState)
    (hn : CountsOK S st.grid.cellCount) {m : MortonNumber} (hm : InGrid st.grid.cellCount m) :
    (addLocalEvents S sim locals st).cells (getMortonNum S m)
      = (locals.filter (fun l => l.isInCell (cellBox sim st.geo m).1
          (cellBox sim st.geo m).2)).map Local.ID := by
  unfold addLocalEvents
  dsimp only
  have hlt := inGrid_lt_pow hn hm
  refine bindCells_apply S sim st.geo locals _ _ _ _ ?_ ?_
  · intro c hc hk
    have hc2 := mem_cellCoords.1 hc
    have hcx : c.1 < 2 ^ S := lt_trans hc2.1 hn.1.2
    have hcy : c.2.1 < 2 ^ S := lt_trans hc2.2.1 hn.2.1.2
    have hcz : c.2.2 < 2 ^ S := lt_trans hc2.2.2 hn.2.2.2
    rw [mortonOfCoords_of_lt hcx hcy hcz] at hk ⊢
    have : (⟨c.1, c.2.1, c.2.2⟩ : MortonNumber) = m :=
      getMortonNum_injOn hn hc2 hm hk
    rw [this, pushLocals_eq]
    simp [cellBox]
  · right
    refine ⟨(m.x, m.y, m.z), mem_cellCoords.2 hm, ?_⟩
    rw [mortonOfCoords_of_lt hlt.1 hlt.2.1 hlt.2.2]

/-- Running `addLocalEvents` on its own result changes nothing. -/
theorem addLocalEvents_idem (S : Nat) (sim : SimData) (locals : List Local) (st : CellState) :
    addLocalEvents S sim locals (addLocalEvents S sim locals st)
      = addLocalEvents S sim locals st := by
  unfold addLocalEvents
  dsimp only
  congr 1
  funext k
  by_cases hk : ∃ c ∈ cellCoords st.grid.cellCount,
      getMortonNum S (mortonOfCoords S c.1 c.2.1 c.2.2) = k
  · obtain ⟨c0, hc0, hk0⟩ := hk
    have key : ∀ cs : List (Nat × Nat × Nat), ∀ T1 T2 : Nat → List Nat,
        (∃ c ∈ cs, getMortonNum S (mortonOfCoords S c.1 c.2.1 c.2.2) = k) →
        cs.foldl (bindCell S sim st.geo locals) T1 k
          = cs.foldl (bindCell S sim st.geo locals) T2 k := by
      intro cs
      induction cs with
      | nil => intro T1 T2 h; obtain ⟨c, hc, _⟩ := h; simp at hc
      | cons c cs ih =>
        intro T1 T2 h
        rw [List.foldl_cons, List.foldl_cons]
        by_cases hex : ∃ c2 ∈ cs, getMortonNum S (mortonOfCoords S c2.1 c2.2.1 c2.2.2) = k
        · exact ih _ _ hex
        · obtain ⟨c2, hc2, hk2⟩ := h
          rcases List.mem_cons.1 hc2 with rfl | hc2
          · have hno : ∀ T : Nat → List Nat,
                cs.foldl (bindCell S sim st.geo locals) T k = T k := fun T =>
              bindCells_apply S sim st.geo locals k (T k) cs T
                (fun c3 hc3 hk3 => absurd ⟨c3, hc3, hk3⟩ hex) (Or.inl rfl)
            rw [hno, hno]
            unfold bindCell
            rw [hk2, Function.update_same, Function.update_same]
          · exact absurd ⟨c2, hc2, hk2⟩ hex
    exact key _ _ _ ⟨c0, hc0, hk0⟩
  · exact bindCells_apply S sim st.geo locals k _ _ _
      (fun c hc hk2 => absurd ⟨c, hc, hk2⟩ hk) (Or.inl rfl)

/-- C14: after `addLocalEvents`, on a grid whose cell counts are at least 3 and fit a dilated
integer, the binding list of every in-range cell `m` is exactly the ids, in registration order,
of the local objects whose `isInCell` predicate holds on the box with origin
`cellPosition - 0.0001 * cellDimension` and size `1.0002 * cellDimension`, where
`cellPosition = m * cellLatticeWidth - 0.5 * primaryCellSize + cellOffset` on every axis; the
list has no duplicates when the locals have distinct ids; a second run of `addLocalEvents`
leaves the table unchanged; and every cylinder wall, whose `isInCell` is constantly true, is
bound to every in-range cell. -/
theorem addLocalEvents_bindings (S : Nat) (sim : SimData) (locals : List Local)
    (st : CellState) (hn : CountsOK S st.grid.cellCount) :
    (∀ m, InGrid st.grid.cellCount m →
      (addLocalEvents S sim locals st).cells (getMortonNum S m)
        = (locals.filter (fun l => l.isInCell
            ⟨(m.x : ℚ) * st.geo.cellLatticeWidth.x - (1 / 2) * sim.primaryCellSize.x
                + st.geo.cellOffset.x - (1 / 10000) * st.geo.cellDimension.x,
              (m.y : ℚ) * st.geo.cellLatticeWidth.y - (1 / 2) * sim.primaryCellSize.y
                + st.geo.cellOffset.y - (1 / 10000) * st.geo.cellDimension.y,
              (m.z : ℚ) * st.geo.cellLatticeWidth.z - (1 / 2) * sim.primaryCellSize.z
                + st.geo.cellOffset.z - (1 / 10000) * st.geo.cellDimension.z⟩
            ⟨(10002 / 10000) * st.geo.cellDimension.x, (10002 / 10000) * st.geo.cellDimension.y,
              (10002 / 10000) * st.geo.cellDimension.z⟩)).map Local.ID)
    ∧ ((locals.map Local.ID).Nodup → ∀ m, InGrid st.grid.cellCount m →
        ((addLocalEvents S sim locals st).cells (getMortonNum S m)).Nodup)
    ∧ addLocalEvents S sim locals (addLocalEvents S sim locals st)
        = addLocalEvents S sim locals st
    ∧ (∀ ID, CLCylinder.toLocal ID ∈ locals → ∀ m, InGrid st.grid.cellCount m →
        ID ∈ (addLocalEvents S sim locals st).cells (getMortonNum S m)) := by
  refine ⟨fun m hm => ?_, fun hnd m hm => ?_,
    addLocalEvents_idem S sim locals st, fun ID hID m hm => ?_⟩
  · rw [addLocalEvents_cell S sim locals st hn hm]
    rfl
  · rw [addLocalEvents_cell S sim locals st hn hm]
    exact (List.filter_sublist _).map Local.ID |>.nodup hnd
  · rw [addLocalEvents_cell S sim locals st hn hm]
    refine List.mem_map.2 ⟨CLCylinder.toLocal ID, List.mem_filter.2 ⟨hID, ?_⟩, rfl⟩
    rfl

/-- The box tested for a cell of the 3x3x3 sample grid of unit cells in the box of size 3:
its x extent is `[m - 1.5001, m - 0.4999]`, so the wall just left of `x = -1/2` overlaps the
cells with x coordinate 0 and 1 and the wall just right of `x = 1/2` the cells with x
coordinate 1 and 2. The cell (1,2,0) is bound to all four sample locals, the cell (0,2,0) to
the two cylinder walls and the wall 1, the cell (2,2,0) to the two cylinder walls and the
wall 3, in registration order and without duplicates, and a second run changes nothing. -/
theorem addLocalEvents_bindings_witness :
    CountsOK 21 sampleState.grid.cellCount
    ∧ (addLocalEvents 21 sampleSim sampleLocals sampleState).cells (getMortonNum 21 ⟨1, 2, 0⟩)
        = [0, 1, 2, 3]
    ∧ (addLocalEvents 21 sampleSim sampleLocals sampleState).cells (getMortonNum 21 ⟨0, 2, 0⟩)
        = [0, 1, 2]
    ∧ (addLocalEvents 21 sampleSim sampleLocals sampleState).cells (getMortonNum 21 ⟨2, 2, 0⟩)
        = [0, 2, 3]
    ∧ ((addLocalEvents 21 sampleSim sampleLocals sampleState).cells
        (getMortonNum 21 ⟨1, 2, 0⟩)).Nodup
    ∧ addLocalEvents 21 sampleSim sampleLocals
          (addLocalEvents 21 sampleSim sampleLocals sampleState)
        = addLocalEvents 21 sampleSim sampleLocals sampleState :=
  ⟨by decide,
    ((addLocalEvents_bindings 21 sampleSim sampleLocals sampleState (by decide)).1 ⟨1, 2, 0⟩
      (by decide)).trans (by
        norm_num [sampleLocals, sampleWall, sampleState, sampleSim, CLCylinder.toLocal,
          CLCylinder.isInCell, List.filter]),
    ((addLocalEvents_bindings 21 sampleSim sampleLocals sampleState (by decide)).1 ⟨0, 2, 0⟩
      (by decide)).trans (by
        norm_num [sampleLocals, sampleWall, sampleState, sampleSim, CLCylinder.toLocal,
          CLCylinder.isInCell, List.filter]),
    ((addLocalEvents_bindings 21 sampleSim sampleLocals sampleState (by decide)).1 ⟨2, 2, 0⟩
      (by decide)).trans (by
        norm_num [sampleLocals, sampleWall, sampleState, sampleSim, CLCylinder.toLocal,
          CLCylinder.isInCell, List.filter]),
    (addLocalEvents_bindings 21 sampleSim sampleLocals sampleState (by decide)).2.1
      (by decide) ⟨1, 2, 0⟩ (by decide),
    (addLocalEvents_bindings 21 sampleSim sampleLocals sampleState (by decide)).2.2.1⟩

/-! ## `reinitialise`: the widths of the built grid -/

/-- A positive number of cells that is at most `size / (w * k)` for a positive width `w` and a
factor `k ≥ 1` gives a lattice width `size / n` of at least `w`. -/
theorem lattice_width_ge {size w k : ℚ} {n : Nat} (hw : 0 < w) (hk : 1 ≤ k) (hn : 0 < n)
    (hle : (n : ℚ) ≤ size / (w * k)) : w ≤ size / (n : ℚ) := by
  have hnq : (0 : ℚ) < (n : ℚ) := by exact_mod_cast hn
  have hwk : 0 < w * k := by positivity
  rw [le_div_iff₀ hwk] at hle
  rw [le_div_iff₀ hnq]
  nlinarith [mul_nonneg (mul_nonneg hw.le hnq.le) (sub_nonneg.2 hk)]

/-- C11: over rational arithmetic, for a positive interaction range, a look-ahead radius and an
oversize factor of at least 1, a non-negative skin `lambda`, a non-negative `epsilon`,
non-negative domain sizes and computed cell counts that fit a dilated integer, whenever
`reinitialise` succeeds every axis of the built grid has a lattice width of at least the cell
width passed to `addCells` and an interaction width `cellDimension` of at least the interaction
range divided by the look-ahead radius. -/
theorem reinitialise_widths (W S : Nat) (eps lambda : ℚ) (cfg : Config) (sim : SimData)
    (locals : List Local) (old : CellState) (maxdiam : ℚ) (st : CellState)
    (hS : 3 * S ≤ W) (hW : W ≤ 64) (heps : 0 ≤ eps) (hmax : 0 < maxdiam)
    (hov : 1 ≤ cfg.overlink) (hos : 1 ≤ cfg.oversizeCells) (hl : 0 ≤ lambda)
    (hsize : 0 ≤ sim.primaryCellSize.x ∧ 0 ≤ sim.primaryCellSize.y ∧ 0 ≤ sim.primaryCellSize.z)
    (henc : ∀ i, i < 3 → computedCount eps (sim.primaryCellSize.get i)
        (cfg.oversizeCells * (maxdiam * (1 + 10 * eps)) / (cfg.overlink : ℚ)) < 2 ^ S)
    (h : reinitialise W S eps lambda cfg sim locals old maxdiam = .ok st) :
    ∀ i, i < 3 →
      cfg.oversizeCells * (maxdiam * (1 + 10 * eps)) / (cfg.overlink : ℚ)
          ≤ st.geo.cellLatticeWidth.get i
      ∧ maxdiam / (cfg.overlink : ℚ) ≤ st.geo.cellDimension.get i := by
  generalize hw : cfg.oversizeCells * (maxdiam * (1 + 10 * eps)) / (cfg.overlink : ℚ) = w
    at henc
  have hovq : (1 : ℚ) ≤ (cfg.overlink : ℚ) := by exact_mod_cast hov
  have hovpos : (0 : ℚ) < (cfg.overlink : ℚ) := by linarith
  have hk : (1 : ℚ) ≤ 1 + 10 * eps := by linarith
  have hw_ge : maxdiam / (cfg.overlink : ℚ) ≤ w := by
    rw [← hw]
    apply div_le_div_of_nonneg_right _ hovpos.le
    nlinarith [mul_nonneg hmax.le (sub_nonneg.2 hk),
      mul_nonneg (sub_nonneg.2 hos) (mul_nonneg hmax.le (le_trans zero_le_one hk))]
  have hwpos : 0 < w := lt_of_lt_of_le (div_pos hmax hovpos) hw_ge
  have henc3 : computedCount eps sim.primaryCellSize.x w < 2 ^ S
      ∧ computedCount eps sim.primaryCellSize.y w < 2 ^ S
      ∧ computedCount eps sim.primaryCellSize.z w < 2 ^ S :=
    ⟨henc 0 (by decide), henc 1 (by decide), henc 2 (by decide)⟩
  obtain ⟨hcx, hcy, hcz⟩ := cellCountsOf_cast hS hW heps hwpos hsize henc3
  have hfit : (cellCountsOf W eps sim.primaryCellSize w).x < 2 ^ S
      ∧ (cellCountsOf W eps sim.primaryCellSize w).y < 2 ^ S
      ∧ (cellCountsOf W eps sim.primaryCellSize w).z < 2 ^ S := by
    refine ⟨?_, ?_, ?_⟩
    · have := henc3.1; rw [← hcx] at this; exact_mod_cast this
    · have := henc3.2.1; rw [← hcy] at this; exact_mod_cast this
    · have := henc3.2.2; rw [← hcz] at this; exact_mod_cast this
  obtain ⟨e0, e1, e2, hok⟩ :=
    addCells_outcome W S eps lambda cfg.overlink sim old w hfit
  unfold reinitialise at h
  rw [hw] at h
  by_cases h0 : (cellCountsOf W eps sim.primaryCellSize w).x < 3
  · rw [e0 h0] at h; simp at h
  by_cases h1 : (cellCountsOf W eps sim.primaryCellSize w).y < 3
  · rw [e1 h0 h1] at h; simp at h
  by_cases h2 : (cellCountsOf W eps sim.primaryCellSize w).z < 3
  · rw [e2 h0 h1 h2] at h; simp at h
  obtain ⟨st0, hst0, _, hgeo, _⟩ := hok h0 h1 h2
  rw [hst0] at h
  simp only [Except.ok.injEq] at h
  have hgeo2 : st.geo = geometryOf lambda sim.primaryCellSize w
      (cellCountsOf W eps sim.primaryCellSize w) := by
    rw [← h, ← hgeo]; rfl
  have hfloor : ∀ (sz : ℚ) (n : Nat), (n : Int) = computedCount eps sz w → ¬ n < 3 →
      w ≤ sz / (n : ℚ) ∧ maxdiam / (cfg.overlink : ℚ) ≤ sz / (n : ℚ) + (sz / (n : ℚ) - w) * lambda := by
    intro sz n hn hn3
    have hle : (n : ℚ) ≤ sz / (w * (1 + 10 * eps)) := by
      have h1 : ((n : Int) : ℚ) ≤ sz / (w * (1 + 10 * eps)) := by
        rw [hn]; exact Int.floor_le _
      exact_mod_cast h1
    have hlw := lattice_width_ge hwpos hk (by omega : 0 < n) hle
    refine ⟨hlw, ?_⟩
    nlinarith [mul_nonneg (sub_nonneg.2 hlw) hl]
  intro i hi
  rw [hgeo2]
  interval_cases i
  · exact hfloor _ _ hcx h0
  · exact hfloor _ _ hcy h1
  · exact hfloor _ _ hcz h2

/-- When `addCells` succeeds on the cell width computed by `reinitialise`, so does
`reinitialise`, with the bindings rebuilt on the state `addCells` returns. -/
theorem reinitialise_of_addCells {W S : Nat} {eps lambda : ℚ} {cfg : Config} {sim : SimData}
    {locals : List Local} {old : CellState} {maxdiam w : ℚ} {st0 : CellState}
    (hw : cfg.oversizeCells * (maxdiam * (1 + 10 * eps)) / (cfg.overlink : ℚ) = w)
    (h : addCells W S eps lambda cfg.overlink sim old w = .ok st0) :
    reinitialise W S eps lambda cfg sim locals old maxdiam
      = .ok (addLocalEvents S sim locals st0) := by
  unfold reinitialise
  rw [hw, h]

/-- The cell width `reinitialise` computes for the sample configuration and a unit
interaction range. -/
theorem sampleConfig_width :
    sampleConfig.oversizeCells * ((1 : ℚ) * (1 + 10 * 0)) / (sampleConfig.overlink : ℚ)
      = 11 / 20 := by
  norm_num [sampleConfig]

/-- A box of size 10 holds 18 cells of width 11/20 on an axis. -/
theorem sampleBox_count : computedCount 0 10 (11 / 20) = 18 := by
  norm_num [computedCount]

/-- The cell counts `addCells` computes for the sample box and the cell width 11/20. -/
theorem sampleBox_cellCounts :
    (cellCountsOf 64 0 sampleBox.primaryCellSize (11 / 20)).x = 18
    ∧ (cellCountsOf 64 0 sampleBox.primaryCellSize (11 / 20)).y = 18
    ∧ (cellCountsOf 64 0 sampleBox.primaryCellSize (11 / 20)).z = 18 := by
  obtain ⟨hcx, hcy, hcz⟩ := @cellCountsOf_cast 64 21 0 sampleBox.primaryCellSize (11 / 20)
    (by decide) (by decide)
    (by norm_num) (by norm_num) (by norm_num [sampleBox])
    (by simp only [sampleBox, sampleBox_count]; norm_num)
  simp only [sampleBox, sampleBox_count] at hcx hcy hcz
  exact ⟨by exact_mod_cast hcx, by exact_mod_cast hcy, by exact_mod_cast hcz⟩

/-- For the sample box and the cell width 11/20, `addCells` succeeds and builds 18 cells on
every axis. -/
theorem addCells_sample_ok :
    ∃ st, addCells 64 21 0 (9 / 10) sampleConfig.overlink sampleBox emptyState (11 / 20) = .ok st
      ∧ st.grid.cellCount.x = 18 ∧ st.grid.cellCount.y = 18 ∧ st.grid.cellCount.z = 18 := by
  obtain ⟨hx, hy, hz⟩ := sampleBox_cellCounts
  obtain ⟨_, _, _, hok⟩ := addCells_outcome 64 21 0 (9 / 10) sampleConfig.overlink sampleBox
    emptyState (11 / 20) (by rw [hx, hy, hz]; norm_num)
  obtain ⟨st0, hst0, hg, _⟩ :=
    hok (by rw [hx]; decide) (by rw [hy]; decide) (by rw [hz]; decide)
  refine ⟨st0, hst0, ?_, ?_, ?_⟩
  · rw [hg]; exact hx
  · rw [hg]; exact hy
  · rw [hg]; exact hz

/-- With the sample configuration, a unit interaction range and a box of size 10 the cell
width is 11/20 and `reinitialise` succeeds. -/
theorem reinitialise_sample_ok :
    ∃ st, reinitialise 64 21 0 (9 / 10) sampleConfig sampleBox [] emptyState 1 = .ok st := by
  obtain ⟨st0, hst0, _⟩ := addCells_sample_ok
  exact ⟨_, reinitialise_of_addCells sampleConfig_width hst0⟩

/-- The sample configuration (look-ahead radius 2, oversize 1.1) with a unit interaction range
in a box of size 10: `reinitialise` succeeds, every lattice width is at least the cell width
passed to `addCells` and every interaction width is at least 1/2. -/
theorem reinitialise_widths_witness :
    ∃ st, reinitialise 64 21 0 (9 / 10) sampleConfig sampleBox [] emptyState 1 = .ok st
      ∧ ∀ i, i < 3 →
        sampleConfig.oversizeCells * ((1 : ℚ) * (1 + 10 * 0)) / (sampleConfig.overlink : ℚ)
            ≤ st.geo.cellLatticeWidth.get i
        ∧ (1 : ℚ) / (sampleConfig.overlink : ℚ) ≤ st.geo.cellDimension.get i := by
  obtain ⟨st, h⟩ := reinitialise_sample_ok
  exact ⟨st, h, reinitialise_widths 64 21 0 (9 / 10) sampleConfig sampleBox [] emptyState 1 st
    (by decide) (by decide) (by norm_num) (by norm_num) (by decide) (by norm_num [sampleConfig])
    (by norm_num) (by norm_num [sampleBox])
    (fun i hi => by
      rw [sampleConfig_width]
      interval_cases i <;> simp only [sampleBox, CVector.get, sampleBox_count] <;> norm_num) h⟩

/-! ## The ledger invariant -/

/-- The ledger in the result of `runEvent` is the one left by lines 166-167. -/
theorem runEvent_ledger {S : Nat} {g : Grid} {cells : Nat → List Nat} {L : Ledger}
    {fuel pid : Nat} {d : Int} {r : RunEventResult}
    (h : runEvent S g cells L fuel pid d = some r) :
    r.ledger = runEventLedger S g L pid d
    ∧ r.endCell = runEventEndCell S g (L.cell pid) d := by
  unfold runEvent at h
  simp only [Option.map_eq_some'] at h
  obtain ⟨nb, _, rfl⟩ := h
  exact ⟨rfl, rfl⟩

/-- What a successful `addCells` has computed: the cell counts are at least 3 on every axis,
the clearing loops have ended without error, and the ledger is the cleared one with every
particle added. -/
theorem addCells_inv {W S : Nat} {eps lambda : ℚ} {ov : Nat} {sim : SimData} {old : CellState}
    {maxdiam : ℚ} {st : CellState}
    (h : addCells W S eps lambda ov sim old maxdiam = .ok st) :
    3 ≤ (cellCountsOf W eps sim.primaryCellSize maxdiam).x
    ∧ 3 ≤ (cellCountsOf W eps sim.primaryCellSize maxdiam).y
    ∧ 3 ≤ (cellCountsOf W eps sim.primaryCellSize maxdiam).z
    ∧ st.grid = mkGrid S (cellCountsOf W eps sim.primaryCellSize maxdiam) ov
    ∧ ∃ list1,
        clearCells S
          (getMortonNum S (mortonOfCoords S
            (cellCountsOf W eps sim.primaryCellSize maxdiam).x
            (cellCountsOf W eps sim.primaryCellSize maxdiam).y
            (cellCountsOf W eps sim.primaryCellSize maxdiam).z))
          (cellCoords (cellCountsOf W eps sim.primaryCellSize maxdiam))
          (fun i => if i < old.listSize then old.ledger.list i else 0) = .ok list1
        ∧ st.ledger = addParticles W S sim st.grid st.geo (List.range sim.N)
            { old.ledger with list := list1 } := by
  generalize hn : cellCountsOf W eps sim.primaryCellSize maxdiam = n
  unfold addCells at h
  rw [addCellsAxes_three, hn] at h
  by_cases h0 : n.x < 3
  · rw [if_pos h0] at h; simp at h
  by_cases h1 : n.y < 3
  · rw [if_neg h0, if_pos h1] at h; simp at h
  by_cases h2 : n.z < 3
  · rw [if_neg h0, if_neg h1, if_pos h2] at h; simp at h
  rw [if_neg h0, if_neg h1, if_neg h2] at h
  simp only at h
  cases hcl : clearCells S (getMortonNum S (mortonOfCoords S n.x n.y n.z)) (cellCoords n)
      (fun i => if i < old.listSize then old.ledger.list i else 0) with
  | error e => rw [hcl] at h; simp at h
  | ok list1 =>
    rw [hcl] at h
    simp only [Except.ok.injEq] at h
    subst h
    exact ⟨by omega, by omega, by omega, rfl, list1, rfl, rfl⟩

/-- After the clearing loops of `addCells`, the head slot of every visited cell holds -1. -/
theorem clearCells_heads (S sizeReq : Nat) (k : Nat) (cs : List (Nat × Nat × Nat)) :
    ∀ list list1 : Nat → Int, clearCells S sizeReq cs list = .ok list1 →
      (list k = -1 ∨ ∃ c ∈ cs, getMortonNum S (mortonOfCoords S c.1 c.2.1 c.2.2) = k) →
      list1 k = -1 := by
  induction cs with
  | nil =>
    intro list list1 h hk
    simp only [clearCells, Except.ok.injEq] at h
    subst h
    rcases hk with hk | ⟨c, hc, _⟩
    · exact hk
    · simp at hc
  | cons c cs ih =>
    intro list list1 h hk
    unfold clearCells at h
    cases hstep : clearCell S sizeReq list c with
    | error e => rw [hstep] at h; simp at h
    | ok list2 =>
      rw [hstep] at h
      simp only at h
      refine ih list2 list1 h ?_
      unfold clearCell at hstep
      simp only at hstep
      split_ifs at hstep with hgt
      simp only [Except.ok.injEq] at hstep
      subst hstep
      by_cases hid : getMortonNum S (mortonOfCoords S c.1 c.2.1 c.2.2) = k
      · left; rw [hid, Function.update_same]
      · rcases hk with hk | ⟨c2, hc2, hk2⟩
        · left; rw [Function.update_noteq (Ne.symm hid)]; exact hk
        · rcases List.mem_cons.1 hc2 with rfl | hc2
          · exact absurd hk2 hid
          · exact Or.inr ⟨c2, hc2, hk2⟩

/-- The stored cell of a particle after the loop of lines 389-390: the cell of its position
when the loop has visited it. -/
theorem addParticles_cell (W S : Nat) (sim : SimData) (g : Grid) (geo : Geometry) (p : Nat) :
    ∀ (ps : List Nat) (L : Ledger),
      (addParticles W S sim g geo ps L).cell p
        = if p ∈ ps then getMortonNum S (getCellID W S sim g geo (sim.position p))
          else L.cell p := by
  intro ps
  induction ps with
  | nil => intro L; simp [addParticles]
  | cons q ps ih =>
    intro L
    rw [addParticles, ih]
    by_cases hp : p ∈ ps
    · simp [hp]
    · by_cases hq : p = q
      · subst hq
        simp [hp, addToCell_cell]
      · simp [hp, hq, addToCell_cell, Function.update_noteq hq]

/-- Every cell `getCellID` returns lies in the grid when the cell counts are positive and
below `2 ^ 31`. -/
theorem getCellID_mem_grid (W S : Nat) (sim : SimData) (g : Grid) (geo : Geometry)
    (pos : CVector ℚ)
    (hx : 0 < g.cellCount.x ∧ g.cellCount.x < 2 ^ 31)
    (hy : 0 < g.cellCount.y ∧ g.cellCount.y < 2 ^ 31)
    (hz : 0 < g.cellCount.z ∧ g.cellCount.z < 2 ^ 31) :
    InGrid g.cellCount (getCellID W S sim g geo pos) := by
  unfold getCellID InGrid
  exact ⟨@getCellIDAxis_lt W S _ g.cellCount.x hx.1 hx.2,
    @getCellIDAxis_lt W S _ g.cellCount.y hy.1 hy.2,
    @getCellIDAxis_lt W S _ g.cellCount.z hz.1 hz.2⟩

/-- The loop of lines 389-390 over the particles `k, ..., k + j - 1` keeps the ledger well
formed when it starts from a well-formed ledger of the particles below `k`. -/
theorem addParticles_wf (W S : Nat) (sim : SimData) (g : Grid) (geo : Geometry)
    (n : CVector Nat)
    (hin : ∀ p, InGrid n (getCellID W S sim g geo (sim.position p))) :
    ∀ (j k : Nat) (L : Ledger) (occ : Nat → List Nat), LedgerWF S n k L occ →
      ∃ occ2, LedgerWF S n (k + j) (addParticles W S sim g geo (List.range' k j) L) occ2 := by
  intro j
  induction j with
  | zero => intro k L occ h; exact ⟨occ, h⟩
  | succ j ih =>
    intro k L occ h
    rw [List.range'_succ, addParticles]
    obtain ⟨occ2, h2⟩ := ih (k + 1) _ _ (ledgerWF_add h (hin k))
    exact ⟨occ2, by rw [show k + (j + 1) = k + 1 + j by omega]; exact h2⟩

/-- In a well-formed ledger the occupancy loop of a grid cell visits exactly the list `occ`
gives for the cell, as soon as it has one unit of fuel per particle. -/
theorem LedgerWF.occupancy_eq {S : Nat} {n : CVector Nat} {N : Nat} {L : Ledger}
    {occ : Nat → List Nat} (hwf : LedgerWF S n N L occ) {fuel : Nat} (hfuel : N ≤ fuel)
    {m : MortonNumber} (hm : InGrid n m) :
    occupancy L fuel (getMortonNum S m) = some (occ (getMortonNum S m)) := by
  unfold occupancy
  refine chain_of_seg _ _ _ (hwf.linked m hm) (le_trans ?_ hfuel)
  have hsub : occ (getMortonNum S m) ⊆ List.range N := fun q hq =>
    List.mem_range.2 ((hwf.mem_iff m hm q).1 hq).1
  have := ((hwf.nodup m hm).subperm hsub).length_le
  simpa using this

/-- The ledger a successful `addCells` leaves is well formed for the particles of the
simulation on the grid it has built, when the cell counts fit a dilated integer. -/
theorem addCells_ledgerWF {W S : Nat} {eps lambda : ℚ} {ov : Nat} {sim : SimData}
    {old : CellState} {maxdiam : ℚ} {st : CellState} (hS : 3 * S ≤ 64)
    (h : addCells W S eps lambda ov sim old maxdiam = .ok st)
    (hfit : st.grid.cellCount.x < 2 ^ S ∧ st.grid.cellCount.y < 2 ^ S
      ∧ st.grid.cellCount.z < 2 ^ S) :
    CountsOK S st.grid.cellCount
    ∧ st.grid = mkGrid S st.grid.cellCount ov
    ∧ (∀ p, InGrid st.grid.cellCount (getCellID W S sim st.grid st.geo (sim.position p)))
    ∧ ∃ occ, LedgerWF S st.grid.cellCount sim.N st.ledger occ := by
  obtain ⟨h0, h1, h2, hgrid, list1, hcl, hled⟩ := addCells_inv h
  generalize cellCountsOf W eps sim.primaryCellSize maxdiam = n at h0 h1 h2 hgrid hcl
  have hcc : st.grid.cellCount = n := by rw [hgrid]; rfl
  rw [hcc] at hfit ⊢
  have hn : CountsOK S n := ⟨⟨h0, hfit.1⟩, ⟨h1, hfit.2.1⟩, ⟨h2, hfit.2.2⟩⟩
  have hpow : 2 ^ S ≤ 2 ^ 21 := two_pow_le_of_digits hS
  have hin : ∀ p, InGrid n (getCellID W S sim st.grid st.geo (sim.position p)) := by
    intro p
    have := getCellID_mem_grid W S sim st.grid st.geo (sim.position p)
      (by rw [hcc]; exact ⟨by omega, by have := hfit.1; omega⟩)
      (by rw [hcc]; exact ⟨by omega, by have := hfit.2.1; omega⟩)
      (by rw [hcc]; exact ⟨by omega, by have := hfit.2.2; omega⟩)
    rw [hcc] at this
    exact this
  refine ⟨hn, hgrid, hin, ?_⟩
  have hbase : LedgerWF S n 0 { old.ledger with list := list1 } (fun _ => []) := by
    refine ⟨fun m hm => ?_, fun _ _ => List.nodup_nil, fun _ _ q => by simp,
      fun q hq => absurd hq (by omega)⟩
    show list1 (getMortonNum S m) = -1
    have hlt := inGrid_lt_pow hn hm
    refine clearCells_heads S _ _ _ _ _ hcl (Or.inr ⟨(m.x, m.y, m.z), mem_cellCoords.2 hm, ?_⟩)
    rw [mortonOfCoords_of_lt hlt.1 hlt.2.1 hlt.2.2]
  obtain ⟨occ, hocc⟩ := addParticles_wf W S sim st.grid st.geo n hin sim.N 0 _ _ hbase
  refine ⟨occ, ?_⟩
  rw [hled, List.range_eq_range']
  simpa using hocc

/-- Lines 166-167 of `runEvent` on a well-formed ledger: the ledger stays well formed, the
migrating particle is stored in the destination cell, a cell of the grid, and is listed there
and nowhere else, and the stored cell and the list membership of every other particle are
unchanged. -/
theorem runEventLedger_wf {S : Nat} {n : CVector Nat} {N : Nat} {L : Ledger}
    {occ : Nat → List Nat} (ov : Nat) (d : Int) {pid : Nat} (hn : CountsOK S n)
    (hwf : LedgerWF S n N L occ) (hpid : pid < N) :
    ∃ occ2, LedgerWF S n N (runEventLedger S (mkGrid S n ov) L pid d) occ2
      ∧ (∃ m, InGrid n m
          ∧ runEventEndCell S (mkGrid S n ov) (L.cell pid) d = getMortonNum S m)
      ∧ (runEventLedger S (mkGrid S n ov) L pid d).cell pid
          = runEventEndCell S (mkGrid S n ov) (L.cell pid) d
      ∧ (∀ q, q ≠ pid → (runEventLedger S (mkGrid S n ov) L pid d).cell q = L.cell q)
      ∧ (∀ m, InGrid n m →
          (pid ∈ occ2 (getMortonNum S m)
            ↔ getMortonNum S m = runEventEndCell S (mkGrid S n ov) (L.cell pid) d))
      ∧ (∀ q, q ≠ pid → ∀ m, InGrid n m →
          (q ∈ occ2 (getMortonNum S m) ↔ q ∈ occ (getMortonNum S m))) := by
  obtain ⟨c, hc, hcell⟩ := hwf.cell_inGrid pid hpid
  have hend : runEventEndCell S (mkGrid S n ov) (L.cell pid) d
      = getMortonNum S (stepCoord n c d) := by
    rw [hcell]
    exact runEventEndCell_flat ov d hn hc
  have hwf2 := ledgerWF_migrate (S := S) hwf hpid (stepCoord_inGrid d hn hc)
  rw [← hend] at hwf2
  have hcp : (runEventLedger S (mkGrid S n ov) L pid d).cell pid
      = runEventEndCell S (mkGrid S n ov) (L.cell pid) d := by
    unfold runEventLedger
    rw [addToCell_cell, Function.update_same]
  have hcq : ∀ q, q ≠ pid → (runEventLedger S (mkGrid S n ov) L pid d).cell q = L.cell q := by
    intro q hq
    unfold runEventLedger
    rw [addToCell_cell, Function.update_noteq hq, removeFromCell_cell]
  refine ⟨_, hwf2, ⟨_, stepCoord_inGrid d hn hc, hend⟩, hcp, hcq, fun m hm => ?_,
    fun q hq m hm => ?_⟩
  · have := hwf2.mem_iff m hm pid
    unfold runEventLedger at hcp
    rw [this, hcp]
    constructor
    · rintro ⟨_, h⟩; exact h.symm
    · intro h; exact ⟨hpid, h.symm⟩
  · have h2 := hwf2.mem_iff m hm q
    have hcq2 := hcq q hq
    unfold runEventLedger at hcq2
    rw [h2, hcq2, hwf.mem_iff m hm q]

/-- C12: after a successful `addCells` (cell counts fitting a dilated integer) every
particle's stored cell is the flat index of `getCellID` of its position, and the ledger is well
formed: the occupancy list of every grid cell holds exactly the particles stored in that cell,
each once. Lines 166-167 of `runEvent` keep every well-formed ledger well formed: the migrating
particle is stored in the destination cell, a cell of the grid, and is listed there and in no
other list; the stored cell and the list membership of every other particle are unchanged; and
this is the ledger in the result of `runEvent`, which returns when the walk stays in the
grid. -/
theorem ledger_invariant (W S : Nat) (eps lambda : ℚ) (ov : Nat) (sim : SimData)
    (old : CellState) (maxdiam : ℚ) (st : CellState) (pid : Nat) (d : Int)
    (hS : 3 * S ≤ 64)
    (h : addCells W S eps lambda ov sim old maxdiam = .ok st)
    (hfit : st.grid.cellCount.x < 2 ^ S ∧ st.grid.cellCount.y < 2 ^ S
      ∧ st.grid.cellCount.z < 2 ^ S)
    (hpid : pid < sim.N) (hd : IsDirection d) :
    (∀ p, p < sim.N →
      st.ledger.cell p = getMortonNum S (getCellID W S sim st.grid st.geo (sim.position p)))
    ∧ (∃ occ, LedgerWF S st.grid.cellCount sim.N st.ledger occ)
    ∧ (∀ fuel, sim.N ≤ fuel → ListsAgree S st.grid.cellCount sim.N fuel st.ledger)
    ∧ (∀ (L : Ledger) (occ : Nat → List Nat), LedgerWF S st.grid.cellCount sim.N L occ →
        ∃ occ2, LedgerWF S st.grid.cellCount sim.N (runEventLedger S st.grid L pid d) occ2
          ∧ (∀ fuel, sim.N ≤ fuel →
              ListsAgree S st.grid.cellCount sim.N fuel (runEventLedger S st.grid L pid d))
          ∧ (∀ fuel, sim.N ≤ fuel → ∀ m, InGrid st.grid.cellCount m →
              occupancy (runEventLedger S st.grid L pid d) fuel (getMortonNum S m)
                = some (occ2 (getMortonNum S m)))
          ∧ (∃ m, InGrid st.grid.cellCount m
              ∧ runEventEndCell S st.grid (L.cell pid) d = getMortonNum S m)
          ∧ (runEventLedger S st.grid L pid d).cell pid
              = runEventEndCell S st.grid (L.cell pid) d
          ∧ (∀ q, q ≠ pid → (runEventLedger S st.grid L pid d).cell q = L.cell q)
          ∧ (∀ m, InGrid st.grid.cellCount m →
              (pid ∈ occ2 (getMortonNum S m)
                ↔ getMortonNum S m = runEventEndCell S st.grid (L.cell pid) d))
          ∧ (∀ q, q ≠ pid → ∀ m, InGrid st.grid.cellCount m →
              (q ∈ occ2 (getMortonNum S m) ↔ q ∈ occ (getMortonNum S m)))
          ∧ (∀ (cells : Nat → List Nat) (fuel : Nat) (r : RunEventResult),
              runEvent S st.grid cells L fuel pid d = some r →
              r.ledger = runEventLedger S st.grid L pid d)
          ∧ (Headroom S st.grid.cellCount ov →
              ov < st.grid.cellCount.get (cellDirectionOf d) →
              ∀ (cells : Nat → List Nat) (fuel : Nat), sim.N ≤ fuel →
              ∃ r, runEvent S st.grid cells L fuel pid d = some r)) := by
  obtain ⟨hn, hg, hin, occ0, hwf0⟩ := addCells_ledgerWF hS h hfit
  obtain ⟨_, _, _, _, list1, _, hled⟩ := addCells_inv h
  refine ⟨fun p hp => ?_, ⟨occ0, hwf0⟩, fun fuel hfuel => hwf0.listsAgree hfuel,
    fun L occ hwf => ?_⟩
  · rw [hled, addParticles_cell, if_pos (List.mem_range.2 hp)]
  · generalize st.grid.cellCount = n at hn hg hwf ⊢
    rw [hg]
    obtain ⟨occ2, hwf2, hend, hcp, hcq, hmp, hmq⟩ := runEventLedger_wf ov d hn hwf hpid
    refine ⟨occ2, hwf2, fun fuel hfuel => hwf2.listsAgree hfuel,
      fun fuel hfuel m hm => hwf2.occupancy_eq hfuel hm, hend, hcp, hcq, hmp, hmq,
      fun cells fuel r hr => (runEvent_ledger hr).1, fun hh hov cells fuel hfuel => ?_⟩
    obtain ⟨c, hc, hcell⟩ := hwf.cell_inGrid pid hpid
    exact ⟨_, runEvent_eq cells L sim.N fuel pid hn hh hS hc hd hcell hov
      (hwf2.listsAgree hfuel)⟩

/-- The sample box with two particles and 18 cells per axis: `addCells` succeeds, both stored
cells are the cells of the positions, the ledger is well formed, and it stays well formed when
particle 0 crosses in the +x direction. -/
theorem ledger_invariant_witness :
    ∃ st, addCells 64 21 0 (9 / 10) sampleConfig.overlink sampleBox emptyState (11 / 20) = .ok st
      ∧ (∀ p, p < sampleBox.N →
          st.ledger.cell p
            = getMortonNum 21 (getCellID 64 21 sampleBox st.grid st.geo (sampleBox.position p)))
      ∧ (∃ occ, LedgerWF 21 st.grid.cellCount sampleBox.N st.ledger occ)
      ∧ (∃ occ2, LedgerWF 21 st.grid.cellCount sampleBox.N
          (runEventLedger 21 st.grid st.ledger 0 1) occ2) := by
  obtain ⟨st, h, hx, hy, hz⟩ := addCells_sample_ok
  have hall := ledger_invariant 64 21 0 (9 / 10) sampleConfig.overlink sampleBox emptyState
    (11 / 20) st 0 1 (by decide) h (by rw [hx, hy, hz]; norm_num) (by decide) (by decide)
  obtain ⟨occ, hocc⟩ := hall.2.1
  obtain ⟨occ2, hocc2, _⟩ := hall.2.2.2 st.ledger occ hocc
  exact ⟨st, h, hall.1, ⟨occ, hocc⟩, ⟨occ2, hocc2⟩⟩

/-! ## The look-ahead radius read by the loader -/

/-- C13 (amended): the loader stores the OverLink attribute unchecked. After construction and
a successful load the look-ahead radius is the value of the attribute when it is present, zero
included, and the constructors' value 1 when it is absent; so it is at least 1 exactly when the
attribute is absent or at least 1, and only then is the divisor `overlink` of `reinitialise`
different from zero. -/
theorem loadXML_overlink (name : String) (XML : XMLNode) (cfg : Config)
    (h : loadXML (defaultConfig name) XML = .ok cfg) :
    (∀ v : Nat, XML.OverLink = some (some v) → cfg.overlink = v)
    ∧ (XML.OverLink = none → cfg.overlink = 1)
    ∧ (1 ≤ cfg.overlink ↔ XML.OverLink ≠ some (some 0))
    ∧ (((cfg.overlink : ℚ) = 0) ↔ XML.OverLink = some (some 0)) := by
  obtain ⟨ol, os, nm⟩ := XML
  unfold loadXML at h
  rcases ol with _ | _ | o <;> rcases os with _ | _ | v <;> rcases nm with _ | nm <;>
    simp only [reduceCtorEq] at h <;>
    split_ifs at h with hlt <;>
    simp only [reduceCtorEq, Except.ok.injEq] at h <;>
    subst h <;>
    simp [defaultConfig] <;>
    omega

/-- A configuration without an OverLink attribute loads and keeps the constructors' look-ahead
radius 1. -/
theorem loadXML_overlink_witness :
    loadXML (defaultConfig "Cells") ⟨none, none, some "Cells"⟩
        = .ok { overlink := 1, oversizeCells := 1, globName := "Cells" }
    ∧ (∀ v : Nat, (⟨none, none, some "Cells"⟩ : XMLNode).OverLink = some (some v) →
        (⟨1, 1, "Cells"⟩ : Config).overlink = v)
    ∧ ((⟨none, none, some "Cells"⟩ : XMLNode).OverLink = none →
        (⟨1, 1, "Cells"⟩ : Config).overlink = 1)
    ∧ (1 ≤ (⟨1, 1, "Cells"⟩ : Config).overlink
        ↔ (⟨none, none, some "Cells"⟩ : XMLNode).OverLink ≠ some (some 0))
    ∧ ((((⟨1, 1, "Cells"⟩ : Config).overlink : ℚ) = 0)
        ↔ (⟨none, none, some "Cells"⟩ : XMLNode).OverLink = some (some 0)) :=
  ⟨by simp [loadXML, defaultConfig],
    loadXML_overlink "Cells" ⟨none, none, some "Cells"⟩ ⟨1, 1, "Cells"⟩
      (by simp [loadXML, defaultConfig])⟩

/-- C13 as stated fails: a configuration whose OverLink attribute is 0 is accepted, and the
state reached by construction followed by this successful load has `overlink = 0`. -/
theorem loadXML_overlink_counterexample :
    loadXML (defaultConfig "Cells") ⟨some (some 0), none, some "Cells"⟩
        = .ok { overlink := 0, oversizeCells := 1, globName := "Cells" }
    ∧ ¬ (∀ (XML : XMLNode) (cfg : Config),
          loadXML (defaultConfig "Cells") XML = .ok cfg → 1 ≤ cfg.overlink) := by
  have h : loadXML (defaultConfig "Cells") ⟨some (some 0), none, some "Cells"⟩
      = .ok { overlink := 0, oversizeCells := 1, globName := "Cells" } := by
    simp [loadXML, defaultConfig]
  refine ⟨h, fun hall => ?_⟩
  have := hall _ _ h
  simp at this

/-! ## Termination of the walk of `getParticleNeighbourhood` -/

theorem CVector.get_zero {α : Type} (v : CVector α) : v.get 0 = v.x := rfl

theorem CVector.get_one {α : Type} (v : CVector α) : v.get 1 = v.y := rfl

theorem CVector.get_two {α : Type} (v : CVector α) : v.get 2 = v.z := rfl

theorem CVector.set_zero {α : Type} (v : CVector α) (a : α) : v.set 0 a = ⟨a, v.y, v.z⟩ := rfl

theorem CVector.set_one {α : Type} (v : CVector α) (a : α) : v.set 1 a = ⟨v.x, a, v.z⟩ := rfl

theorem CVector.set_two {α : Type} (v : CVector α) (a : α) : v.set 2 a = ⟨v.x, v.y, a⟩ := rfl

/-- The dilated increment followed by the reset beyond the last cell is the wrapped
increment. -/
theorem dInc_wrap {S n v : Nat} (hn : n < 2 ^ S) (hv : v < n) :
    (if dInc S v > n - 1 then dOfNat S 0 else dInc S v) = wrapInc n v := by
  have h0 : dOfNat S 0 = 0 := by simp [dOfNat]
  rw [dInc_of_lt (by omega), h0]
  rfl

/-- One pass of the loop of `getParticleNeighbourhood` in plain arithmetic: the x coordinate
takes a wrapped increment; when it meets its bound it returns to its start and the y
coordinate takes a wrapped increment; when that meets its bound it returns to its start and
the z coordinate takes a wrapped increment. -/
theorem nbhdAdvance_eq {S : Nat} {n : CVector Nat} (ov : Nat) (zero max : MortonNumber)
    {c : MortonNumber} (hn : CountsOK S n) (hc : InGrid n c) :
    nbhdAdvance S (mkGrid S n ov) zero max c
      = if wrapInc n.x c.x ≠ max.x then ⟨wrapInc n.x c.x, c.y, c.z⟩
        else if wrapInc n.y c.y ≠ max.y then ⟨zero.x, wrapInc n.y c.y, c.z⟩
        else ⟨zero.x, zero.y, wrapInc n.z c.z⟩ := by
  obtain ⟨⟨hx3, hxS⟩, ⟨hy3, hyS⟩, ⟨hz3, hzS⟩⟩ := hn
  obtain ⟨hcx, hcy, hcz⟩ := hc
  have ex := dInc_wrap hxS hcx
  have ey := dInc_wrap hyS hcy
  have ez := dInc_wrap hzS hcz
  have mx : (mkGrid S n ov).dilatedCellMax.x = n.x - 1 := dOfNat_of_lt (by omega)
  have my : (mkGrid S n ov).dilatedCellMax.y = n.y - 1 := dOfNat_of_lt (by omega)
  have mz : (mkGrid S n ov).dilatedCellMax.z = n.z - 1 := dOfNat_of_lt (by omega)
  unfold nbhdAdvance
  simp only [CVector.get_zero, CVector.get_one, CVector.get_two, CVector.set_zero,
    CVector.set_one, CVector.set_two, mx, my, mz]
  rw [← ex, ← ey, ← ez]
  by_cases h1 : dInc S c.x > n.x - 1 <;> by_cases h2 : dInc S c.y > n.y - 1 <;>
    by_cases h3 : dInc S c.z > n.z - 1 <;>
    simp only [h1, h2, h3, if_true, if_false]

/-- A wrapped increment stays on the axis. -/
theorem wrapInc_lt {n v : Nat} (h1 : 1 ≤ n) : wrapInc n v < n := by
  unfold wrapInc
  split_ifs <;> omega

/-- The remaining increments of a coordinate of the axis are fewer than its cells. -/
theorem stepsAfter_lt {n mx v : Nat} (hm : mx < n) (hv : v < n) : stepsAfter n mx v < n := by
  unfold stepsAfter
  split_ifs <;> omega

/-- A wrapped increment that does not meet the bound leaves one increment less to go; one
that meets the bound was the last one. -/
theorem stepsAfter_wrapInc {n mx v : Nat} (hm : mx < n) (hv : v < n) :
    (wrapInc n v ≠ mx → stepsAfter n mx (wrapInc n v) + 1 = stepsAfter n mx v)
    ∧ (wrapInc n v = mx → stepsAfter n mx v = 0) := by
  unfold stepsAfter wrapInc
  constructor
  · intro h
    split_ifs at h ⊢ <;> omega
  · intro h
    split_ifs at h ⊢ <;> omega

/-- One pass of the loop of `getParticleNeighbourhood` from a cell of the grid whose z
coordinate has not met its bound leads to a cell of the grid with a smaller measure. -/
theorem nbhdAdvance_measure {S : Nat} {n : CVector Nat} (ov : Nat) {zero max c : MortonNumber}
    (hn : CountsOK S n) (hzero : InGrid n zero) (hmax : InGrid n max) (hc : InGrid n c)
    (hz : c.z ≠ max.z) :
    InGrid n (nbhdAdvance S (mkGrid S n ov) zero max c)
    ∧ nbhdMeasure n max (nbhdAdvance S (mkGrid S n ov) zero max c) < nbhdMeasure n max c := by
  rw [nbhdAdvance_eq ov zero max hn hc]
  obtain ⟨⟨hx3, _⟩, ⟨hy3, _⟩, ⟨hz3, _⟩⟩ := hn
  obtain ⟨hcx, hcy, hcz⟩ := hc
  obtain ⟨hzx, hzy, hzz⟩ := hzero
  obtain ⟨hmx, hmy, hmz⟩ := hmax
  have wx := wrapInc_lt (v := c.x) (show 1 ≤ n.x by omega)
  have wy := wrapInc_lt (v := c.y) (show 1 ≤ n.y by omega)
  have wz := wrapInc_lt (v := c.z) (show 1 ≤ n.z by omega)
  obtain ⟨sx1, sx2⟩ := stepsAfter_wrapInc hmx hcx
  obtain ⟨sy1, sy2⟩ := stepsAfter_wrapInc hmy hcy
  obtain ⟨sz1, sz2⟩ := stepsAfter_wrapInc hmz hcz
  have bx := stepsAfter_lt hmx hzx
  have by1 := stepsAfter_lt hmy hzy
  unfold nbhdMeasure
  by_cases h1 : wrapInc n.x c.x ≠ max.x
  · rw [if_pos h1]
    refine ⟨⟨wx, hcy, hcz⟩, ?_⟩
    have := sx1 h1
    simp only [if_neg hz]
    omega
  · rw [if_neg h1]
    have ex := sx2 (not_not.1 h1)
    by_cases h2 : wrapInc n.y c.y ≠ max.y
    · rw [if_pos h2]
      refine ⟨⟨hzx, wy, hcz⟩, ?_⟩
      have ey := sy1 h2
      simp only [if_neg hz]
      rw [← ey, ex, Nat.add_mul, Nat.one_mul]
      omega
    · rw [if_neg h2]
      have ey := sy2 (not_not.1 h2)
      refine ⟨⟨hzx, hzy, wz⟩, ?_⟩
      simp only [if_neg hz]
      by_cases h3 : wrapInc n.z c.z = max.z
      · rw [if_pos h3]
        omega
      · rw [if_neg h3]
        have ez := sz1 h3
        have hrow : stepsAfter n.y max.y zero.y * n.x + n.x ≤ n.y * n.x := by
          calc stepsAfter n.y max.y zero.y * n.x + n.x
              = (stepsAfter n.y max.y zero.y + 1) * n.x := by rw [Nat.add_mul, Nat.one_mul]
            _ ≤ n.y * n.x := Nat.mul_le_mul_right _ (by omega)
        rw [← ez, ex, ey, Nat.add_mul, Nat.one_mul]
        omega

/-- The start of the walk, axis by axis. -/
theorem nbhdZero_eq (S : Nat) (g : Grid) (c : MortonNumber) :
    nbhdZero S g c
      = ⟨startCoord S g.dilatedOverlink g.dilatedCellMax.x c.x,
         startCoord S g.dilatedOverlink g.dilatedCellMax.y c.y,
         startCoord S g.dilatedOverlink g.dilatedCellMax.z c.z⟩ := by
  unfold nbhdZero
  simp only [walkStart_eq, CVector.get_zero, CVector.get_one, CVector.get_two,
    CVector.set_zero, CVector.set_one, CVector.set_two]

/-- The bound of the walk, axis by axis. -/
theorem nbhdMax_eq (S : Nat) (g : Grid) (c : MortonNumber) :
    nbhdMax S g c
      = ⟨endCoord S g.dilatedOverlink g.dilatedCellMax.x c.x,
         endCoord S g.dilatedOverlink g.dilatedCellMax.y c.y,
         endCoord S g.dilatedOverlink g.dilatedCellMax.z c.z⟩ := by
  unfold nbhdMax nbhdMaxAxis endCoord
  simp only [CVector.get_zero, CVector.get_one, CVector.get_two,
    CVector.set_zero, CVector.set_one, CVector.set_two]

/-- For a look-ahead radius below the cell count the start of the walk on an axis is a
coordinate of the axis, with or without the correction. -/
theorem startCoord_lt {S n ov v : Nat} (hn : n < 2 ^ S) (hv : v < n) (hov : ov < n) :
    startCoord S ov (n - 1) v < n := by
  unfold startCoord dLimitMax
  have hin : dSub S (2 ^ S - 1) (n - 1) = 2 ^ S - n := by
    rw [dSub_of_le (by omega) (by omega)]
    omega
  rw [hin]
  by_cases hle : ov ≤ v
  · rw [dSub_of_le hle (by omega), if_neg (by omega)]
    omega
  · rw [dSub_of_lt (by omega) (by omega)]
    by_cases h : v + 2 ^ S - ov > n - 1
    · rw [if_pos h, dSub_of_le (by omega) (by omega)]
      omega
    · rw [if_neg h]
      omega

/-- For a look-ahead radius below the cell count the bound of the walk on an axis is a
coordinate of the axis, with or without the correction. -/
theorem endCoord_lt {S n ov v : Nat} (hn : n < 2 ^ S) (hv : v < n) (hov : ov < n) :
    endCoord S ov (n - 1) v < n := by
  have e1 : dOfNat S 1 = 1 := dOfNat_of_lt (by omega)
  have e2 : dAdd S ov 1 = ov + 1 := dAdd_of_lt (by omega)
  have e4 : dAdd S (n - 1) 1 = n := by rw [dAdd_of_lt (by omega)]; omega
  unfold endCoord
  rw [e1, e2, e4]
  by_cases hlt : v + (ov + 1) < 2 ^ S
  · rw [dAdd_of_lt hlt]
    by_cases h : v + (ov + 1) > n - 1
    · rw [if_pos h, dSub_of_le (by omega) hlt]
      omega
    · rw [if_neg h]
      omega
  · have e3 : dAdd S v (ov + 1) = v + (ov + 1) - 2 ^ S := by
      unfold dAdd
      rw [Nat.mod_eq_sub_mod (by omega), Nat.mod_eq_of_lt (by omega)]
    rw [e3, if_neg (by omega)]
    omega

/-- For a look-ahead radius below every cell count, the start and the bound of the walk of
`getParticleNeighbourhood` are cells of the grid. -/
theorem nbhd_bounds_inGrid {S : Nat} {n : CVector Nat} (ov : Nat) {c : MortonNumber}
    (hn : CountsOK S n) (hc : InGrid n c) (hov : ov < n.x ∧ ov < n.y ∧ ov < n.z) :
    InGrid n (nbhdZero S (mkGrid S n ov) c) ∧ InGrid n (nbhdMax S (mkGrid S n ov) c) := by
  obtain ⟨⟨hx3, hxS⟩, ⟨hy3, hyS⟩, ⟨hz3, hzS⟩⟩ := hn
  obtain ⟨hcx, hcy, hcz⟩ := hc
  have mx : (mkGrid S n ov).dilatedCellMax.x = n.x - 1 := dOfNat_of_lt (by omega)
  have my : (mkGrid S n ov).dilatedCellMax.y = n.y - 1 := dOfNat_of_lt (by omega)
  have mz : (mkGrid S n ov).dilatedCellMax.z = n.z - 1 := dOfNat_of_lt (by omega)
  have mo : (mkGrid S n ov).dilatedOverlink = ov := dOfNat_of_lt (by omega)
  rw [nbhdZero_eq, nbhdMax_eq, mx, my, mz, mo]
  exact ⟨⟨startCoord_lt hxS hcx hov.1, startCoord_lt hyS hcy hov.2.1,
      startCoord_lt hzS hcz hov.2.2⟩,
    ⟨endCoord_lt hxS hcx hov.1, endCoord_lt hyS hcy hov.2.1, endCoord_lt hzS hcz hov.2.2⟩⟩

/-- The measure of a cell of the grid is at most the number of cells. -/
theorem nbhdMeasure_le {n : CVector Nat} {max c : MortonNumber} (hmax : InGrid n max)
    (hc : InGrid n c) : nbhdMeasure n max c ≤ n.x * n.y * n.z := by
  obtain ⟨hcx, hcy, hcz⟩ := hc
  obtain ⟨hmx, hmy, hmz⟩ := hmax
  have bx := stepsAfter_lt hmx hcx
  have by1 := stepsAfter_lt hmy hcy
  have bz := stepsAfter_lt hmz hcz
  unfold nbhdMeasure
  split_ifs
  · exact Nat.zero_le _
  · have hrow : stepsAfter n.y max.y c.y * n.x + n.x ≤ n.y * n.x := by
      calc stepsAfter n.y max.y c.y * n.x + n.x
          = (stepsAfter n.y max.y c.y + 1) * n.x := by rw [Nat.add_mul, Nat.one_mul]
        _ ≤ n.y * n.x := Nat.mul_le_mul_right _ (by omega)
    have hplane : stepsAfter n.z max.z c.z * (n.y * n.x) + n.y * n.x ≤ n.z * (n.y * n.x) := by
      calc stepsAfter n.z max.z c.z * (n.y * n.x) + n.y * n.x
          = (stepsAfter n.z max.z c.z + 1) * (n.y * n.x) := by rw [Nat.add_mul, Nat.one_mul]
        _ ≤ n.z * (n.y * n.x) := Nat.mul_le_mul_right _ (by omega)
    have e : n.x * n.y * n.z = n.z * (n.y * n.x) := by ring
    rw [e]
    omega

/-- The `while` loop of `getParticleNeighbourhood` ends on a well-formed ledger: from a cell
of the grid it returns as soon as the fuel covers the measure of the cell and one unit per
particle. -/
theorem nbhdLoop_returns {S : Nat} {n : CVector Nat} (ov : Nat) {N : Nat} {L : Ledger}
    {occ : Nat → List Nat} (pid : Nat) {zero max : MortonNumber} (hn : CountsOK S n)
    (hwf : LedgerWF S n N L occ) (hzero : InGrid n zero) (hmax : InGrid n max) :
    ∀ (fuel : Nat) (c : MortonNumber), InGrid n c → nbhdMeasure n max c + N ≤ fuel →
      ∃ l, nbhdLoop S (mkGrid S n ov) L pid zero max fuel c = some l := by
  intro fuel
  induction fuel with
  | zero =>
    intro c _ hm
    have h0 : nbhdMeasure n max c = 0 := by omega
    have hz : c.get 2 = max.get 2 := by
      by_contra hne
      have hne2 : ¬ c.z = max.z := hne
      unfold nbhdMeasure at h0
      rw [if_neg hne2] at h0
      omega
    exact ⟨[], by simp only [nbhdLoop, if_pos hz]⟩
  | succ fuel ih =>
    intro c hc hm
    by_cases hz : c.get 2 = max.get 2
    · exact ⟨[], by simp only [nbhdLoop, if_pos hz]⟩
    · obtain ⟨hin, hlt⟩ := nbhdAdvance_measure ov hn hzero hmax hc hz
      obtain ⟨r, hr⟩ := ih _ hin (by omega)
      have hocc := hwf.occupancy_eq (show N ≤ fuel + 1 by omega) hc
      refine ⟨(occ (getMortonNum S c)).filter (fun (q : Nat) => decide ((q : Int) ≠ (pid : Int)))
        ++ r, ?_⟩
      simp only [nbhdLoop, if_neg hz, hocc, hr]

/-- The walking coordinate of `getParticleNeighbourhood` meets the bound on the z axis after
at most as many passes as the measure of the starting cell. -/
theorem nbhdAdvance_reaches {S : Nat} {n : CVector Nat} (ov : Nat) {zero max : MortonNumber}
    (hn : CountsOK S n) (hzero : InGrid n zero) (hmax : InGrid n max) :
    ∀ (k : Nat) (c : MortonNumber), InGrid n c → nbhdMeasure n max c ≤ k →
      ∃ j, j ≤ k ∧ ((nbhdAdvance S (mkGrid S n ov) zero max)^[j] c).get 2 = max.get 2 := by
  intro k
  induction k with
  | zero =>
    intro c _ hm
    have h0 : nbhdMeasure n max c = 0 := by omega
    refine ⟨0, le_refl _, ?_⟩
    by_contra hne
    have hne2 : ¬ c.z = max.z := hne
    unfold nbhdMeasure at h0
    rw [if_neg hne2] at h0
    omega
  | succ k ih =>
    intro c hc hm
    by_cases hz : c.get 2 = max.get 2
    · exact ⟨0, Nat.zero_le _, hz⟩
    · obtain ⟨hin, hlt⟩ := nbhdAdvance_measure ov hn hzero hmax hc hz
      obtain ⟨j, hj, hreach⟩ := ih _ hin (by omega)
      exact ⟨j + 1, by omega, by rw [Function.iterate_succ_apply]; exact hreach⟩

/-- C15: for every grid with at least three encodable cells per axis, every look-ahead radius
below the cell count of each axis (so every `1 ≤ overlink < cellCount`) and every centre cell,
the `while` loop of `getParticleNeighbourhood` terminates: the walking coordinate meets
`max_coords` on the z axis after at most `n_x * n_y * n_z` passes, and on a well-formed ledger
of `N` particles the function returns once the fuel covers these passes and one step per
particle. -/
theorem getParticleNeighbourhood_terminates (S : Nat) (n : CVector Nat) (ov : Nat)
    (c : MortonNumber) (L : Ledger) (N pid : Nat)
    (hn : CountsOK S n) (hc : InGrid n c) (hov : ov < n.x ∧ ov < n.y ∧ ov < n.z)
    (hwf : ∃ occ, LedgerWF S n N L occ) (hcell : L.cell pid = getMortonNum S c) :
    (∃ j, j ≤ n.x * n.y * n.z
      ∧ ((nbhdAdvance S (mkGrid S n ov) (nbhdZero S (mkGrid S n ov) c)
            (nbhdMax S (mkGrid S n ov) c))^[j] (nbhdZero S (mkGrid S n ov) c)).get 2
          = (nbhdMax S (mkGrid S n ov) c).get 2)
    ∧ (∀ fuel, n.x * n.y * n.z + N ≤ fuel →
        ∃ l, getParticleNeighbourhood S (mkGrid S n ov) L fuel pid = some l) := by
  obtain ⟨hzero, hmax⟩ := nbhd_bounds_inGrid ov hn hc hov
  have hm := nbhdMeasure_le hmax hzero
  constructor
  · obtain ⟨j, hj, h⟩ := nbhdAdvance_reaches ov hn hzero hmax _ _ hzero (le_refl _)
    exact ⟨j, le_trans hj hm, h⟩
  · intro fuel hfuel
    obtain ⟨occ, hwf⟩ := hwf
    have hc2 : ofMortonNum S (L.cell pid) = c := by
      rw [hcell]
      exact ofMortonNum_getMortonNum_inGrid hn hc
    obtain ⟨l, hl⟩ := nbhdLoop_returns ov pid hn hwf hzero hmax fuel _ hzero (by omega)
    refine ⟨l.map (fun q => (pid, q)), ?_⟩
    unfold getParticleNeighbourhood
    simp only [hc2, hl, Option.map_some']

/-- The 4x4x4 grid with look-ahead radius 1 and the two sample particles in the cells (0,0,0)
and (2,0,0): the walk around particle 0 ends within 64 passes and `getParticleNeighbourhood`
returns with 66 units of fuel. -/
theorem getParticleNeighbourhood_terminates_witness :
    (∃ j, j ≤ 4 * 4 * 4
      ∧ ((nbhdAdvance 21 (mkGrid 21 ⟨4, 4, 4⟩ 1) (nbhdZero 21 (mkGrid 21 ⟨4, 4, 4⟩ 1) ⟨0, 0, 0⟩)
            (nbhdMax 21 (mkGrid 21 ⟨4, 4, 4⟩ 1) ⟨0, 0, 0⟩))^[j]
              (nbhdZero 21 (mkGrid 21 ⟨4, 4, 4⟩ 1) ⟨0, 0, 0⟩)).get 2
          = (nbhdMax 21 (mkGrid 21 ⟨4, 4, 4⟩ 1) ⟨0, 0, 0⟩).get 2)
    ∧ (∃ l, getParticleNeighbourhood 21 (mkGrid 21 ⟨4, 4, 4⟩ 1)
        (twoParticles 21 ⟨0, 0, 0⟩ ⟨2, 0, 0⟩) 66 0 = some l) :=
  ⟨(getParticleNeighbourhood_terminates 21 ⟨4, 4, 4⟩ 1 ⟨0, 0, 0⟩
      (twoParticles 21 ⟨0, 0, 0⟩ ⟨2, 0, 0⟩) 2 0 (by decide) (by decide) (by decide)
      (ledgerWF_twoParticles 21 ⟨4, 4, 4⟩ (by decide) (by decide)) (by decide)).1,
    (getParticleNeighbourhood_terminates 21 ⟨4, 4, 4⟩ 1 ⟨0, 0, 0⟩
      (twoParticles 21 ⟨0, 0, 0⟩ ⟨2, 0, 0⟩) 2 0 (by decide) (by decide) (by decide)
      (ledgerWF_twoParticles 21 ⟨4, 4, 4⟩ (by decide) (by decide)) (by decide)).2 66
      (by decide)⟩

/-! ## Rounding to `Iflt` -/

theorem roundHalfEven_le (t : ℚ) : (roundHalfEven t : ℚ) ≤ t + 1 / 2 := by
  unfold roundHalfEven
  have h1 := Int.floor_le t
  split_ifs <;> push_cast <;> linarith

theorem roundHalfEven_ge (t : ℚ) : t - 1 / 2 ≤ (roundHalfEven t : ℚ) := by
  unfold roundHalfEven
  have h2 := Int.lt_floor_add_one t
  split_ifs <;> push_cast <;> linarith

theorem roundHalfEven_floor (t : ℚ) : ⌊t⌋ ≤ roundHalfEven t ∧ roundHalfEven t ≤ ⌊t⌋ + 1 := by
  unfold roundHalfEven
  split_ifs <;> omega

theorem roundHalfEven_intCast (k : ℤ) : roundHalfEven (k : ℚ) = k := by
  unfold roundHalfEven
  simp

/-- Rounding to the nearest integer is monotone. -/
theorem roundHalfEven_mono {t1 t2 : ℚ} (h : t1 ≤ t2) : roundHalfEven t1 ≤ roundHalfEven t2 := by
  have hf : ⌊t1⌋ ≤ ⌊t2⌋ := Int.floor_mono h
  rcases lt_or_eq_of_le hf with hlt | heq
  · have a := (roundHalfEven_floor t1).2
    have b := (roundHalfEven_floor t2).1
    omega
  · unfold roundHalfEven
    rw [heq]
    split_ifs <;> first | omega | (exfalso; linarith)

/-- The binary exponent brackets a positive rational between two powers of two. -/
theorem binExp_spec {q : ℚ} (hq : 0 < q) :
    (2 : ℚ) ^ binExp q ≤ q ∧ q < (2 : ℚ) ^ (binExp q + 1) := by
  unfold binExp
  have h1 := Int.zpow_log_le_self (b := 2) (by norm_num) hq
  have h2 := Int.lt_zpow_succ_log_self (b := 2) (by norm_num) q
  push_cast at h1 h2
  exact ⟨h1, h2⟩

/-- The binary exponent is the only integer that brackets the rational. -/
theorem binExp_unique {q : ℚ} {e : ℤ} (h1 : (2 : ℚ) ^ e ≤ q) (h2 : q < (2 : ℚ) ^ (e + 1)) :
    binExp q = e := by
  have hq : 0 < q := lt_of_lt_of_le (zpow_pos (by norm_num) e) h1
  unfold binExp
  have a := (Int.zpow_le_iff_le_log (b := 2) (by norm_num) hq (x := e)).1 (by push_cast; exact h1)
  have b := (Int.lt_zpow_iff_log_lt (b := 2) (by norm_num) hq (x := e + 1)).1
    (by push_cast; exact h2)
  omega

/-- The spacing around a positive rational in terms of its binary exponent. -/
theorem ulpOf_eq (p : Nat) {q : ℚ} (hq : 0 < q) :
    ulpOf p q = (2 : ℚ) ^ binExp q * 2 / 2 ^ p := by
  unfold ulpOf
  rw [abs_of_pos hq, show binExp q - ((p : ℤ) - 1) = binExp q + 1 - (p : ℤ) by ring,
    zpow_sub₀ (by norm_num), zpow_add₀ (by norm_num), zpow_one, zpow_natCast]

theorem ulpOf_pos (p : Nat) (q : ℚ) : 0 < ulpOf p q := by
  unfold ulpOf
  exact zpow_pos (by norm_num) _

/-- The value as an `Iflt` of a positive rational. -/
theorem flRound_of_pos (p : Nat) {q : ℚ} (hq : 0 < q) :
    flRound p q = (roundHalfEven (q / ulpOf p q) : ℚ) * ulpOf p q := by
  unfold flRound
  rw [if_neg (ne_of_gt hq)]

/-- Rounding to `Iflt` raises a positive rational by at most the relative error
`2 ^ (-p)`. -/
theorem flRound_le (p : Nat) {q : ℚ} (hq : 0 < q) : flRound p q ≤ q * (1 + 1 / 2 ^ p) := by
  rw [flRound_of_pos p hq]
  have hs := ulpOf_pos p q
  have hr := roundHalfEven_le (q / ulpOf p q)
  have h1 : (roundHalfEven (q / ulpOf p q) : ℚ) * ulpOf p q ≤ (q / ulpOf p q + 1 / 2) * ulpOf p q :=
    mul_le_mul_of_nonneg_right hr hs.le
  have h2 : (q / ulpOf p q + 1 / 2) * ulpOf p q = q + ulpOf p q / 2 := by
    field_simp
    ring
  have h3 : ulpOf p q / 2 ≤ q * (1 / 2 ^ p) := by
    rw [ulpOf_eq p hq]
    have hP : (0 : ℚ) < 2 ^ p := by positivity
    have hE := (binExp_spec hq).1
    rw [show (2 : ℚ) ^ binExp q * 2 / 2 ^ p / 2 = (2 : ℚ) ^ binExp q * (1 / 2 ^ p) by
      field_simp
      ring]
    exact mul_le_mul_of_nonneg_right hE (by positivity)
  linarith

/-- A positive rational that is a whole multiple of the spacing around it is an `Iflt`. -/
theorem flRound_exact (p : Nat) {q : ℚ} (hq : 0 < q) (k : ℤ) (hk : q / ulpOf p q = (k : ℚ)) :
    flRound p q = q := by
  rw [flRound_of_pos p hq, hk, roundHalfEven_intCast]
  rw [← hk]
  exact div_mul_cancel₀ q (ne_of_gt (ulpOf_pos p q))

/-- Rounding to `Iflt` is monotone on the positive rationals. -/
theorem flRound_mono {p : Nat} (hp : 1 ≤ p) {q1 q2 : ℚ} (h1 : 0 < q1) (h : q1 ≤ q2) :
    flRound p q1 ≤ flRound p q2 := by
  have h2 : 0 < q2 := lt_of_lt_of_le h1 h
  have he : binExp q1 ≤ binExp q2 := Int.log_mono_right h1 h
  have hP : (0 : ℚ) < 2 ^ p := by positivity
  obtain ⟨a1, b1⟩ := binExp_spec h1
  obtain ⟨a2, b2⟩ := binExp_spec h2
  rw [flRound_of_pos p h1, flRound_of_pos p h2]
  rcases lt_or_eq_of_le he with hlt | heq
  · have hE1 : (0 : ℚ) < 2 ^ binExp q1 := zpow_pos (by norm_num) _
    have hE2 : (0 : ℚ) < 2 ^ binExp q2 := zpow_pos (by norm_num) _
    have hs1 := ulpOf_pos p q1
    have hs2 := ulpOf_pos p q2
    -- the lower value rounds to at most the next power of two
    have u1 : (roundHalfEven (q1 / ulpOf p q1) : ℚ) ≤ 2 ^ p := by
      have hle : q1 / ulpOf p q1 ≤ (((2 ^ p : ℕ) : ℤ) : ℚ) := by
        rw [div_le_iff₀ hs1, ulpOf_eq p h1]
        push_cast
        rw [show (2 : ℚ) ^ p * ((2 : ℚ) ^ binExp q1 * 2 / 2 ^ p) = (2 : ℚ) ^ binExp q1 * 2 by
          field_simp]
        rw [zpow_add₀ (by norm_num), zpow_one] at b1
        exact b1.le
      have := roundHalfEven_mono hle
      rw [roundHalfEven_intCast] at this
      have hc : ((roundHalfEven (q1 / ulpOf p q1) : ℤ) : ℚ) ≤ (((2 ^ p : ℕ) : ℤ) : ℚ) := by
        exact_mod_cast this
      push_cast at hc
      exact hc
    have v1 : (roundHalfEven (q1 / ulpOf p q1) : ℚ) * ulpOf p q1 ≤ (2 : ℚ) ^ (binExp q1 + 1) := by
      calc (roundHalfEven (q1 / ulpOf p q1) : ℚ) * ulpOf p q1
          ≤ 2 ^ p * ulpOf p q1 := mul_le_mul_of_nonneg_right u1 hs1.le
        _ = (2 : ℚ) ^ (binExp q1 + 1) := by
          rw [ulpOf_eq p h1, zpow_add₀ (by norm_num), zpow_one]
          field_simp
    -- the higher value rounds to at least its own power of two
    obtain ⟨j, hj⟩ : ∃ j : ℕ, p = j + 1 := ⟨p - 1, by omega⟩
    have u2 : (2 : ℚ) ^ j ≤ (roundHalfEven (q2 / ulpOf p q2) : ℚ) := by
      have hle : (((2 ^ j : ℕ) : ℤ) : ℚ) ≤ q2 / ulpOf p q2 := by
        rw [le_div_iff₀ hs2, ulpOf_eq p h2, hj]
        push_cast
        rw [show (2 : ℚ) ^ j * ((2 : ℚ) ^ binExp q2 * 2 / 2 ^ (j + 1)) = (2 : ℚ) ^ binExp q2 by
          rw [pow_succ]; field_simp; ring]
        exact a2
      have := roundHalfEven_mono hle
      rw [roundHalfEven_intCast] at this
      have hc : (((2 ^ j : ℕ) : ℤ) : ℚ) ≤ ((roundHalfEven (q2 / ulpOf p q2) : ℤ) : ℚ) := by
        exact_mod_cast this
      push_cast at hc
      exact hc
    have v2 : (2 : ℚ) ^ binExp q2 ≤ (roundHalfEven (q2 / ulpOf p q2) : ℚ) * ulpOf p q2 := by
      calc (2 : ℚ) ^ binExp q2 = 2 ^ j * ulpOf p q2 := by
            rw [ulpOf_eq p h2, hj, pow_succ]; field_simp; ring
        _ ≤ (roundHalfEven (q2 / ulpOf p q2) : ℚ) * ulpOf p q2 :=
            mul_le_mul_of_nonneg_right u2 hs2.le
    have hmid : (2 : ℚ) ^ (binExp q1 + 1) ≤ (2 : ℚ) ^ binExp q2 :=
      zpow_le_zpow_right₀ (by norm_num) (by omega)
    linarith
  · have hs : ulpOf p q1 = ulpOf p q2 := by rw [ulpOf_eq p h1, ulpOf_eq p h2, heq]
    rw [hs]
    have hpos := ulpOf_pos p q2
    have hm : roundHalfEven (q1 / ulpOf p q2) ≤ roundHalfEven (q2 / ulpOf p q2) :=
      roundHalfEven_mono (div_le_div_of_nonneg_right h hpos.le)
    have hc : ((roundHalfEven (q1 / ulpOf p q2) : ℤ) : ℚ)
        ≤ ((roundHalfEven (q2 / ulpOf p q2) : ℤ) : ℚ) := by exact_mod_cast hm
    exact mul_le_mul_of_nonneg_right hc hpos.le

/-- The value as an `Iflt` of a positive rational is not negative. -/
theorem flRound_nonneg (p : Nat) {q : ℚ} (hq : 0 < q) : 0 ≤ flRound p q := by
  rw [flRound_of_pos p hq]
  have hs := ulpOf_pos p q
  have ht : 0 ≤ q / ulpOf p q := div_nonneg hq.le hs.le
  have hf : (0 : ℤ) ≤ roundHalfEven (q / ulpOf p q) :=
    le_trans (Int.floor_nonneg.2 ht) (roundHalfEven_floor _).1
  have hc : (0 : ℚ) ≤ ((roundHalfEven (q / ulpOf p q) : ℤ) : ℚ) := by exact_mod_cast hf
  exact mul_nonneg hc hs.le

/-- Every counter from 1 to `2 ^ p` is an `Iflt` with `p` significant digits: its conversion
is exact. -/
theorem flRound_natCast {p : Nat} (hp : 1 ≤ p) {k : Nat} (hk1 : 1 ≤ k) (hk2 : k ≤ 2 ^ p) :
    flRound p (k : ℚ) = (k : ℚ) := by
  have hkq : (0 : ℚ) < (k : ℚ) := by exact_mod_cast hk1
  have hlog : binExp (k : ℚ) = ((Nat.log 2 k : ℕ) : ℤ) := by
    unfold binExp
    exact Int.log_natCast 2 k
  have hlo : 2 ^ Nat.log 2 k ≤ k := Nat.pow_log_le_self 2 (by omega)
  have hjp : Nat.log 2 k ≤ p :=
    (Nat.pow_le_pow_iff_right (by norm_num : 1 < 2)).1 (le_trans hlo hk2)
  have hulp : ulpOf p (k : ℚ) = (2 : ℚ) ^ Nat.log 2 k * 2 / 2 ^ p := by
    rw [ulpOf_eq p hkq, hlog, zpow_natCast]
  generalize Nat.log 2 k = j at hlo hjp hulp
  rcases Nat.lt_or_ge j p with hlt | hge
  · obtain ⟨d, hd⟩ : ∃ d, p = j + 1 + d := ⟨p - j - 1, by omega⟩
    refine flRound_exact p hkq ((k * 2 ^ d : ℕ) : ℤ) ?_
    rw [hulp, hd]
    push_cast
    rw [pow_add, pow_succ]
    field_simp
    ring
  · have hj : j = p := by omega
    subst hj
    have hk : k = 2 ^ j := le_antisymm hk2 hlo
    obtain ⟨d, hd⟩ : ∃ d, j = d + 1 := ⟨j - 1, by omega⟩
    refine flRound_exact j hkq ((2 ^ d : ℕ) : ℤ) ?_
    rw [hulp, hk, hd]
    push_cast
    rw [pow_succ]
    field_simp

/-! ## `CUBinary::placeObjects` -/

/-- The test of line 46 on counters that convert exactly: when the rounded quotient is below a
mole fraction that is itself an `Iflt`, so is the exact quotient. -/
theorem quotient_lt_of_rounded {p : Nat} (hp : 1 ≤ p) {x q : ℚ}
    (hxr : flRound p x = x) (hq : 0 < q) (h : flRound p q < x) : q < x := by
  by_contra hge
  have hle : x ≤ q := not_lt.1 hge
  have hxpos : 0 < x := lt_of_le_of_lt (flRound_nonneg p hq) h
  have := flRound_mono hp hxpos hle
  rw [hxr] at this
  exact absurd h (not_lt.2 this)

/-- The members after `k` calls on a fresh object whose mole fraction `x` is an `Iflt`, as
long as the counters convert exactly and the call counter has not wrapped: the call counter is
`k`, the mole fraction is untouched, the first counter is the number of delegations to the
first unit cell, and it stays within one of `x * k` up to the rounding of the quotient. -/
theorem placeMany_invariant (W p : Nat) (x : ℚ) (hp : 1 ≤ p) (hx0 : 0 ≤ x) (hx1 : x ≤ 1)
    (hxr : flRound p x = x) :
    ∀ k, k < 2 ^ W → k ≤ 2 ^ p →
      (CUBinary.placeMany W p k (CUBinary.fresh x)).2.count = k
      ∧ (CUBinary.placeMany W p k (CUBinary.fresh x)).2.molfrac = x
      ∧ (CUBinary.placeMany W p k (CUBinary.fresh x)).2.countA ≤ k
      ∧ (CUBinary.placeMany W p k (CUBinary.fresh x)).1.count true
          = (CUBinary.placeMany W p k (CUBinary.fresh x)).2.countA
      ∧ (CUBinary.placeMany W p k (CUBinary.fresh x)).1.length = k
      ∧ (1 ≤ k →
          1 ≤ (CUBinary.placeMany W p k (CUBinary.fresh x)).2.countA
          ∧ x * k ≤ (((CUBinary.placeMany W p k (CUBinary.fresh x)).2.countA : ℚ) + 1)
              * (1 + 1 / 2 ^ p)
          ∧ ((CUBinary.placeMany W p k (CUBinary.fresh x)).2.countA : ℚ) ≤ x * k + 1) := by
  have hu : (0 : ℚ) < 1 / 2 ^ p := by positivity
  intro k
  induction k with
  | zero =>
    intro _ _
    refine ⟨rfl, rfl, le_refl _, rfl, rfl, fun h => absurd h (by decide)⟩
  | succ k ih =>
    intro hk hkp
    obtain ⟨hc, hm, ha, hd, hl, hb⟩ := ih (by omega) (by omega)
    generalize hr : CUBinary.placeMany W p k (CUBinary.fresh x) = r at hc hm ha hd hl hb
    have hstep : CUBinary.placeMany W p (k + 1) (CUBinary.fresh x)
        = (r.1 ++ [(CUBinary.placeObjects W p r.2).1], (CUBinary.placeObjects W p r.2).2) := by
      simp only [CUBinary.placeMany, hr]
    rw [hstep]
    have hk1 : (k + 1) % 2 ^ W = k + 1 := Nat.mod_eq_of_lt hk
    have ha1 : (r.2.countA + 1) % 2 ^ W = r.2.countA + 1 := Nat.mod_eq_of_lt (by omega)
    unfold CUBinary.placeObjects
    by_cases h0 : r.2.count = 0
    · have hk0 : k = 0 := by omega
      subst hk0
      have ha0 : r.2.countA = 0 := by omega
      have h1m : 1 % 2 ^ W = 1 := by simpa using hk1
      simp only [h0, if_true, ha0, zero_add, h1m]
      refine ⟨trivial, hm, le_refl _, ?_, by simp [hl], fun _ => ⟨le_refl _, ?_, ?_⟩⟩
      · rw [List.count_append, hd, ha0]; simp
      · push_cast
        nlinarith
      · push_cast
        linarith
    · have hkpos : 1 ≤ k := by omega
      obtain ⟨hapos, hlo, hhi⟩ := hb hkpos
      have hkq : (0 : ℚ) < (k : ℚ) := by exact_mod_cast hkpos
      have haq : (0 : ℚ) < (r.2.countA : ℚ) := by exact_mod_cast hapos
      have hfa : flRound p (r.2.countA : ℚ) = (r.2.countA : ℚ) :=
        flRound_natCast hp hapos (by omega)
      have hfk : flRound p (r.2.count : ℚ) = (k : ℚ) := by
        rw [hc]
        exact flRound_natCast hp hkpos (by omega)
      have hq : (0 : ℚ) < (r.2.countA : ℚ) / (k : ℚ) := div_pos haq hkq
      simp only [h0, if_false, hfa, hfk, hm]
      by_cases hlt : flRound p ((r.2.countA : ℚ) / (k : ℚ)) < x
      · simp only [hlt, if_true]
        have hex := quotient_lt_of_rounded hp hxr hq hlt
        rw [div_lt_iff₀ hkq] at hex
        have hak : r.2.countA < k := by
          have h1 : (r.2.countA : ℚ) < (k : ℚ) := by nlinarith
          exact_mod_cast h1
        refine ⟨by rw [hc]; exact hk1, trivial, by rw [ha1]; omega, ?_, by simp [hl],
          fun _ => ⟨by rw [ha1]; omega, ?_, ?_⟩⟩
        · rw [List.count_append, hd, ha1]; simp
        · rw [ha1]
          push_cast
          nlinarith
        · rw [ha1]
          push_cast
          nlinarith
      · simp only [hlt, if_false]
        have hge : x ≤ flRound p ((r.2.countA : ℚ) / (k : ℚ)) := not_lt.1 hlt
        have herr := flRound_le p hq
        have hxk : x * k ≤ (r.2.countA : ℚ) * (1 + 1 / 2 ^ p) := by
          have h1 : x ≤ (r.2.countA : ℚ) / (k : ℚ) * (1 + 1 / 2 ^ p) := le_trans hge herr
          have h2 := mul_le_mul_of_nonneg_right h1 hkq.le
          have h3 : (r.2.countA : ℚ) / (k : ℚ) * (1 + 1 / 2 ^ p) * (k : ℚ)
              = (r.2.countA : ℚ) * (1 + 1 / 2 ^ p) := by
            field_simp
            ring
          rw [h3] at h2
          exact h2
        refine ⟨by rw [hc]; exact hk1, trivial, by omega, ?_, by simp [hl],
          fun _ => ⟨hapos, ?_, ?_⟩⟩
        · rw [List.count_append, hd]; simp
        · push_cast
          nlinarith
        · push_cast
          nlinarith

/-- C16 (amended): for every mole fraction `x` that is an `Iflt` with `0 ≤ x ≤ 1` and every
number `n ≥ 1` of calls of `placeObjects` on a fresh object, as long as the counters convert to
`Iflt` exactly (`n ≤ 2 ^ p`, with `p` the significant digits of `Iflt`) and fit a `size_t`:
`count = n`, `countA ≤ count`, `countA` is the number of placements delegated to the first
unit cell, and `x * n / (1 + 2 ^ (-p)) - 1 ≤ countA ≤ x * n + 1`. The upper bound is the one of
the claim; the lower bound gives way by the relative rounding error of the quotient of
line 46. -/
theorem placeObjects_counts (W p : Nat) (x : ℚ) (n : Nat) (hp : 1 ≤ p) (hx0 : 0 ≤ x)
    (hx1 : x ≤ 1) (hxr : flRound p x = x) (hn : 1 ≤ n) (hW : n < 2 ^ W) (hP : n ≤ 2 ^ p) :
    (CUBinary.placeMany W p n (CUBinary.fresh x)).2.count = n
    ∧ (CUBinary.placeMany W p n (CUBinary.fresh x)).2.countA
        ≤ (CUBinary.placeMany W p n (CUBinary.fresh x)).2.count
    ∧ (CUBinary.placeMany W p n (CUBinary.fresh x)).1.length = n
    ∧ (CUBinary.placeMany W p n (CUBinary.fresh x)).1.count true
        = (CUBinary.placeMany W p n (CUBinary.fresh x)).2.countA
    ∧ x * n / (1 + 1 / 2 ^ p) - 1
        ≤ ((CUBinary.placeMany W p n (CUBinary.fresh x)).2.countA : ℚ)
    ∧ ((CUBinary.placeMany W p n (CUBinary.fresh x)).2.countA : ℚ) ≤ x * n + 1 := by
  obtain ⟨hc, _, ha, hd, hl, hb⟩ := placeMany_invariant W p x hp hx0 hx1 hxr n hW hP
  obtain ⟨_, hlo, hhi⟩ := hb hn
  have hu : (0 : ℚ) < 1 + 1 / 2 ^ p := by positivity
  refine ⟨hc, by rw [hc]; exact ha, hl, hd, ?_, hhi⟩
  have h1 : x * n / (1 + 1 / 2 ^ p)
      ≤ ((CUBinary.placeMany W p n (CUBinary.fresh x)).2.countA : ℚ) + 1 := by
    rw [div_le_iff₀ hu]
    exact hlo
  linarith

/-- A positive rational that lies in the binade of exponent `e` and is a whole multiple of the
spacing of that binade is an `Iflt`. -/
theorem flRound_of_scaled (p : Nat) {q : ℚ} (e k : ℤ) (h1 : (2 : ℚ) ^ e ≤ q)
    (h2 : q < (2 : ℚ) ^ (e + 1)) (hk : q = (k : ℚ) * (2 : ℚ) ^ (e - ((p : ℤ) - 1))) :
    flRound p q = q := by
  have hq : 0 < q := lt_of_lt_of_le (zpow_pos (by norm_num) e) h1
  have hu : ulpOf p q = (2 : ℚ) ^ (e - ((p : ℤ) - 1)) := by
    unfold ulpOf
    rw [abs_of_pos hq, binExp_unique h1 h2]
  refine flRound_exact p hq k ?_
  rw [hu]
  have hne : (2 : ℚ) ^ (e - ((p : ℤ) - 1)) ≠ 0 := ne_of_gt (zpow_pos (by norm_num) _)
  rw [div_eq_iff hne]
  exact hk

/-- The mole fraction 1/2 is a `double`. -/
theorem flRound_half : flRound 53 (1 / 2) = 1 / 2 :=
  flRound_of_scaled 53 (-1) (2 ^ 52) (by norm_num) (by norm_num) (by norm_num)

/-- Five calls with mole fraction 1/2, `double` arithmetic and 64-bit counters: `count = 5`,
`countA ≤ count`, and `countA` is within the proved bounds of 5/2. -/
theorem placeObjects_counts_witness :
    (CUBinary.placeMany 64 53 5 (CUBinary.fresh (1 / 2))).2.count = 5
    ∧ (CUBinary.placeMany 64 53 5 (CUBinary.fresh (1 / 2))).2.countA
        ≤ (CUBinary.placeMany 64 53 5 (CUBinary.fresh (1 / 2))).2.count
    ∧ (CUBinary.placeMany 64 53 5 (CUBinary.fresh (1 / 2))).1.length = 5
    ∧ (CUBinary.placeMany 64 53 5 (CUBinary.fresh (1 / 2))).1.count true
        = (CUBinary.placeMany 64 53 5 (CUBinary.fresh (1 / 2))).2.countA
    ∧ (1 / 2 : ℚ) * (5 : ℕ) / (1 + 1 / 2 ^ 53) - 1
        ≤ ((CUBinary.placeMany 64 53 5 (CUBinary.fresh (1 / 2))).2.countA : ℚ)
    ∧ ((CUBinary.placeMany 64 53 5 (CUBinary.fresh (1 / 2))).2.countA : ℚ)
        ≤ (1 / 2 : ℚ) * (5 : ℕ) + 1 :=
  placeObjects_counts 64 53 (1 / 2) 5 (by decide) (by norm_num) (by norm_num) flRound_half
    (by decide) (by norm_num) (by norm_num)

/-- The mole fraction `1 - 2 ^ (-28)` is a `double`. -/
theorem flRound_sample : flRound 53 (268435455 / 268435456) = 268435455 / 268435456 :=
  flRound_of_scaled 53 (-1) 9007199221186560 (by norm_num) (by norm_num) (by norm_num)

/-- The value as a `double` of a rational in the binade of 1/2. -/
theorem flRound_binade_half {q : ℚ} (h1 : 1 / 2 ≤ q) (h2 : q < 1) :
    flRound 53 q = (roundHalfEven (q * 2 ^ 53) : ℚ) / 2 ^ 53 := by
  have hq : 0 < q := by linarith
  have he : binExp q = -1 := binExp_unique (by norm_num; linarith) (by norm_num; exact h2)
  have hu : ulpOf 53 q = 1 / 2 ^ 53 := by
    unfold ulpOf
    rw [abs_of_pos hq, he]
    norm_num
  rw [flRound_of_pos 53 hq, hu]
  rw [show q / (1 / 2 ^ 53) = q * 2 ^ 53 by field_simp]
  ring

/-- With the mole fraction `1 - 2 ^ (-28)`, the test of line 46 succeeds for `countA = k - 1`
and `count = k` up to `k = 2 ^ 28 - 4`. -/
theorem sample_quotient_lt {a k : Nat} (h1 : 1 ≤ a) (hak : k = a + 1) (hk : k ≤ 268435452) :
    flRound 53 (flRound 53 (a : ℚ) / flRound 53 (k : ℚ)) < 268435455 / 268435456 := by
  have hkq : (2 : ℚ) ≤ (k : ℚ) := by
    have : 2 ≤ k := by omega
    exact_mod_cast this
  have hkq2 : (k : ℚ) ≤ 268435452 := by exact_mod_cast hk
  have hsub : (a : ℚ) = (k : ℚ) - 1 := by
    rw [hak]
    push_cast
    ring
  rw [flRound_natCast (by decide) h1 (by
        calc a ≤ 268435452 := by omega
          _ ≤ 2 ^ 53 := by norm_num),
    flRound_natCast (by decide) (by omega) (by
        calc k ≤ 268435452 := hk
          _ ≤ 2 ^ 53 := by norm_num), hsub]
  have hkpos : (0 : ℚ) < (k : ℚ) := by linarith
  have hq1 : 1 / 2 ≤ ((k : ℚ) - 1) / (k : ℚ) := by
    rw [le_div_iff₀ hkpos]
    linarith
  have hq2 : ((k : ℚ) - 1) / (k : ℚ) < 1 := by
    rw [div_lt_iff₀ hkpos]
    linarith
  rw [flRound_binade_half hq1 hq2]
  have hr := roundHalfEven_le (((k : ℚ) - 1) / (k : ℚ) * 2 ^ 53)
  have ht : ((k : ℚ) - 1) / (k : ℚ) * 2 ^ 53 + 1 / 2 < 9007199221186560 := by
    have e : ((k : ℚ) - 1) / (k : ℚ) * 2 ^ 53 = (((k : ℚ) - 1) * 2 ^ 53) / (k : ℚ) := by ring
    rw [e, ← lt_sub_iff_add_lt, div_lt_iff₀ hkpos]
    norm_num
    linarith
  rw [div_lt_iff₀ (by positivity)]
  norm_num
  linarith

/-- With the mole fraction `1 - 2 ^ (-28)`, the test of line 46 fails for
`countA = 2 ^ 28 - 4` and `count = 2 ^ 28 - 3`: the rounded quotient is the mole fraction
itself, although the exact quotient is smaller. -/
theorem sample_quotient_ge :
    ¬ flRound 53 (flRound 53 ((268435452 : ℕ) : ℚ) / flRound 53 ((268435453 : ℕ) : ℚ))
        < 268435455 / 268435456 := by
  rw [flRound_natCast (by decide) (by norm_num) (by norm_num),
    flRound_natCast (by decide) (by norm_num) (by norm_num)]
  rw [flRound_binade_half (by norm_num) (by norm_num), not_lt]
  have hr := roundHalfEven_ge (((268435452 : ℕ) : ℚ) / ((268435453 : ℕ) : ℚ) * 2 ^ 53)
  have hi : (9007199221186560 : ℤ)
      ≤ roundHalfEven (((268435452 : ℕ) : ℚ) / ((268435453 : ℕ) : ℚ) * 2 ^ 53) := by
    have h1 : ((9007199221186560 - 1 : ℤ) : ℚ)
        < ((roundHalfEven (((268435452 : ℕ) : ℚ) / ((268435453 : ℕ) : ℚ) * 2 ^ 53) : ℤ) : ℚ) := by
      refine lt_of_lt_of_le ?_ hr
      norm_num
    have h2 : (9007199221186560 - 1 : ℤ)
        < roundHalfEven (((268435452 : ℕ) : ℚ) / ((268435453 : ℕ) : ℚ) * 2 ^ 53) := by
      exact_mod_cast h1
    omega
  have hc : ((9007199221186560 : ℤ) : ℚ)
      ≤ ((roundHalfEven (((268435452 : ℕ) : ℚ) / ((268435453 : ℕ) : ℚ) * 2 ^ 53) : ℤ) : ℚ) := by
    exact_mod_cast hi
  rw [le_div_iff₀ (by positivity)]
  norm_num at hc ⊢
  exact hc

/-- The members after a first call. -/
theorem placeObjects_first (W p : Nat) (b : CUBinary) (h : b.count = 0) :
    (CUBinary.placeObjects W p b).2
      = { b with countA := (b.countA + 1) % 2 ^ W, count := (b.count + 1) % 2 ^ W } := by
  unfold CUBinary.placeObjects
  rw [if_pos h]

/-- The members after a later call whose test of line 46 succeeds. -/
theorem placeObjects_lt (W p : Nat) (b : CUBinary) (h : b.count ≠ 0)
    (hlt : flRound p (flRound p (b.countA : ℚ) / flRound p (b.count : ℚ)) < b.molfrac) :
    (CUBinary.placeObjects W p b).2
      = { b with countA := (b.countA + 1) % 2 ^ W, count := (b.count + 1) % 2 ^ W } := by
  unfold CUBinary.placeObjects
  rw [if_neg h, if_pos hlt]

/-- The members after a later call whose test of line 46 fails. -/
theorem placeObjects_ge (W p : Nat) (b : CUBinary) (h : b.count ≠ 0)
    (hge : ¬ flRound p (flRound p (b.countA : ℚ) / flRound p (b.count : ℚ)) < b.molfrac) :
    (CUBinary.placeObjects W p b).2 = { b with count := (b.count + 1) % 2 ^ W } := by
  unfold CUBinary.placeObjects
  rw [if_neg h, if_neg hge]

/-- The members after one more call. -/
theorem placeMany_succ (W p k : Nat) (b : CUBinary) :
    (CUBinary.placeMany W p (k + 1) b).2
      = (CUBinary.placeObjects W p (CUBinary.placeMany W p k b).2).2 := rfl

/-- With the mole fraction `1 - 2 ^ (-28)` and `double` arithmetic, every call from the third
to call `2 ^ 28 - 3` is delegated to the first unit cell: after `k + 2` calls the counters are
`count = k + 2` and `countA = k + 1`. -/
theorem sample_members :
    ∀ k, k + 2 ≤ 268435453 →
      (CUBinary.placeMany 64 53 (k + 2) (CUBinary.fresh (268435455 / 268435456))).2
        = { molfrac := 268435455 / 268435456, count := k + 2, countA := k + 1 } := by
  intro k
  induction k with
  | zero =>
    intro _
    have h1 : (CUBinary.placeMany 64 53 1 (CUBinary.fresh (268435455 / 268435456))).2
        = { molfrac := 268435455 / 268435456, count := 1, countA := 1 } := by
      rw [placeMany_succ, placeObjects_first 64 53 _ rfl]
      rfl
    rw [placeMany_succ, h1, placeObjects_ge 64 53 _ (by decide)]
    · rfl
    · simp only
      rw [flRound_natCast (by decide) (le_refl 1) (by norm_num)]
      rw [show ((1 : ℕ) : ℚ) / ((1 : ℕ) : ℚ) = ((1 : ℕ) : ℚ) by norm_num,
        flRound_natCast (by decide) (le_refl 1) (by norm_num)]
      norm_num
  | succ k ih =>
    intro hk
    have hprev := ih (by omega)
    rw [show k + 1 + 2 = (k + 2) + 1 by omega, placeMany_succ, hprev,
      placeObjects_lt 64 53 _ (by simp)]
    · have e1 : (k + 1 + 1) % 2 ^ 64 = k + 2 :=
        Nat.mod_eq_of_lt (lt_of_le_of_lt (by omega : k + 1 + 1 ≤ 268435453) (by norm_num))
      have e2 : (k + 2 + 1) % 2 ^ 64 = k + 2 + 1 :=
        Nat.mod_eq_of_lt (lt_of_le_of_lt (by omega : k + 2 + 1 ≤ 268435453) (by norm_num))
      simp only [e1, e2]
    · exact sample_quotient_lt (a := k + 1) (k := k + 2) (by omega) rfl (by omega)

/-- C16 as stated fails on `double` arithmetic: with the mole fraction `x = 1 - 2 ^ (-28)`,
which is a `double` between 0 and 1, the test of call `2 ^ 28 - 2` compares the rounded
quotient of `countA = 2 ^ 28 - 4` by `count = 2 ^ 28 - 3`, which is `x` itself, so the call is
delegated to the second unit cell; after these `n = 268435454` calls `countA = 268435452`,
which is less than `x * n - 1`. -/
theorem placeObjects_counts_counterexample :
    (0 : ℚ) ≤ 268435455 / 268435456 ∧ (268435455 / 268435456 : ℚ) ≤ 1
    ∧ flRound 53 (268435455 / 268435456) = 268435455 / 268435456
    ∧ (CUBinary.placeMany 64 53 268435454 (CUBinary.fresh (268435455 / 268435456))).2.count
        = 268435454
    ∧ (CUBinary.placeMany 64 53 268435454 (CUBinary.fresh (268435455 / 268435456))).2.countA
        = 268435452
    ∧ ¬ ((268435455 / 268435456 : ℚ) * (268435454 : ℕ) - 1
        ≤ ((CUBinary.placeMany 64 53 268435454
            (CUBinary.fresh (268435455 / 268435456))).2.countA : ℚ)) := by
  have hprev : (CUBinary.placeMany 64 53 268435453
      (CUBinary.fresh (268435455 / 268435456))).2
      = { molfrac := 268435455 / 268435456, count := 268435453, countA := 268435452 } :=
    sample_members 268435451 (by norm_num)
  have hlast : (CUBinary.placeMany 64 53 (268435453 + 1)
      (CUBinary.fresh (268435455 / 268435456))).2
      = { molfrac := 268435455 / 268435456, count := 268435454, countA := 268435452 } := by
    rw [placeMany_succ, hprev, placeObjects_ge 64 53 _ (by decide)]
    · rfl
    · exact sample_quotient_ge
  have hlast2 : (CUBinary.placeMany 64 53 268435454
      (CUBinary.fresh (268435455 / 268435456))).2
      = { molfrac := 268435455 / 268435456, count := 268435454, countA := 268435452 } := hlast
  refine ⟨by norm_num, by norm_num, flRound_sample, ?_, ?_, ?_⟩
  · rw [hlast2]
  · rw [hlast2]
  · rw [hlast2]
    norm_num

end DynamO
